import Mathlib

/-!
# uno-q-kms: work partition, line rasterizer and buffer hand-off

A shallow embedding of the C sources

* `kms-min-mt.c` / `kms-min.c`: `put_pixel`, `draw_line`, `random_int`,
  `worker` and the partition loop of `main`;
* `ogl-min-line-perf.c`: `graphics_present`;
* `ogl-line-perf.c`: `bo_to_fb`, the present before the loop and the present
  block of the loop of `main`.

C `int` values are modelled as `Int` and `uint32_t` values as `Nat`.  The
partition loop is shown to stay inside `[0, count]`; `draw_line` checks every
`int` operation against the 32-bit range and reports an overflow as such.
-/

namespace KmsMin

/-! ## Work partition (`kms-min-mt.c`, `main`) -/

/-- The fields `start` and `end` of `thread_arg_t` (the pointers `fb` and
`line_list` are the same for every worker). -/
structure thread_arg_t where
  start : Int
  end_ : Int
deriving DecidableEq, Repr

/-- The chunk size `int chunk = line_count / THREADS;` (C division truncates
towards zero). -/
def chunk (line_count THREADS : Int) : Int :=
  Int.tdiv line_count THREADS

/-- The body of the loop `for (int t = 0; t < THREADS; t++)` of `main`:
`args[t].start = t * chunk;`
`args[t].end = (t == THREADS-1) ? line_count : (t+1)*chunk;`. -/
def make_arg (line_count THREADS t : Int) : thread_arg_t :=
  { start := t * chunk line_count THREADS
    end_ := if t = THREADS - 1 then line_count else (t + 1) * chunk line_count THREADS }

/-- The array `args[0 .. THREADS-1]` after the partition loop of `main`. -/
def main_args (line_count THREADS : Int) : List thread_arg_t :=
  (List.range THREADS.toNat).map (fun (t : Nat) => make_arg line_count THREADS (t : Int))

/-- The values taken by `i` in `for (int i = s; i < e; i++)`, given the number
of iterations left. -/
def for_indices (i : Int) : Nat → List Int
  | 0 => []
  | n + 1 => i :: for_indices (i + 1) n

/-- The indices `i` for which `worker` calls `draw_line` on `line_list[i]`:
the loop `for (int i = a->start; i < a->end; i++)` runs `end - start` times
(no time when `end <= start`). -/
def worker (a : thread_arg_t) : List Int :=
  for_indices a.start (a.end_ - a.start).toNat

/-- Every `draw_line` call of one frame, worker after worker. -/
def frame_draws (line_count THREADS : Int) : List Int :=
  (main_args line_count THREADS).flatMap worker

/-! ## Pixel buffer and line rasterizer (`kms-min.c`, `kms-min-mt.c`) -/

/-- The struct `framebuffer_t`.  `pixels` is the mapped memory, one byte per
byte offset from the pointer `pixels`; the other fields are `uint32_t`. -/
structure framebuffer_t where
  pixels : Int → Nat
  width : Nat
  height : Nat
  pitch : Nat
  size : Nat

/-- A frame buffer as `init_framebuffer` returns it: the fields are `uint32_t`
values and the `size` bytes mapped at `pixels` hold `height` rows of `pitch`
bytes. -/
def framebuffer_t.valid (fb : framebuffer_t) : Prop :=
  fb.width < 2 ^ 32 ∧ fb.height < 2 ^ 32 ∧ fb.pitch < 2 ^ 32 ∧ fb.size < 2 ^ 32
    ∧ fb.height * fb.pitch ≤ fb.size

/-- A 4-byte store `*(uint32_t *)(base + off) = v` (little endian). -/
def store32 (m : Int → Nat) (off : Int) (v : Nat) : Int → Nat :=
  fun a => if off ≤ a ∧ a < off + 4 then v / 256 ^ (a - off).toNat % 256 else m a

/-- A 4-byte load `*(uint32_t *)(base + off)` (little endian). -/
def load32 (m : Int → Nat) (off : Int) : Nat :=
  m off + 256 * m (off + 1) + 65536 * m (off + 2) + 16777216 * m (off + 3)

/-- The byte offset from `fb->pixels` of the cell addressed by `put_pixel`:
`row = base + (uint64_t)y * fb->pitch` (a 64-bit unsigned product) and then
`row[x]`, which is `4 * x` bytes further. -/
def pixel_offset (fb : framebuffer_t) (x y : Int) : Int :=
  (y % 2 ^ 64) * (fb.pitch : Int) % 2 ^ 64 + 4 * x

/-- The function `put_pixel`: one 4-byte store, no bounds check. -/
def put_pixel (fb : framebuffer_t) (x y : Int) (argb : Nat) : framebuffer_t :=
  { fb with pixels := store32 fb.pixels (pixel_offset fb x y) argb }

/-- The value of the pixel `(x, y)`: the cell that `put_pixel` addresses, read
back. -/
def pixel_at (fb : framebuffer_t) (x y : Int) : Nat :=
  load32 fb.pixels (pixel_offset fb x y)

/-- The values of a C `int` (32 bits, two's complement). -/
def int_ok (z : Int) : Prop := -2147483648 ≤ z ∧ z ≤ 2147483647

instance int_ok_decidable (z : Int) : Decidable (int_ok z) := by
  unfold int_ok
  infer_instance

/-- The loop variables `x0`, `y0`, `err` of `draw_line`. -/
structure line_state where
  x0 : Int
  y0 : Int
  err : Int
deriving DecidableEq, Repr

/-- The part of the loop body of `draw_line` after the `break` test:
`int e2 = 2 * err;`
`if (e2 >= dy) { err += dy; x0 += sx; }`
`if (e2 <= dx) { err += dx; y0 += sy; }`
with `none` when one of these `int` operations overflows (undefined
behaviour). -/
def line_step (dx dy sx sy : Int) (s : line_state) : Option line_state :=
  let e2 := 2 * s.err
  if ¬ int_ok e2 then none
  else
    let r1 : Option line_state :=
      if e2 ≥ dy then
        if int_ok (s.err + dy) ∧ int_ok (s.x0 + sx) then
          some { s with err := s.err + dy, x0 := s.x0 + sx }
        else none
      else some s
    match r1 with
    | none => none
    | some s1 =>
      if e2 ≤ dx then
        if int_ok (s1.err + dx) ∧ int_ok (s1.y0 + sy) then
          some { s1 with err := s1.err + dx, y0 := s1.y0 + sy }
        else none
      else some s1

/-- The same loop body on unbounded integers; `line_step` returns this state
whenever no operation overflows. -/
def line_step_int (dx dy sx sy : Int) (s : line_state) : line_state :=
  let e2 := 2 * s.err
  let s1 : line_state := if e2 ≥ dy then { s with err := s.err + dy, x0 := s.x0 + sx } else s
  if e2 ≤ dx then { s1 with err := s1.err + dx, y0 := s1.y0 + sy } else s1

/-- How a bounded run of `draw_line` ends. -/
inductive run_result where
  /-- The loop reached its `break`: the frame buffer after the call and the
  coordinates passed to `put_pixel`, in call order. -/
  | finished (fb : framebuffer_t) (writes : List (Int × Int))
  /-- A signed `int` operation overflowed (undefined behaviour). -/
  | overflow
  /-- The loop is still running after the given number of iterations. -/
  | running

/-- The loop `for(;;)` of `draw_line`, run for at most the given number of
iterations. -/
def draw_line_loop (x1 y1 dx dy sx sy : Int) (argb : Nat) :
    Nat → framebuffer_t → line_state → run_result
  | 0, _, _ => run_result.running
  | n + 1, fb, s =>
    let fb1 := put_pixel fb s.x0 s.y0 argb
    if s.x0 = x1 ∧ s.y0 = y1 then run_result.finished fb1 [(s.x0, s.y0)]
    else
      match line_step dx dy sx sy s with
      | none => run_result.overflow
      | some s2 =>
        match draw_line_loop x1 y1 dx dy sx sy argb n fb1 s2 with
        | run_result.finished fb2 tr => run_result.finished fb2 ((s.x0, s.y0) :: tr)
        | run_result.overflow => run_result.overflow
        | run_result.running => run_result.running

/-- The statement `int dx = (x1 > x0) ? (x1 - x0) : (x0 - x1);`. -/
def line_dx (x0 x1 : Int) : Int := if x1 > x0 then x1 - x0 else x0 - x1

/-- The statement `int sx = (x0 < x1) ? 1 : -1;` (and likewise `sy`). -/
def line_sx (x0 x1 : Int) : Int := if x0 < x1 then 1 else -1

/-- The statement `int dy = (y1 > y0) ? (y0 - y1) : (y1 - y0);`. -/
def line_dy (y0 y1 : Int) : Int := if y1 > y0 then y0 - y1 else y1 - y0

/-- The function `draw_line` with a bound on the number of loop iterations;
`overflow` also when `dx`, `dy` or `err = dx + dy` does not fit an `int`. -/
def draw_line (fuel : Nat) (fb : framebuffer_t) (x0 y0 x1 y1 : Int) (argb : Nat) :
    run_result :=
  let dx := line_dx x0 x1
  let sx := line_sx x0 x1
  let dy := line_dy y0 y1
  let sy := line_sx y0 y1
  let err := dx + dy
  if int_ok dx ∧ int_ok dy ∧ int_ok err then
    draw_line_loop x1 y1 dx dy sx sy argb fuel fb { x0 := x0, y0 := y0, err := err }
  else run_result.overflow

/-- The pixel `(x, y)` lies in `[0, width-1] x [0, height-1]`. -/
def in_bounds (fb : framebuffer_t) (x y : Int) : Prop :=
  0 ≤ x ∧ x < fb.width ∧ 0 ≤ y ∧ y < fb.height

/-- The frame buffer after the `put_pixel` calls of a list of coordinates. -/
def put_pixels (fb : framebuffer_t) (argb : Nat) (tr : List (Int × Int)) : framebuffer_t :=
  tr.foldl (fun f p => put_pixel f p.1 p.2 argb) fb

/-- What `draw_line` computes before its loop, as relations between the
endpoints and `dx`, `dy`, `sx`, `sy`. -/
structure line_setup (x0 y0 x1 y1 dx dy sx sy : Int) : Prop where
  dx_nonneg : 0 ≤ dx
  dy_nonpos : dy ≤ 0
  sx_unit : sx = 1 ∨ sx = -1
  sy_unit : sy = 1 ∨ sy = -1
  x1_eq : x1 = x0 + dx * sx
  y1_eq : y1 = y0 + (-dy) * sy

/-- Loop invariant of `draw_line` after `i` steps in `x` and `j` steps in `y`:
the position, the closed form of `err` and the range of `2 * err`. -/
def line_inv (x0 y0 dx dy sx sy : Int) (i j : Int) (s : line_state) : Prop :=
  0 ≤ i ∧ i ≤ dx ∧ 0 ≤ j ∧ j ≤ -dy ∧ s.x0 = x0 + i * sx ∧ s.y0 = y0 + j * sy
    ∧ s.err = dx + dy + i * dy + j * dx ∧ 3 * dy ≤ 2 * s.err ∧ 2 * s.err ≤ 3 * dx

/-- Sizes for which the `int` arithmetic of the loop cannot overflow: the
endpoints and extents are below `2^30` in absolute value, and so is every
value of `err` allowed by the loop invariant. -/
structure line_small (x0 y0 x1 y1 dx dy : Int) : Prop where
  x0_small : -1073741824 < x0 ∧ x0 < 1073741824
  y0_small : -1073741824 < y0 ∧ y0 < 1073741824
  x1_small : -1073741824 < x1 ∧ x1 < 1073741824
  y1_small : -1073741824 < y1 ∧ y1 < 1073741824
  dx_small : dx < 1073741824
  dy_small : -1073741824 < dy
  err_small : ∀ i j e : Int, 0 ≤ i → i ≤ dx → 0 ≤ j → j ≤ -dy →
    e = dx + dy + i * dy + j * dx → 3 * dy ≤ 2 * e → 2 * e ≤ 3 * dx →
    -1073741824 < e ∧ e < 1073741824

/-! ## Buffer hand-off (`ogl-min-line-perf.c`, `ogl-line-perf.c`)

The programs talk to the display through libdrm and GBM.  A run is the list of
the calls made, each with what it returned; the state of the display side is
computed from that list. -/

/-- A call made by a present step, with its result. -/
inductive kms_call where
  /-- The call `gbm_surface_lock_front_buffer(...)` returned the buffer object `bo`. -/
  | lock_front_buffer (bo : Nat)
  /-- The call `drmModeAddFB(..., &new_fb)` returned `ret`; when `ret = 0` it stored the
  new framebuffer id `fb` in `new_fb`. -/
  | add_fb (ret : Int) (fb : Nat)
  /-- The call `drmModeSetCrtc(..., fb, ...)` returned `ret`. -/
  | set_crtc (fb : Nat) (ret : Int)
  /-- The call `drmModeRmFB(fd, fb)`. -/
  | rm_fb (fb : Nat)
  /-- The call `gbm_surface_release_buffer(surface, bo)`. -/
  | release_buffer (bo : Nat)
  /-- The statements `perror(...); _exit(1);`. -/
  | exit_failure
deriving DecidableEq, Repr

/-- The display side: the framebuffer ids registered and not removed, the buffer
objects locked and not released, the framebuffer id set on the CRTC (0 when
none), and the calls made so far, oldest first. -/
structure kms_state where
  fbs : List Nat
  locked : List Nat
  crtc : Nat
  log : List kms_call
deriving DecidableEq, Repr

/-- The display side before any call. -/
def kms_state.init : kms_state := { fbs := [], locked := [], crtc := 0, log := [] }

/-- The effect of one call on the display side.  A call that returned an error
changes nothing; removing the framebuffer that is on the CRTC turns the CRTC
off. -/
def kms_state.apply (k : kms_state) (c : kms_call) : kms_state :=
  match c with
  | kms_call.lock_front_buffer bo => { k with locked := bo :: k.locked, log := k.log ++ [c] }
  | kms_call.add_fb ret fb =>
    if ret = 0 then { k with fbs := fb :: k.fbs, log := k.log ++ [c] }
    else { k with log := k.log ++ [c] }
  | kms_call.set_crtc fb ret =>
    if ret = 0 then { k with crtc := fb, log := k.log ++ [c] }
    else { k with log := k.log ++ [c] }
  | kms_call.rm_fb fb =>
    { k with fbs := k.fbs.filter (fun f => f ≠ fb),
             crtc := if k.crtc = fb then 0 else k.crtc, log := k.log ++ [c] }
  | kms_call.release_buffer bo =>
    { k with locked := k.locked.filter (fun b => b ≠ bo), log := k.log ++ [c] }
  | kms_call.exit_failure => { k with log := k.log ++ [c] }

/-- The display side after a list of calls. -/
def kms_run (k : kms_state) (calls : List kms_call) : kms_state :=
  calls.foldl kms_state.apply k

/-- The fields `previous_bo` and `previous_framebuffer` of `GraphicsContext`
(0 is `NULL` / no framebuffer); the same pair is `prev_bo`, `prev_fb` in
`ogl-line-perf.c`. -/
structure GraphicsContext where
  previous_bo : Nat
  previous_framebuffer : Nat
deriving DecidableEq, Repr

/-- The context after `GraphicsContext gfx = {0};`. -/
def GraphicsContext.zero : GraphicsContext := { previous_bo := 0, previous_framebuffer := 0 }

/-- What the display side answers during one present step: the buffer object
returned by `gbm_surface_lock_front_buffer`, the return value of
`drmModeAddFB`, the content of the variable `new_fb` after that call (the new
id when it returned 0, indeterminate otherwise) and the return value of
`drmModeSetCrtc`. -/
structure present_env where
  bo : Nat
  addfb_ret : Int
  new_fb : Nat
  setcrtc_ret : Int
deriving DecidableEq, Repr

/-- The function `graphics_present` of `ogl-min-line-perf.c`: the context after
the call and the calls made.  The return values of `drmModeAddFB` and
`drmModeSetCrtc` are not looked at. -/
def graphics_present (gfx : GraphicsContext) (e : present_env) :
    GraphicsContext × List kms_call :=
  let new_bo := e.bo
  let new_fb := e.new_fb
  let c1 := [kms_call.lock_front_buffer new_bo, kms_call.add_fb e.addfb_ret new_fb,
    kms_call.set_crtc new_fb e.setcrtc_ret]
  let c2 := if gfx.previous_framebuffer ≠ 0 then [kms_call.rm_fb gfx.previous_framebuffer]
    else []
  let c3 := if gfx.previous_bo ≠ 0 then [kms_call.release_buffer gfx.previous_bo] else []
  ({ previous_bo := new_bo, previous_framebuffer := new_fb }, c1 ++ c2 ++ c3)

/-- The present steps of `main` of `ogl-min-line-perf.c`: one call of
`graphics_present` per frame, starting from the context `gfx`. -/
def present_frames (gfx : GraphicsContext) :
    List present_env → GraphicsContext × List kms_call
  | [] => (gfx, [])
  | e :: es =>
    let r := graphics_present gfx e
    let r2 := present_frames r.1 es
    (r2.1, r.2 ++ r2.2)

/-- The present block of the loop of `main` in `ogl-line-perf.c`
(`bo_to_fb` included): `none` for the context when the process has called
`_exit(1)`. -/
def present_block (prev : GraphicsContext) (e : present_env) :
    Option GraphicsContext × List kms_call :=
  let new_bo := e.bo
  let c1 := [kms_call.lock_front_buffer new_bo, kms_call.add_fb e.addfb_ret e.new_fb]
  if e.addfb_ret ≠ 0 then (none, c1 ++ [kms_call.exit_failure])
  else
    let new_fb := e.new_fb
    let c2 := c1 ++ [kms_call.set_crtc new_fb e.setcrtc_ret]
    if e.setcrtc_ret ≠ 0 then (none, c2 ++ [kms_call.exit_failure])
    else
      let c3 := if prev.previous_framebuffer ≠ 0 then
        [kms_call.rm_fb prev.previous_framebuffer] else []
      let c4 := if prev.previous_bo ≠ 0 then [kms_call.release_buffer prev.previous_bo]
        else []
      (some { previous_bo := new_bo, previous_framebuffer := new_fb }, c2 ++ c3 ++ c4)

/-- The loop `for (;;)` of `main` in `ogl-line-perf.c`, one present block per
iteration, until the frames given are done or the process has exited. -/
def loop_frames (prev : GraphicsContext) :
    List present_env → Option GraphicsContext × List kms_call
  | [] => (some prev, [])
  | e :: es =>
    match present_block prev e with
    | (none, calls) => (none, calls)
    | (some prev2, calls) =>
      let r := loop_frames prev2 es
      (r.1, calls ++ r.2)

/-- The states of a buffer slot in the hand-off protocol. -/
inductive slot_state where
  | Rendering
  | Presented
  | PendingRelease
  | Free
deriving DecidableEq, Repr

/-- The protocol state of the slot with buffer object `bo` and framebuffer id
`fb`: `Presented` when `fb` is registered and on the CRTC; `PendingRelease` when
it has been set on the CRTC earlier, is not `Presented`, and its registration
or its buffer is still held; `Rendering` when it is held and was never set on
the CRTC; `Free` when neither its registration nor its buffer is held. -/
def slot_state_of (k : kms_state) (bo fb : Nat) : slot_state :=
  if fb ∈ k.fbs ∧ k.crtc = fb then slot_state.Presented
  else if fb ∈ k.fbs ∨ bo ∈ k.locked then
    if kms_call.set_crtc fb 0 ∈ k.log then slot_state.PendingRelease
    else slot_state.Rendering
  else slot_state.Free

/-- The answers of a present step in which every call succeeds, for a buffer
object `bo` that gets the framebuffer id `fb`. -/
def ok_env (bo fb : Nat) : present_env :=
  { bo := bo, addfb_ret := 0, new_fb := fb, setcrtc_ret := 0 }

/-- Number of buffer acquisitions in a list of calls
(`gbm_surface_lock_front_buffer`). -/
def count_locks (calls : List kms_call) : Nat :=
  (calls.filter (fun c => match c with | kms_call.lock_front_buffer _ => true | _ => false)).length

/-- Number of successful registrations in a list of calls (`drmModeAddFB`
returning 0). -/
def count_add_fb (calls : List kms_call) : Nat :=
  (calls.filter (fun c => match c with
    | kms_call.add_fb ret _ => decide (ret = 0) | _ => false)).length

/-- Number of `drmModeRmFB` calls in a list of calls. -/
def count_rm_fb (calls : List kms_call) : Nat :=
  (calls.filter (fun c => match c with | kms_call.rm_fb _ => true | _ => false)).length

/-- Number of `gbm_surface_release_buffer` calls in a list of calls. -/
def count_release (calls : List kms_call) : Nat :=
  (calls.filter (fun c => match c with | kms_call.release_buffer _ => true | _ => false)).length

/-- The calls of the present steps of `ogl-min-line-perf.c` for the slots
`(bo, fb)` given, one per frame, every call succeeding, from the zero
context. -/
def slot_calls (slots : List (Nat × Nat)) : List kms_call :=
  (present_frames GraphicsContext.zero (slots.map (fun s => ok_env s.1 s.2))).2

/-- Fresh slots: every acquisition returns a buffer object and a framebuffer id
that are not zero and were not returned before. -/
def fresh_slots (slots : List (Nat × Nat)) : Prop :=
  (slots.map Prod.fst).Nodup ∧ (slots.map Prod.snd).Nodup ∧ ∀ s ∈ slots, s.1 ≠ 0 ∧ s.2 ≠ 0

/-- The call `c` is about the buffer object or the framebuffer id of the slot
`s`. -/
def mentions (c : kms_call) (s : Nat × Nat) : Prop :=
  match c with
  | kms_call.lock_front_buffer bo => bo = s.1
  | kms_call.add_fb _ fb => fb = s.2
  | kms_call.set_crtc fb _ => fb = s.2
  | kms_call.rm_fb fb => fb = s.2
  | kms_call.release_buffer bo => bo = s.1
  | kms_call.exit_failure => False

/-- The display side `k` neither holds nor has seen the slots: their ids are
not registered, not locked, not on the CRTC and in no earlier call. -/
def untouched (k : kms_state) (slots : List (Nat × Nat)) : Prop :=
  ∀ s ∈ slots, s.2 ∉ k.fbs ∧ s.1 ∉ k.locked ∧ k.crtc ≠ s.2 ∧ ∀ c ∈ k.log, ¬ mentions c s

/-- In the order of presentation, `t` is the slot presented right after `s`. -/
def supersedes (slots : List (Nat × Nat)) (s t : Nat × Nat) : Prop :=
  ∃ l1 l2, slots = l1 ++ s :: t :: l2

/-- The hand-off invariants at a point `k` of a run that presents `slots`: at
most one of the slots is `PendingRelease`, and a slot whose registration has
been removed or whose buffer has been released has a successor that was
registered and set on the CRTC before. -/
def handoff_ok (slots : List (Nat × Nat)) (k : kms_state) : Prop :=
  (∀ s ∈ slots, ∀ t ∈ slots, slot_state_of k s.1 s.2 = slot_state.PendingRelease →
      slot_state_of k t.1 t.2 = slot_state.PendingRelease → s = t)
  ∧ (∀ s ∈ slots, (kms_call.rm_fb s.2 ∈ k.log ∨ kms_call.release_buffer s.1 ∈ k.log) →
      ∃ t, supersedes slots s t ∧ kms_call.add_fb 0 t.2 ∈ k.log
        ∧ kms_call.set_crtc t.2 0 ∈ k.log)

/-! ## Line generation (`kms-min.c`, `kms-min-mt.c`, `ogl-line-perf.c`) -/

/-- The struct `line_t`. -/
structure line_t where
  x0 : Int
  y0 : Int
  x1 : Int
  y1 : Int
  c : Nat
deriving DecidableEq, Repr

/-- The conversion of a `uint32_t` value to `int` (values above `INT_MAX` wrap). -/
def to_int (u : Nat) : Int :=
  if u % 4294967296 ≤ 2147483647 then ((u % 4294967296 : Nat) : Int)
  else ((u % 4294967296 : Nat) : Int) - 4294967296

/-- The function `random_int`, for the value `r` returned by `random()`:
`return min + (int)(random() % (unsigned)(max - min + 1));`
with `none` when an `int` operation overflows or the modulus is zero
(undefined behaviour). -/
def random_int (r : Nat) (min max : Int) : Option Int :=
  if ¬ int_ok (max - min) ∨ ¬ int_ok (max - min + 1) then none
  else
    let n := (max - min + 1) % 4294967296
    if n = 0 then none
    else
      let m := (r : Int) % n
      let mi := if m ≤ 2147483647 then m else m - 4294967296
      if int_ok (min + mi) then some (min + mi) else none

/-- The colour of a generated line, for the value `r` returned by `random()`:
`0xFF000000u | (random() & 0x00FFFFFFu)`, stored in a `uint32_t`. -/
def line_colour (r : Nat) : Nat :=
  (0xFF000000 ||| (r &&& 0x00FFFFFF)) % 4294967296

/-- The colour as `ogl-line-perf.c` computes it:
`0xFF000000u | ((uint32_t)random() & 0x00FFFFFFu)`. -/
def line_colour_ogl (r : Nat) : Nat :=
  0xFF000000 ||| ((r % 4294967296) &&& 0x00FFFFFF)

/-- Subtraction of two `uint32_t` values, which wraps modulo `2^32`. -/
def u32_sub (a b : Nat) : Nat :=
  if b % 4294967296 ≤ a % 4294967296 then a % 4294967296 - b % 4294967296
  else a % 4294967296 + 4294967296 - b % 4294967296

/-- The body of the generation loop of `worker` (and of `main` in `kms-min.c`)
for one line, given the five values returned by `random()`:
`x0 = random_int(0, fb->width-1); y0 = random_int(0, fb->height-1);`
`x1 = random_int(0, fb->width-1); y1 = random_int(0, fb->height-1);`
`c = 0xFF000000u | (random() & 0x00FFFFFFu);`
where `fb->width-1` is computed in `uint32_t` and converted to `int`. -/
def gen_line (fb : framebuffer_t) (r0 r1 r2 r3 r4 : Nat) : Option line_t :=
  let wmax := to_int (u32_sub fb.width 1)
  let hmax := to_int (u32_sub fb.height 1)
  match random_int r0 0 wmax, random_int r1 0 hmax, random_int r2 0 wmax,
      random_int r3 0 hmax with
  | some x0, some y0, some x1, some y1 =>
    some { x0 := x0, y0 := y0, x1 := x1, y1 := y1, c := line_colour r4 }
  | _, _, _, _ => none

/-! ## The iterations of the loop of `draw_line` -/

/-- The loop variables of `draw_line` when the loop is entered: `x0`, `y0` and
`err = dx + dy`. -/
def line_init (x0 y0 x1 y1 : Int) : line_state :=
  { x0 := x0, y0 := y0, err := line_dx x0 x1 + line_dy y0 y1 }

/-- The loop variables at the start of iteration number `n` (from 0) of the
loop of `draw_line` started in state `s`, where `put_pixel(fb, x0, y0, argb)` is
called and, unless the loop breaks, `e2 = 2 * err` is evaluated: `none` when
the loop has ended before that iteration, by `break` or by an `int`
overflow. -/
def line_iter (x1 y1 dx dy sx sy : Int) : Nat → line_state → Option line_state
  | 0, s => some s
  | n + 1, s =>
    if s.x0 = x1 ∧ s.y0 = y1 then none
    else
      match line_step dx dy sx sy s with
      | none => none
      | some s2 => line_iter x1 y1 dx dy sx sy n s2

/-- The iterations of `draw_line(fb, x0, y0, x1, y1, argb)`. -/
def draw_line_iter (x0 y0 x1 y1 : Int) (n : Nat) : Option line_state :=
  line_iter x1 y1 (line_dx x0 x1) (line_dy y0 y1) (line_sx x0 x1) (line_sx y0 y1) n
    (line_init x0 y0 x1 y1)

/-- The range of `2 * err` on the dominant axis: when `|x1-x0| ≥ |y1-y0|`,
`dx + 2*dy ≤ 2*err ≤ 3*dx + 2*dy`; when `|y1-y0| ≥ |x1-x0|`,
`2*dx + 3*dy ≤ 2*err ≤ 2*dx + dy`. -/
def line_tight (dx dy : Int) (s : line_state) : Prop :=
  (-dy ≤ dx → dx + 2 * dy ≤ 2 * s.err ∧ 2 * s.err ≤ 3 * dx + 2 * dy)
    ∧ (dx ≤ -dy → 2 * dx + 3 * dy ≤ 2 * s.err ∧ 2 * s.err ≤ 2 * dx + dy)

/-- A coordinate in `[0, 65535]`. -/
def coord16 (v : Int) : Prop := 0 ≤ v ∧ v ≤ 65535

/-! ## Buffers held by the present steps -/

/-- Fresh answers of the display side: every `drmModeAddFB` returns 0 with a
framebuffer id that is not zero and was not returned before, and every
`gbm_surface_lock_front_buffer` returns a buffer object that is not `NULL` and
was not returned before. -/
def fresh_envs (es : List present_env) : Prop :=
  (es.map (fun e => e.bo)).Nodup ∧ (es.map (fun e => e.new_fb)).Nodup
    ∧ ∀ e ∈ es, e.addfb_ret = 0 ∧ e.bo ≠ 0 ∧ e.new_fb ≠ 0

/-- The display side `k` holds what the context `gfx` tracks, on top of the
registrations `fbs0` and the locked buffers `locked0` that the context does not
track: nothing more when the context is zero, else exactly
`previous_framebuffer` and `previous_bo`. -/
def tracked (gfx : GraphicsContext) (k : kms_state) (fbs0 locked0 : List Nat) : Prop :=
  (gfx = GraphicsContext.zero ∧ k.fbs = fbs0 ∧ k.locked = locked0)
  ∨ (gfx.previous_framebuffer ≠ 0 ∧ gfx.previous_bo ≠ 0
      ∧ gfx.previous_framebuffer ∉ fbs0 ∧ gfx.previous_bo ∉ locked0
      ∧ k.fbs = gfx.previous_framebuffer :: fbs0 ∧ k.locked = gfx.previous_bo :: locked0)

/-- The present of `main` in `ogl-line-perf.c` before the loop:
`bo = gbm_surface_lock_front_buffer(g.gs); fb = bo_to_fb(g.fd, bo, W, H);`
`if (drmModeSetCrtc(..., fb, ...) != 0) { perror(...); _exit(1); }`
`prev_bo = NULL; prev_fb = 0;`
The result is the pair `prev_bo`, `prev_fb` the loop starts with (`none` when
the process has called `_exit(1)`) and the calls made. -/
def initial_present (e : present_env) : Option GraphicsContext × List kms_call :=
  let bo := e.bo
  let c1 := [kms_call.lock_front_buffer bo, kms_call.add_fb e.addfb_ret e.new_fb]
  if e.addfb_ret ≠ 0 then (none, c1 ++ [kms_call.exit_failure])
  else
    let fb := e.new_fb
    let c2 := c1 ++ [kms_call.set_crtc fb e.setcrtc_ret]
    if e.setcrtc_ret ≠ 0 then (none, c2 ++ [kms_call.exit_failure])
    else (some { previous_bo := 0, previous_framebuffer := 0 }, c2)

/-- The present steps of `main` in `ogl-line-perf.c`: the present before the
loop, then the loop, for the answers `e0` and `es` of the display side. -/
def main_present (e0 : present_env) (es : List present_env) :
    Option GraphicsContext × List kms_call :=
  match initial_present e0 with
  | (none, calls) => (none, calls)
  | (some prev, calls) =>
    let r := loop_frames prev es
    (r.1, calls ++ r.2)
/-! ### Lemmas on the partition -/

theorem chunk_eq_ediv {c T : Int} (hc : 0 ≤ c) (hT : 0 ≤ T) : chunk c T = c / T := by
  unfold chunk
  exact Int.tdiv_eq_ediv hc hT

theorem chunk_nonneg {c T : Int} (hc : 0 ≤ c) (hT : 0 ≤ T) : 0 ≤ chunk c T := by
  rw [chunk_eq_ediv hc hT]
  exact Int.ediv_nonneg hc hT

theorem chunk_mul_le {c T : Int} (hc : 0 ≤ c) (hT : 0 < T) : chunk c T * T ≤ c := by
  rw [chunk_eq_ediv hc hT.le]
  exact Int.ediv_mul_le c hT.ne'

theorem for_indices_length (i : Int) (n : Nat) : (for_indices i n).length = n := by
  induction n generalizing i with
  | zero => rfl
  | succ n ih => simp [for_indices, ih]

theorem mem_for_indices (i : Int) (n : Nat) (k : Int) :
    k ∈ for_indices i n ↔ i ≤ k ∧ k < i + n := by
  induction n generalizing i with
  | zero => simp [for_indices]
  | succ n ih =>
    simp only [for_indices, List.mem_cons, ih]
    push_cast
    omega

theorem for_indices_append (i : Int) (m n : Nat) :
    for_indices i (m + n) = for_indices i m ++ for_indices (i + m) n := by
  induction m generalizing i with
  | zero => simp [for_indices]
  | succ m ih =>
    have h : m + 1 + n = (m + n) + 1 := by omega
    rw [h]
    simp only [for_indices, List.cons_append, ih]
    push_cast
    have e : i + 1 + (m : Int) = i + ((m : Int) + 1) := by ring
    rw [e]

theorem count_for_indices (i : Int) (n : Nat) (k : Int) :
    (for_indices i n).count k = if i ≤ k ∧ k < i + n then 1 else 0 := by
  induction n generalizing i with
  | zero =>
    simp only [for_indices, List.count_nil]
    rw [if_neg]
    push_cast
    omega
  | succ n ih =>
    simp only [for_indices, List.count_cons, ih]
    push_cast
    by_cases h1 : i = k
    · subst h1
      simp
    · have h2 : (i == k) = false := by simpa using h1
      rw [h2]
      simp only [Bool.false_eq_true, if_false, add_zero]
      by_cases h3 : i + 1 ≤ k ∧ k < i + 1 + n
      · rw [if_pos h3, if_pos]
        omega
      · rw [if_neg h3, if_neg]
        omega

theorem make_arg_inner {c T : Int} {t : Nat} (ht : (t : Int) < T - 1) :
    make_arg c T t = { start := t * chunk c T, end_ := (t + 1) * chunk c T } := by
  unfold make_arg
  rw [if_neg (by omega)]

theorem make_arg_last (c T : Int) : make_arg c T (T - 1) =
    { start := (T - 1) * chunk c T, end_ := c } := by
  unfold make_arg
  rw [if_pos rfl]

theorem worker_inner {c T : Int} {t : Nat} (ht : (t : Int) < T - 1) :
    worker (make_arg c T t) = for_indices (t * chunk c T) (chunk c T).toNat := by
  rw [make_arg_inner ht]
  unfold worker
  congr 1
  simp only
  have : ((t : Int) + 1) * chunk c T - t * chunk c T = chunk c T := by ring
  rw [this]

theorem draws_inner {c T : Int} (hc : 0 ≤ c) (hT : 0 ≤ T) (k : Nat) (hk : (k : Int) ≤ T - 1) :
    ((List.range k).map (fun (t : Nat) => make_arg c T (t : Int))).flatMap worker
      = for_indices 0 (k * (chunk c T).toNat) := by
  induction k with
  | zero => simp [for_indices]
  | succ k ih =>
    have hk1 : (k : Int) < T - 1 := by push_cast at hk; omega
    rw [List.range_succ, List.map_append, List.flatMap_append, ih (by omega)]
    simp only [List.map_cons, List.map_nil, List.flatMap_cons, List.flatMap_nil,
      List.append_nil]
    rw [worker_inner hk1]
    have h : (k + 1) * (chunk c T).toNat = k * (chunk c T).toNat + (chunk c T).toNat := by ring
    rw [h, for_indices_append]
    congr 2
    have := chunk_nonneg hc hT
    push_cast
    rw [Int.toNat_of_nonneg this]
    ring

theorem main_args_split {c T : Int} (hT : 1 ≤ T) :
    main_args c T = (List.range (T - 1).toNat).map (fun (t : Nat) => make_arg c T (t : Int))
      ++ [make_arg c T (T - 1)] := by
  unfold main_args
  have h : T.toNat = (T - 1).toNat + 1 := by omega
  rw [h, List.range_succ, List.map_append]
  simp only [List.map_cons, List.map_nil]
  have e : (((T - 1).toNat : Nat) : Int) = T - 1 := Int.toNat_of_nonneg (by omega)
  rw [e]

theorem frame_draws_eq {c T : Int} (hc : 0 ≤ c) (hT : 1 ≤ T) :
    frame_draws c T = for_indices 0 c.toNat := by
  unfold frame_draws
  rw [main_args_split hT, List.flatMap_append]
  have e : (((T - 1).toNat : Nat) : Int) = T - 1 := Int.toNat_of_nonneg (by omega)
  rw [draws_inner hc (by omega) (T - 1).toNat (by omega)]
  simp only [List.flatMap_cons, List.flatMap_nil, List.append_nil]
  rw [make_arg_last]
  unfold worker
  simp only
  have hch := chunk_nonneg hc (show (0 : Int) ≤ T by omega)
  have hle := chunk_mul_le hc (show (0 : Int) < T by omega)
  have hle2 : (T - 1) * chunk c T ≤ c := by nlinarith
  have hnn : 0 ≤ (T - 1) * chunk c T := mul_nonneg (by omega) hch
  have hsum : c.toNat = (T - 1).toNat * (chunk c T).toNat + (c - (T - 1) * chunk c T).toNat := by
    zify
    rw [Int.toNat_of_nonneg hc, e, Int.toNat_of_nonneg hch, Int.toNat_of_nonneg (by omega)]
    ring
  rw [hsum, for_indices_append]
  congr 2
  push_cast
  rw [e, Int.toNat_of_nonneg hch]
  ring

theorem main_args_length (c T : Int) : (main_args c T).length = T.toNat := by
  simp [main_args]

theorem main_args_get (c T : Int) (t : Nat) (ht : t < T.toNat) :
    (main_args c T)[t]? = some (make_arg c T (t : Int)) := by
  simp [main_args, List.getElem?_map, List.getElem?_range ht]

theorem chunk_pos {c T : Int} (hT1 : 1 ≤ T) (hT : T ≤ c) : 1 ≤ chunk c T := by
  rw [chunk_eq_ediv (by omega) (by omega)]
  have h : T * 1 ≤ c := by omega
  exact (Int.le_ediv_iff_mul_le (by omega)).mpr (by omega)

theorem start_le_end {c T : Int} (hc : 0 ≤ c) (hT1 : 1 ≤ T) (t : Int) (_h0 : 0 ≤ t)
    (_ht : t < T) : (make_arg c T t).start ≤ (make_arg c T t).end_ := by
  have hch := chunk_nonneg hc (show (0 : Int) ≤ T by omega)
  have hle := chunk_mul_le hc (show (0 : Int) < T by omega)
  unfold make_arg
  simp only
  split
  · have : t * chunk c T ≤ T * chunk c T := mul_le_mul_of_nonneg_right (by omega) hch
    linarith
  · nlinarith

theorem range_within {c T : Int} (hc : 0 ≤ c) (hT1 : 1 ≤ T) (t : Int) (h0 : 0 ≤ t)
    (ht : t < T) (i : Int) (h1 : (make_arg c T t).start ≤ i) (h2 : i < (make_arg c T t).end_) :
    0 ≤ i ∧ i < c := by
  have hch := chunk_nonneg hc (show (0 : Int) ≤ T by omega)
  have hle := chunk_mul_le hc (show (0 : Int) < T by omega)
  unfold make_arg at h1 h2
  simp only at h1 h2
  have hs : 0 ≤ t * chunk c T := mul_nonneg h0 hch
  refine ⟨by omega, ?_⟩
  split at h2
  · exact h2
  · have : (t + 1) * chunk c T ≤ T * chunk c T := mul_le_mul_of_nonneg_right (by omega) hch
    linarith

theorem range_unique {c T : Int} (hc : 0 ≤ c) (hT1 : 1 ≤ T) (t u : Int) (ht : t < T)
    (_hu : u < T) (i : Int) (h1 : (make_arg c T t).start ≤ i)
    (h2 : i < (make_arg c T u).end_) : t ≤ u := by
  have hch := chunk_nonneg hc (show (0 : Int) ≤ T by omega)
  unfold make_arg at h1 h2
  simp only at h1 h2
  by_contra hlt
  have hlt2 : u + 1 ≤ t := by omega
  have hm : (u + 1) * chunk c T ≤ t * chunk c T := mul_le_mul_of_nonneg_right hlt2 hch
  split at h2
  · omega
  · omega

theorem range_exists {c T : Int} (hT1 : 1 ≤ T) (hT : T ≤ c) (i : Int) (hi0 : 0 ≤ i)
    (hic : i < c) : ∃ t : Int, 0 ≤ t ∧ t < T ∧ (make_arg c T t).start ≤ i
      ∧ i < (make_arg c T t).end_ := by
  have hpos := chunk_pos hT1 hT
  by_cases hlast : (T - 1) * chunk c T ≤ i
  · refine ⟨T - 1, by omega, by omega, ?_, ?_⟩
    · rw [make_arg_last]; exact hlast
    · rw [make_arg_last]; exact hic
  · have hq0 : 0 ≤ i / chunk c T := Int.ediv_nonneg hi0 (by omega)
    have hq1 : i / chunk c T * chunk c T ≤ i := Int.ediv_mul_le i (by omega)
    have hq2 : i < (i / chunk c T + 1) * chunk c T := by
      have := Int.lt_ediv_add_one_mul_self i (show 0 < chunk c T by omega)
      linarith
    have hq3 : i / chunk c T < T - 1 := by
      by_contra hge
      have : (T - 1) * chunk c T ≤ i / chunk c T * chunk c T :=
        mul_le_mul_of_nonneg_right (by omega) (by omega)
      omega
    refine ⟨i / chunk c T, hq0, by omega, ?_, ?_⟩
    · unfold make_arg; simp only; exact hq1
    · unfold make_arg; simp only
      rw [if_neg (by omega)]
      exact hq2

theorem range_in_count {c T : Int} (hc : 0 ≤ c) (hT1 : 1 ≤ T) (t : Int) (h0 : 0 ≤ t)
    (ht : t < T) : 0 ≤ (make_arg c T t).start ∧ (make_arg c T t).end_ ≤ c := by
  have hch := chunk_nonneg hc (show (0 : Int) ≤ T by omega)
  have hle := chunk_mul_le hc (show (0 : Int) < T by omega)
  unfold make_arg
  simp only
  refine ⟨mul_nonneg h0 hch, ?_⟩
  split
  · exact le_refl _
  · have : (t + 1) * chunk c T ≤ T * chunk c T := mul_le_mul_of_nonneg_right (by omega) hch
    linarith

/-- Claim C1. For `count > 0` and `1 ≤ T ≤ count` the ranges `[start_t, end_t)` built
by the partition loop of `main` partition `[0, count)` exactly: there are `T` of
them, `args[t]` is `make_arg count T t`, `start_0 = 0`, `end_t = start_{t+1}` for
`t < T-1`, `start_t ≤ end_t`, `end_{T-1} = count`, no range leaves `[0, count)`,
and every index of `[0, count)` lies in exactly one range.  All bounds lie in
`[0, count]`, so no `int` operation of the loop overflows. -/
theorem partition_exact (count T : Int) (hc : 0 < count) (hT1 : 1 ≤ T) (hT : T ≤ count) :
    (main_args count T).length = T.toNat
    ∧ (∀ t : Nat, t < T.toNat → (main_args count T)[t]? = some (make_arg count T (t : Int)))
    ∧ (make_arg count T 0).start = 0
    ∧ (∀ t : Int, 0 ≤ t → t < T - 1 →
        (make_arg count T t).end_ = (make_arg count T (t + 1)).start)
    ∧ (∀ t : Int, 0 ≤ t → t < T → (make_arg count T t).start ≤ (make_arg count T t).end_)
    ∧ (∀ t : Int, 0 ≤ t → t < T →
        0 ≤ (make_arg count T t).start ∧ (make_arg count T t).end_ ≤ count)
    ∧ (make_arg count T (T - 1)).end_ = count
    ∧ (∀ t : Int, 0 ≤ t → t < T → ∀ i : Int, (make_arg count T t).start ≤ i →
        i < (make_arg count T t).end_ → 0 ≤ i ∧ i < count)
    ∧ (∀ i : Int, 0 ≤ i → i < count →
        ∃! t : Int, 0 ≤ t ∧ t < T ∧ (make_arg count T t).start ≤ i
          ∧ i < (make_arg count T t).end_) := by
  refine ⟨main_args_length _ _, main_args_get _ _, ?_, ?_, ?_, ?_, ?_, ?_, ?_⟩
  · simp [make_arg]
  · intro t _ ht
    unfold make_arg
    simp only
    rw [if_neg (by omega)]
  · exact start_le_end hc.le hT1
  · exact range_in_count hc.le hT1
  · rw [make_arg_last]
  · exact range_within hc.le hT1
  · intro i hi0 hic
    obtain ⟨t, h0, ht, h1, h2⟩ := range_exists hT1 hT i hi0 hic
    refine ⟨t, ⟨h0, ht, h1, h2⟩, ?_⟩
    rintro u ⟨hu0, hu, hu1, hu2⟩
    have a := range_unique hc.le hT1 t u ht hu i h1 hu2
    have b := range_unique hc.le hT1 u t hu ht i hu1 h2
    omega

/-- Witness of `partition_exact` at `count = 4`, `T = 3`. -/
theorem partition_exact_witness :
    (main_args 4 3).length = (3 : Int).toNat
    ∧ (∀ t : Nat, t < (3 : Int).toNat → (main_args 4 3)[t]? = some (make_arg 4 3 (t : Int)))
    ∧ (make_arg 4 3 0).start = 0
    ∧ (∀ t : Int, 0 ≤ t → t < 3 - 1 → (make_arg 4 3 t).end_ = (make_arg 4 3 (t + 1)).start)
    ∧ (∀ t : Int, 0 ≤ t → t < 3 → (make_arg 4 3 t).start ≤ (make_arg 4 3 t).end_)
    ∧ (∀ t : Int, 0 ≤ t → t < 3 → 0 ≤ (make_arg 4 3 t).start ∧ (make_arg 4 3 t).end_ ≤ 4)
    ∧ (make_arg 4 3 (3 - 1)).end_ = 4
    ∧ (∀ t : Int, 0 ≤ t → t < 3 → ∀ i : Int, (make_arg 4 3 t).start ≤ i →
        i < (make_arg 4 3 t).end_ → 0 ≤ i ∧ i < 4)
    ∧ (∀ i : Int, 0 ≤ i → i < 4 →
        ∃! t : Int, 0 ≤ t ∧ t < 3 ∧ (make_arg 4 3 t).start ≤ i ∧ i < (make_arg 4 3 t).end_) :=
  partition_exact 4 3 (by decide) (by decide) (by decide)

/-- Claim C2. For a batch of `count` lines and the `T` work assignments of `main`,
the `draw_line` calls of all workers together, in whatever order the threads
interleave them, contain every index of `[0, count)` exactly once and no other
index: nothing is missed and nothing is drawn twice. -/
theorem every_line_drawn_once (count T : Int) (hc : 0 < count) (hT1 : 1 ≤ T) (hT : T ≤ count)
    (sched : List Int) (hs : sched.Perm (frame_draws count T)) (i : Int) :
    sched.count i = if 0 ≤ i ∧ i < count then 1 else 0 := by
  have _ := hT
  rw [hs.count_eq, frame_draws_eq hc.le hT1, count_for_indices]
  rw [Int.toNat_of_nonneg hc.le]
  simp

/-- Witness of `every_line_drawn_once`: 4 lines, 3 workers, the calls in
sequential thread order, index 3. -/
theorem every_line_drawn_once_witness :
    (frame_draws 4 3).count 3 = if (0 : Int) ≤ 3 ∧ (3 : Int) < 4 then 1 else 0 :=
  every_line_drawn_once 4 3 (by decide) (by decide) (by decide) (frame_draws 4 3)
    (List.Perm.refl _) 3

/-- Claim C6. For `count > 0` and `1 ≤ T ≤ count` each of the first `T-1` ranges has
exactly `floor(count/T)` elements, the last has `count - floor(count/T)*(T-1)`
`= floor(count/T) + count mod T` elements, and `count = 4`, `T = 3` gives
`[0,1), [1,2), [2,4)` with sizes 1, 1, 2. -/
theorem partition_sizes (count T : Int) (hc : 0 < count) (hT1 : 1 ≤ T) (hT : T ≤ count) :
    (∀ t : Int, 0 ≤ t → t < T - 1 →
        (make_arg count T t).end_ - (make_arg count T t).start = count / T
        ∧ ((worker (make_arg count T t)).length : Int) = count / T)
    ∧ (make_arg count T (T - 1)).end_ - (make_arg count T (T - 1)).start
        = count - count / T * (T - 1)
    ∧ ((worker (make_arg count T (T - 1))).length : Int) = count - count / T * (T - 1)
    ∧ count - count / T * (T - 1) = count / T + count % T
    ∧ main_args 4 3 = [⟨0, 1⟩, ⟨1, 2⟩, ⟨2, 4⟩]
    ∧ (main_args 4 3).map (fun a => (worker a).length) = [1, 1, 2] := by
  have _ := hT
  have hch : chunk count T = count / T := chunk_eq_ediv hc.le (by omega)
  have hnn : 0 ≤ count / T := Int.ediv_nonneg hc.le (by omega)
  have hle : count / T * T ≤ count := Int.ediv_mul_le count (by omega)
  have hlast : 0 ≤ count - count / T * (T - 1) := by nlinarith
  refine ⟨?_, ?_, ?_, ?_, by decide, by decide⟩
  · intro t _ ht
    have e : (make_arg count T t).end_ - (make_arg count T t).start = count / T := by
      unfold make_arg
      simp only
      rw [if_neg (by omega), hch]
      ring
    refine ⟨e, ?_⟩
    unfold worker
    rw [for_indices_length, e, Int.toNat_of_nonneg hnn]
  · rw [make_arg_last, hch]
    ring
  · unfold worker
    rw [for_indices_length, make_arg_last, hch]
    simp only
    have e : count - (T - 1) * (count / T) = count - count / T * (T - 1) := by ring
    rw [e, Int.toNat_of_nonneg hlast]
  · have := Int.emod_add_ediv count T
    nlinarith

/-- Witness of `partition_sizes` at `count = 10`, `T = 4`. -/
theorem partition_sizes_witness :
    (∀ t : Int, 0 ≤ t → t < 4 - 1 →
        (make_arg 10 4 t).end_ - (make_arg 10 4 t).start = 10 / 4
        ∧ ((worker (make_arg 10 4 t)).length : Int) = 10 / 4)
    ∧ (make_arg 10 4 (4 - 1)).end_ - (make_arg 10 4 (4 - 1)).start = 10 - 10 / 4 * (4 - 1)
    ∧ ((worker (make_arg 10 4 (4 - 1))).length : Int) = 10 - 10 / 4 * (4 - 1)
    ∧ (10 : Int) - 10 / 4 * (4 - 1) = 10 / 4 + 10 % 4
    ∧ main_args 4 3 = [⟨0, 1⟩, ⟨1, 2⟩, ⟨2, 4⟩]
    ∧ (main_args 4 3).map (fun a => (worker a).length) = [1, 1, 2] :=
  partition_sizes 10 4 (by decide) (by decide) (by decide)

/-! ### Lemmas on `put_pixel` -/

theorem load32_store32_same (m : Int → Nat) (off : Int) (v : Nat) :
    load32 (store32 m off v) off = v % 2 ^ 32 := by
  unfold load32 store32
  have h0 : (off ≤ off ∧ off < off + 4) := by omega
  have h1 : (off ≤ off + 1 ∧ off + 1 < off + 4) := by omega
  have h2 : (off ≤ off + 2 ∧ off + 2 < off + 4) := by omega
  have h3 : (off ≤ off + 3 ∧ off + 3 < off + 4) := by omega
  simp only [h0, h1, h2, h3, and_self, if_true]
  have e0 : (off - off).toNat = 0 := by omega
  have e1 : (off + 1 - off).toNat = 1 := by omega
  have e2 : (off + 2 - off).toNat = 2 := by omega
  have e3 : (off + 3 - off).toNat = 3 := by omega
  rw [e0, e1, e2, e3]
  norm_num
  omega

theorem load32_store32_other (m : Int → Nat) (off off2 : Int) (v : Nat)
    (h : off2 + 4 ≤ off ∨ off + 4 ≤ off2) :
    load32 (store32 m off v) off2 = load32 m off2 := by
  unfold load32 store32
  have h0 : ¬ (off ≤ off2 ∧ off2 < off + 4) := by omega
  have h1 : ¬ (off ≤ off2 + 1 ∧ off2 + 1 < off + 4) := by omega
  have h2 : ¬ (off ≤ off2 + 2 ∧ off2 + 2 < off + 4) := by omega
  have h3 : ¬ (off ≤ off2 + 3 ∧ off2 + 3 < off + 4) := by omega
  simp only [h0, h1, h2, h3, if_false]

theorem pixel_offset_in_bounds (fb : framebuffer_t) (hv : fb.valid) (x y : Int)
    (hb : in_bounds fb x y) : pixel_offset fb x y = y * fb.pitch + 4 * x := by
  obtain ⟨_, hh, hp, _, _⟩ := hv
  obtain ⟨_, _, hy0, hy1⟩ := hb
  unfold pixel_offset
  have hy : y < 2 ^ 32 := by
    have : (fb.height : Int) < 2 ^ 32 := by exact_mod_cast hh
    omega
  have hpi : (fb.pitch : Int) < 2 ^ 32 := by exact_mod_cast hp
  have hp0 : (0 : Int) ≤ fb.pitch := Int.natCast_nonneg _
  rw [Int.emod_eq_of_lt hy0 (by omega)]
  have hprod0 : 0 ≤ y * (fb.pitch : Int) := mul_nonneg hy0 hp0
  have hprod1 : y * (fb.pitch : Int) < 2 ^ 64 := by nlinarith
  rw [Int.emod_eq_of_lt hprod0 hprod1]

theorem put_pixel_width (fb : framebuffer_t) (x y : Int) (v : Nat) :
    (put_pixel fb x y v).width = fb.width := rfl

theorem put_pixel_height (fb : framebuffer_t) (x y : Int) (v : Nat) :
    (put_pixel fb x y v).height = fb.height := rfl

theorem put_pixel_pitch (fb : framebuffer_t) (x y : Int) (v : Nat) :
    (put_pixel fb x y v).pitch = fb.pitch := rfl

theorem put_pixel_size (fb : framebuffer_t) (x y : Int) (v : Nat) :
    (put_pixel fb x y v).size = fb.size := rfl

theorem pixel_offset_put (fb : framebuffer_t) (x y : Int) (v : Nat) (a b : Int) :
    pixel_offset (put_pixel fb x y v) a b = pixel_offset fb a b := rfl

theorem cells_disjoint (fb : framebuffer_t) (hv : fb.valid) (hp : 4 * fb.width ≤ fb.pitch)
    (x y a b : Int) (h1 : in_bounds fb x y) (h2 : in_bounds fb a b) (hne : (x, y) ≠ (a, b)) :
    pixel_offset fb a b + 4 ≤ pixel_offset fb x y
      ∨ pixel_offset fb x y + 4 ≤ pixel_offset fb a b := by
  rw [pixel_offset_in_bounds fb hv x y h1, pixel_offset_in_bounds fb hv a b h2]
  obtain ⟨hx0, hx1, hy0, hy1⟩ := h1
  obtain ⟨ha0, ha1, hb0, hb1⟩ := h2
  have hpi : 4 * (fb.width : Int) ≤ fb.pitch := by exact_mod_cast hp
  rcases lt_trichotomy y b with h | h | h
  · right
    have : (fb.pitch : Int) * 1 ≤ fb.pitch * (b - y) :=
      mul_le_mul_of_nonneg_left (by omega) (by omega)
    nlinarith
  · subst h
    have hxa : x ≠ a := fun e => hne (by rw [e])
    rcases lt_or_gt_of_ne hxa with h | h
    · right; omega
    · left; omega
  · left
    have : (fb.pitch : Int) * 1 ≤ fb.pitch * (y - b) :=
      mul_le_mul_of_nonneg_left (by omega) (by omega)
    nlinarith

theorem pixel_at_put_other (fb : framebuffer_t) (hv : fb.valid) (hp : 4 * fb.width ≤ fb.pitch)
    (x y a b : Int) (v : Nat) (h1 : in_bounds fb x y) (h2 : in_bounds fb a b)
    (hne : (x, y) ≠ (a, b)) :
    pixel_at (put_pixel fb x y v) a b = pixel_at fb a b := by
  unfold pixel_at
  rw [pixel_offset_put]
  show load32 (store32 fb.pixels (pixel_offset fb x y) v) (pixel_offset fb a b) = _
  exact load32_store32_other _ _ _ _ (cells_disjoint fb hv hp x y a b h1 h2 hne)

theorem line_setup_of (x0 y0 x1 y1 : Int) :
    line_setup x0 y0 x1 y1 (line_dx x0 x1) (line_dy y0 y1) (line_sx x0 x1) (line_sx y0 y1) := by
  unfold line_dx line_dy line_sx
  constructor
  · split <;> omega
  · split <;> omega
  · split <;> simp
  · split <;> simp
  · by_cases h : x0 < x1
    · rw [if_pos h, if_pos h]; ring
    · rw [if_neg h, if_neg h]; ring
  · by_cases h : y0 < y1
    · rw [if_pos h, if_pos h]; ring
    · rw [if_neg h, if_neg h]; ring

theorem line_inv_init {x0 y0 x1 y1 dx dy sx sy : Int}
    (hs : line_setup x0 y0 x1 y1 dx dy sx sy) :
    line_inv x0 y0 dx dy sx sy 0 0 { x0 := x0, y0 := y0, err := dx + dy } := by
  have h1 := hs.dx_nonneg
  have h2 := hs.dy_nonpos
  refine ⟨le_refl _, h1, le_refl _, by omega, ?_, ?_, ?_, ?_, ?_⟩
  · simp
  · simp
  · simp
  · simp only; omega
  · simp only; omega

theorem line_at_end_iff {x0 y0 x1 y1 dx dy sx sy : Int}
    (hs : line_setup x0 y0 x1 y1 dx dy sx sy) {i j : Int} {s : line_state}
    (hinv : line_inv x0 y0 dx dy sx sy i j s) :
    (s.x0 = x1 ∧ s.y0 = y1) ↔ (i = dx ∧ j = -dy) := by
  obtain ⟨_, _, _, _, hx, hy, _⟩ := hinv
  rw [hx, hy, hs.x1_eq, hs.y1_eq]
  constructor
  · rintro ⟨h1, h2⟩
    constructor
    · rcases hs.sx_unit with e | e <;> rw [e] at h1 <;> omega
    · rcases hs.sy_unit with e | e <;> rw [e] at h2 <;> omega
  · rintro ⟨h1, h2⟩
    rw [h1, h2]
    exact ⟨rfl, rfl⟩

/-- One iteration on unbounded integers keeps the invariant, moves each
coordinate by at most one step and at least one of them by one step. -/
theorem line_step_int_inv {x0 y0 x1 y1 dx dy sx sy : Int}
    (hs : line_setup x0 y0 x1 y1 dx dy sx sy) {i j : Int} {s : line_state}
    (hinv : line_inv x0 y0 dx dy sx sy i j s) (hne : ¬ (s.x0 = x1 ∧ s.y0 = y1)) :
    ∃ i2 j2 : Int, line_inv x0 y0 dx dy sx sy i2 j2 (line_step_int dx dy sx sy s)
      ∧ (i2 = i ∨ i2 = i + 1) ∧ (j2 = j ∨ j2 = j + 1) ∧ i + j < i2 + j2 := by
  rw [line_at_end_iff hs hinv] at hne
  obtain ⟨hi0, hi1, hj0, hj1, hx, hy, he, hlo, hhi⟩ := hinv
  have hdx := hs.dx_nonneg
  have hdy := hs.dy_nonpos
  -- a step in `x` is only taken while `x` has not reached `x1`
  have hxs : 2 * s.err ≥ dy → i < dx := by
    intro h
    by_contra hc
    have hi : i = dx := by omega
    have hj : j < -dy := by omega
    have hm : 0 ≤ dx * (-dy - 1 - j) := mul_nonneg hdx (by omega)
    rw [he, hi] at h
    nlinarith
  -- a step in `y` is only taken while `y` has not reached `y1`
  have hys : 2 * s.err ≤ dx → j < -dy := by
    intro h
    by_contra hc
    have hj : j = -dy := by omega
    have hi : i < dx := by omega
    have hm : 0 ≤ (-dy) * (dx - 1 - i) := mul_nonneg (by omega) (by omega)
    rw [he, hj] at h
    nlinarith
  unfold line_step_int
  by_cases h1 : 2 * s.err ≥ dy
  · by_cases h2 : 2 * s.err ≤ dx
    · refine ⟨i + 1, j + 1, ?_, Or.inr rfl, Or.inr rfl, by omega⟩
      have := hxs h1
      have := hys h2
      simp only [h1, h2, if_true]
      refine ⟨by omega, by omega, by omega, by omega, ?_, ?_, ?_, ?_, ?_⟩
      · simp only [hx]; ring
      · simp only [hy]; ring
      · simp only [he]; ring
      · simp only; omega
      · simp only; omega
    · refine ⟨i + 1, j, ?_, Or.inr rfl, Or.inl rfl, by omega⟩
      have := hxs h1
      simp only [h1, h2, if_true, if_false]
      refine ⟨by omega, by omega, by omega, by omega, ?_, ?_, ?_, ?_, ?_⟩
      · simp only [hx]; ring
      · simp only [hy]
      · simp only [he]; ring
      · simp only; omega
      · simp only; omega
  · have h2 : 2 * s.err ≤ dx := by omega
    refine ⟨i, j + 1, ?_, Or.inl rfl, Or.inr rfl, by omega⟩
    have := hys h2
    simp only [h1, h2, if_true, if_false]
    refine ⟨by omega, by omega, by omega, by omega, ?_, ?_, ?_, ?_, ?_⟩
    · simp only [hx]
    · simp only [hy]; ring
    · simp only [he]; ring
    · simp only; omega
    · simp only; omega

theorem line_inv_coords_small {x0 y0 x1 y1 dx dy sx sy : Int}
    (hs : line_setup x0 y0 x1 y1 dx dy sx sy) (hm : line_small x0 y0 x1 y1 dx dy)
    {i j : Int} {s : line_state} (hinv : line_inv x0 y0 dx dy sx sy i j s) :
    (-1073741824 < s.x0 ∧ s.x0 < 1073741824) ∧ (-1073741824 < s.y0 ∧ s.y0 < 1073741824) := by
  obtain ⟨hi0, hi1, hj0, hj1, hx, hy, _⟩ := hinv
  have a := hm.x0_small
  have b := hm.x1_small
  have c := hm.y0_small
  have d := hm.y1_small
  have ex := hs.x1_eq
  have ey := hs.y1_eq
  rw [hx, hy]
  constructor
  · rcases hs.sx_unit with e | e <;> rw [e] at ex ⊢ <;> omega
  · rcases hs.sy_unit with e | e <;> rw [e] at ey ⊢ <;> omega

/-- Under `line_small` no `int` operation of an iteration overflows. -/
theorem line_step_eq_int {x0 y0 x1 y1 dx dy sx sy : Int}
    (hs : line_setup x0 y0 x1 y1 dx dy sx sy) (hm : line_small x0 y0 x1 y1 dx dy)
    {i j : Int} {s : line_state} (hinv : line_inv x0 y0 dx dy sx sy i j s) :
    line_step dx dy sx sy s = some (line_step_int dx dy sx sy s) := by
  obtain ⟨⟨hx1, hx2⟩, ⟨hy1, hy2⟩⟩ := line_inv_coords_small hs hm hinv
  obtain ⟨hi0, hi1, hj0, hj1, _, _, he, hlo, hhi⟩ := hinv
  obtain ⟨e1, e2⟩ := hm.err_small i j s.err hi0 hi1 hj0 hj1 he hlo hhi
  have hdx := hs.dx_nonneg
  have hdy := hs.dy_nonpos
  have hdx2 := hm.dx_small
  have hdy2 := hm.dy_small
  have k0 : int_ok (2 * s.err) := by unfold int_ok; omega
  have k1 : int_ok (s.err + dy) := by unfold int_ok; omega
  have k2 : int_ok (s.err + dx) := by unfold int_ok; omega
  have k3 : int_ok (s.err + dy + dx) := by unfold int_ok; omega
  have k4 : int_ok (s.x0 + sx) := by
    unfold int_ok; rcases hs.sx_unit with e | e <;> rw [e] <;> omega
  have k5 : int_ok (s.y0 + sy) := by
    unfold int_ok; rcases hs.sy_unit with e | e <;> rw [e] <;> omega
  unfold line_step line_step_int
  by_cases h1 : 2 * s.err ≥ dy <;> by_cases h2 : 2 * s.err ≤ dx <;>
    simp [h1, h2, k0, k1, k2, k3, k4, k5]

/-- In a valid frame buffer with `pitch ≥ 4*width` a line between in-bounds
endpoints is small: `width * height < 2^30`. -/
theorem line_small_of_valid (fb : framebuffer_t) (hv : fb.valid)
    (hp : 4 * fb.width ≤ fb.pitch) {x0 y0 x1 y1 : Int} (h0 : in_bounds fb x0 y0)
    (h1 : in_bounds fb x1 y1) :
    line_small x0 y0 x1 y1 (line_dx x0 x1) (line_dy y0 y1) := by
  obtain ⟨_, _, _, hsz, hrows⟩ := hv
  obtain ⟨a0, a1, a2, a3⟩ := h0
  obtain ⟨b0, b1, b2, b3⟩ := h1
  have hsz2 : fb.size < 4294967296 := by norm_num at hsz; exact hsz
  have hw1 : 1 ≤ fb.width := by omega
  have hh1 : 1 ≤ fb.height := by omega
  have h4 : fb.height * (4 * fb.width) ≤ fb.height * fb.pitch := Nat.mul_le_mul_left _ hp
  have harea : fb.width * fb.height < 1073741824 := by
    have e : fb.height * (4 * fb.width) = 4 * (fb.width * fb.height) := by ring
    omega
  have hw : fb.width < 1073741824 := by
    have : fb.width * 1 ≤ fb.width * fb.height := Nat.mul_le_mul_left _ hh1
    omega
  have hh : fb.height < 1073741824 := by
    have : 1 * fb.height ≤ fb.width * fb.height := Nat.mul_le_mul_right _ hw1
    omega
  have hwi : (fb.width : Int) < 1073741824 := by exact_mod_cast hw
  have hhi : (fb.height : Int) < 1073741824 := by exact_mod_cast hh
  have hai : (fb.width : Int) * fb.height < 1073741824 := by exact_mod_cast harea
  have hdx0 : 0 ≤ line_dx x0 x1 := (line_setup_of x0 y0 x1 y1).dx_nonneg
  have hdy0 : line_dy y0 y1 ≤ 0 := (line_setup_of x0 y0 x1 y1).dy_nonpos
  have hdx : line_dx x0 x1 + 1 ≤ fb.width := by unfold line_dx; split <;> omega
  have hdy : 1 - line_dy y0 y1 ≤ fb.height := by unfold line_dy; split <;> omega
  refine ⟨by omega, by omega, by omega, by omega, by omega, by omega, ?_⟩
  intro i j e hi0 hi1 hj0 hj1 he _ _
  have hprod : (line_dx x0 x1 + 1) * (1 - line_dy y0 y1) ≤ (fb.width : Int) * fb.height :=
    mul_le_mul hdx hdy (by omega) (by omega)
  have p1 : 0 ≤ (line_dx x0 x1 - i) * (-line_dy y0 y1) := mul_nonneg (by omega) (by omega)
  have p2 : 0 ≤ (-line_dy y0 y1 - j) * line_dx x0 x1 := mul_nonneg (by omega) (by omega)
  have p3 : 0 ≤ i * (-line_dy y0 y1) := mul_nonneg hi0 (by omega)
  have p4 : 0 ≤ j * line_dx x0 x1 := mul_nonneg hj0 hdx0
  rw [he]
  constructor <;> nlinarith

/-! ### Theorems on `draw_line` -/

theorem line_dx_eq_abs (x0 x1 : Int) : line_dx x0 x1 = |x1 - x0| := by
  unfold line_dx
  split
  · rw [abs_of_pos (by omega)]
  · rw [abs_of_nonpos (by omega)]; ring

theorem line_dy_eq_abs (y0 y1 : Int) : line_dy y0 y1 = - |y1 - y0| := by
  unfold line_dy
  split
  · rw [abs_of_pos (by omega)]; ring
  · rw [abs_of_nonpos (by omega)]; ring

theorem draw_line_eq_loop (fuel : Nat) (fb : framebuffer_t) (x0 y0 x1 y1 : Int) (argb : Nat)
    (hm : line_small x0 y0 x1 y1 (line_dx x0 x1) (line_dy y0 y1)) :
    draw_line fuel fb x0 y0 x1 y1 argb
      = draw_line_loop x1 y1 (line_dx x0 x1) (line_dy y0 y1) (line_sx x0 x1) (line_sx y0 y1)
          argb fuel fb { x0 := x0, y0 := y0, err := line_dx x0 x1 + line_dy y0 y1 } := by
  have hs := line_setup_of x0 y0 x1 y1
  have h1 := hs.dx_nonneg
  have h2 := hs.dy_nonpos
  have h3 := hm.dx_small
  have h4 := hm.dy_small
  have k1 : int_ok (line_dx x0 x1) := by unfold int_ok; omega
  have k2 : int_ok (line_dy y0 y1) := by unfold int_ok; omega
  have k3 : int_ok (line_dx x0 x1 + line_dy y0 y1) := by unfold int_ok; omega
  unfold draw_line
  simp only [k1, k2, k3, and_self, if_true]

/-- Claim C8. For an in-bounds point `(x,y)` and any colour, the degenerate call
`draw_line(fb,x,y,x,y,argb)` stops after one iteration having made exactly one
`put_pixel` call, at `(x,y)`: the four bytes of that cell hold `argb`, every
byte outside the cell is unchanged, and (the rows not overlapping, that is
`pitch ≥ 4*width`) every other in-bounds pixel keeps its value. -/
theorem degenerate_line (fb : framebuffer_t) (x y : Int) (argb : Nat)
    (hb : in_bounds fb x y) (fuel : Nat) (hf : 1 ≤ fuel) :
    draw_line fuel fb x y x y argb = run_result.finished (put_pixel fb x y argb) [(x, y)]
      ∧ pixel_at (put_pixel fb x y argb) x y = argb % 2 ^ 32
      ∧ (∀ a : Int, ¬ (pixel_offset fb x y ≤ a ∧ a < pixel_offset fb x y + 4) →
          (put_pixel fb x y argb).pixels a = fb.pixels a)
      ∧ (fb.valid → 4 * fb.width ≤ fb.pitch → ∀ a b : Int, in_bounds fb a b →
          (a, b) ≠ (x, y) → pixel_at (put_pixel fb x y argb) a b = pixel_at fb a b) := by
  refine ⟨?_, ?_, ?_, ?_⟩
  · obtain ⟨n, rfl⟩ : ∃ n, fuel = n + 1 := ⟨fuel - 1, by omega⟩
    have k : int_ok 0 := by unfold int_ok; omega
    simp [draw_line, draw_line_loop, line_dx, line_dy, k]
  · unfold pixel_at
    rw [pixel_offset_put]
    exact load32_store32_same _ _ _
  · intro a ha
    show store32 fb.pixels (pixel_offset fb x y) argb a = fb.pixels a
    unfold store32
    rw [if_neg ha]
  · intro hv hp a b hab hne
    exact pixel_at_put_other fb hv hp x y a b argb hb hab (fun e => hne e.symm)

/-- Witness of `degenerate_line`: the point `(2,1)` of a 4 x 3 frame buffer. -/
theorem degenerate_line_witness :
    draw_line 1 ⟨fun _ => 0, 4, 3, 16, 48⟩ 2 1 2 1 9
        = run_result.finished (put_pixel ⟨fun _ => 0, 4, 3, 16, 48⟩ 2 1 9) [(2, 1)]
      ∧ pixel_at (put_pixel ⟨fun _ => 0, 4, 3, 16, 48⟩ 2 1 9) 2 1 = 9 % 2 ^ 32
      ∧ (∀ a : Int, ¬ (pixel_offset ⟨fun _ => 0, 4, 3, 16, 48⟩ 2 1 ≤ a
            ∧ a < pixel_offset ⟨fun _ => 0, 4, 3, 16, 48⟩ 2 1 + 4) →
          (put_pixel ⟨fun _ => 0, 4, 3, 16, 48⟩ 2 1 9).pixels a = 0)
      ∧ (framebuffer_t.valid ⟨fun _ => 0, 4, 3, 16, 48⟩ → 4 * 4 ≤ 16 → ∀ a b : Int,
          in_bounds ⟨fun _ => 0, 4, 3, 16, 48⟩ a b → (a, b) ≠ (2, 1) →
          pixel_at (put_pixel ⟨fun _ => 0, 4, 3, 16, 48⟩ 2 1 9) a b
            = pixel_at ⟨fun _ => 0, 4, 3, 16, 48⟩ a b) :=
  degenerate_line ⟨fun _ => 0, 4, 3, 16, 48⟩ 2 1 9 (by unfold in_bounds; norm_num) 1
    (le_refl 1)

/-! ### Lemmas on the display side -/

theorem initial_append_cases {α : Type} (p l1 l2 : List α) (h : p <+: l1 ++ l2) :
    p <+: l1 ∨ ∃ q, p = l1 ++ q ∧ q <+: l2 := by
  induction l1 generalizing p with
  | nil => exact Or.inr ⟨p, rfl, h⟩
  | cons a l1 ih =>
    rw [List.cons_append, List.prefix_cons_iff] at h
    rcases h with h | ⟨t, ht, hpre⟩
    · left; rw [h]; exact List.nil_prefix
    · rcases ih t hpre with h1 | ⟨q, hq, hq2⟩
      · left; rw [ht]; exact (List.prefix_cons_inj a).mpr h1
      · right; exact ⟨q, by rw [ht, hq]; rfl, hq2⟩

theorem kms_apply_log (k : kms_state) (c : kms_call) : (k.apply c).log = k.log ++ [c] := by
  cases c <;> simp only [kms_state.apply] <;> try split
  all_goals rfl

theorem kms_run_append (k : kms_state) (p q : List kms_call) :
    kms_run k (p ++ q) = kms_run (kms_run k p) q := by
  unfold kms_run
  rw [List.foldl_append]

theorem kms_run_log (k : kms_state) (p : List kms_call) : (kms_run k p).log = k.log ++ p := by
  induction p generalizing k with
  | nil => simp [kms_run]
  | cons c p ih =>
    have e : kms_run k (c :: p) = kms_run (k.apply c) p := rfl
    rw [e, ih, kms_apply_log]
    simp

theorem kms_apply_fbs (k : kms_state) (c : kms_call) (f : Nat) (h : f ∈ (k.apply c).fbs) :
    f ∈ k.fbs ∨ c = kms_call.add_fb 0 f := by
  cases c with
  | lock_front_buffer bo => exact Or.inl h
  | add_fb ret fb =>
    simp only [kms_state.apply] at h
    split at h
    · rename_i hr
      simp only [List.mem_cons] at h
      rcases h with h | h
      · right; rw [h, hr]
      · exact Or.inl h
    · exact Or.inl h
  | set_crtc fb ret =>
    simp only [kms_state.apply] at h
    split at h <;> exact Or.inl h
  | rm_fb fb =>
    simp only [kms_state.apply, List.mem_filter] at h
    exact Or.inl h.1
  | release_buffer bo => exact Or.inl h
  | exit_failure => exact Or.inl h

theorem kms_apply_locked (k : kms_state) (c : kms_call) (b : Nat)
    (h : b ∈ (k.apply c).locked) : b ∈ k.locked ∨ c = kms_call.lock_front_buffer b := by
  cases c with
  | lock_front_buffer bo =>
    simp only [kms_state.apply, List.mem_cons] at h
    rcases h with h | h
    · right; rw [h]
    · exact Or.inl h
  | add_fb ret fb =>
    simp only [kms_state.apply] at h
    split at h <;> exact Or.inl h
  | set_crtc fb ret =>
    simp only [kms_state.apply] at h
    split at h <;> exact Or.inl h
  | rm_fb fb => exact Or.inl h
  | release_buffer bo =>
    simp only [kms_state.apply, List.mem_filter] at h
    exact Or.inl h.1
  | exit_failure => exact Or.inl h

theorem kms_run_fbs (k : kms_state) (p : List kms_call) (f : Nat)
    (h : f ∈ (kms_run k p).fbs) : f ∈ k.fbs ∨ kms_call.add_fb 0 f ∈ p := by
  induction p generalizing k with
  | nil => exact Or.inl h
  | cons c p ih =>
    have e : kms_run k (c :: p) = kms_run (k.apply c) p := rfl
    rw [e] at h
    rcases ih (k.apply c) h with h1 | h1
    · rcases kms_apply_fbs k c f h1 with h2 | h2
      · exact Or.inl h2
      · right; rw [h2]; exact List.mem_cons_self _ _
    · right; exact List.mem_cons_of_mem _ h1

theorem kms_run_locked (k : kms_state) (p : List kms_call) (b : Nat)
    (h : b ∈ (kms_run k p).locked) : b ∈ k.locked ∨ kms_call.lock_front_buffer b ∈ p := by
  induction p generalizing k with
  | nil => exact Or.inl h
  | cons c p ih =>
    have e : kms_run k (c :: p) = kms_run (k.apply c) p := rfl
    rw [e] at h
    rcases ih (k.apply c) h with h1 | h1
    · rcases kms_apply_locked k c b h1 with h2 | h2
      · exact Or.inl h2
      · right; rw [h2]; exact List.mem_cons_self _ _
    · right; exact List.mem_cons_of_mem _ h1

/-! ### The calls of a sequence of successful present steps -/

/-- The first call of `graphics_present`, every call succeeding: nothing is
tracked yet, nothing is released. -/
theorem graphics_present_zero (b f : Nat) :
    graphics_present GraphicsContext.zero (ok_env b f)
      = ({ previous_bo := b, previous_framebuffer := f },
         [kms_call.lock_front_buffer b, kms_call.add_fb 0 f, kms_call.set_crtc f 0]) := by
  simp [graphics_present, GraphicsContext.zero, ok_env]

theorem graphics_present_next (pb pf b f : Nat) (hb : pb ≠ 0) (hf : pf ≠ 0) :
    graphics_present { previous_bo := pb, previous_framebuffer := pf } (ok_env b f)
      = ({ previous_bo := b, previous_framebuffer := f },
         [kms_call.lock_front_buffer b, kms_call.add_fb 0 f, kms_call.set_crtc f 0,
          kms_call.rm_fb pf, kms_call.release_buffer pb]) := by
  simp [graphics_present, ok_env, hb, hf]

theorem present_frames_append (gfx : GraphicsContext) (es fs : List present_env) :
    present_frames gfx (es ++ fs)
      = ((present_frames (present_frames gfx es).1 fs).1,
         (present_frames gfx es).2 ++ (present_frames (present_frames gfx es).1 fs).2) := by
  induction es generalizing gfx with
  | nil => simp [present_frames]
  | cons e es ih =>
    show present_frames gfx (e :: (es ++ fs)) = _
    simp only [present_frames]
    rw [ih]
    simp only [List.append_assoc]

theorem present_block_ok (prev : GraphicsContext) (b f : Nat) :
    present_block prev (ok_env b f)
      = (some (graphics_present prev (ok_env b f)).1, (graphics_present prev (ok_env b f)).2) := by
  simp [present_block, graphics_present, ok_env]

theorem loop_frames_ok (prev : GraphicsContext) (slots : List (Nat × Nat)) :
    loop_frames prev (slots.map (fun s => ok_env s.1 s.2))
      = (some (present_frames prev (slots.map (fun s => ok_env s.1 s.2))).1,
         (present_frames prev (slots.map (fun s => ok_env s.1 s.2))).2) := by
  induction slots generalizing prev with
  | nil => rfl
  | cons s slots ih =>
    simp only [List.map_cons, loop_frames, present_block_ok, present_frames, ih]

/-! ### Sequences of successful present steps -/

theorem slot_calls_nil : slot_calls [] = [] := rfl

theorem slot_calls_single (n : Nat × Nat) :
    slot_calls [n] = [kms_call.lock_front_buffer n.1, kms_call.add_fb 0 n.2,
      kms_call.set_crtc n.2 0] := by
  simp [slot_calls, present_frames, graphics_present_zero]

theorem context_after (ds : List (Nat × Nat)) (p : Nat × Nat) (gfx : GraphicsContext) :
    (present_frames gfx ((ds ++ [p]).map (fun s => ok_env s.1 s.2))).1
      = { previous_bo := p.1, previous_framebuffer := p.2 } := by
  rw [List.map_append, present_frames_append]
  simp [present_frames, graphics_present, ok_env]

theorem slot_calls_snoc (ds : List (Nat × Nat)) (p n : Nat × Nat) (hb : p.1 ≠ 0)
    (hf : p.2 ≠ 0) :
    slot_calls (ds ++ [p] ++ [n]) = slot_calls (ds ++ [p])
      ++ [kms_call.lock_front_buffer n.1, kms_call.add_fb 0 n.2, kms_call.set_crtc n.2 0,
          kms_call.rm_fb p.2, kms_call.release_buffer p.1] := by
  unfold slot_calls
  rw [List.map_append, present_frames_append, context_after]
  simp only [List.map_cons, List.map_nil, present_frames]
  rw [graphics_present_next p.1 p.2 n.1 n.2 hb hf]
  simp

theorem fresh_slots_front {l : List (Nat × Nat)} {a : Nat × Nat} (h : fresh_slots (l ++ [a])) :
    fresh_slots l := by
  obtain ⟨h1, h2, h3⟩ := h
  rw [List.map_append] at h1 h2
  exact ⟨(List.nodup_append.mp h1).1, (List.nodup_append.mp h2).1,
    fun s hs => h3 s (List.mem_append_left _ hs)⟩

theorem fresh_slots_inj_fst {l : List (Nat × Nat)} (h : fresh_slots l) {s t : Nat × Nat}
    (hs : s ∈ l) (ht : t ∈ l) (e : s.1 = t.1) : s = t :=
  List.inj_on_of_nodup_map h.1 hs ht e

theorem fresh_slots_inj_snd {l : List (Nat × Nat)} (h : fresh_slots l) {s t : Nat × Nat}
    (hs : s ∈ l) (ht : t ∈ l) (e : s.2 = t.2) : s = t :=
  List.inj_on_of_nodup_map h.2.1 hs ht e

theorem fresh_last_two_ne {l : List (Nat × Nat)} {q p : Nat × Nat}
    (h : fresh_slots (l ++ [q] ++ [p])) : p.1 ≠ q.1 ∧ p.2 ≠ q.2 := by
  obtain ⟨h1, h2, _⟩ := h
  rw [List.map_append, List.map_append] at h1 h2
  simp only [List.map_cons, List.map_nil] at h1 h2
  constructor
  · intro e
    have hd := (List.nodup_append.mp h1).2.2
    exact hd (show q.1 ∈ List.map Prod.fst l ++ [q.1] by simp) (by simp [e])
  · intro e
    have hd := (List.nodup_append.mp h2).2.2
    exact hd (show q.2 ∈ List.map Prod.snd l ++ [q.2] by simp) (by simp [e])

theorem untouched_front {k : kms_state} {l : List (Nat × Nat)} {a : Nat × Nat}
    (h : untouched k (l ++ [a])) : untouched k l :=
  fun s hs => h s (List.mem_append_left _ hs)

/-- Every call of the present steps is about one of the slots presented. -/
theorem slot_calls_mentions (slots : List (Nat × Nat)) (hfr : fresh_slots slots) :
    ∀ c ∈ slot_calls slots, ∃ s ∈ slots, mentions c s := by
  induction slots using List.reverseRecOn with
  | nil => intro c hc; simp [slot_calls_nil] at hc
  | append_singleton l n ih =>
    have hl := fresh_slots_front hfr
    rcases List.eq_nil_or_concat l with e | ⟨ds, p, e⟩
    · subst e
      intro c hc
      rw [List.nil_append, slot_calls_single] at hc
      refine ⟨n, by simp, ?_⟩
      simp only [List.mem_cons, List.mem_singleton, List.not_mem_nil, or_false] at hc
      rcases hc with h | h | h <;> rw [h] <;> simp [mentions]
    · rw [List.concat_eq_append] at e
      subst e
      have hp := hl.2.2 p (by simp)
      intro c hc
      rw [slot_calls_snoc ds p n hp.1 hp.2, List.mem_append] at hc
      rcases hc with h | h
      · obtain ⟨s, hs, hm⟩ := ih hl c h
        exact ⟨s, List.mem_append_left _ hs, hm⟩
      · simp only [List.mem_cons, List.mem_singleton, List.not_mem_nil, or_false] at h
        rcases h with h | h | h | h | h
        · exact ⟨n, by simp, by rw [h]; simp [mentions]⟩
        · exact ⟨n, by simp, by rw [h]; simp [mentions]⟩
        · exact ⟨n, by simp, by rw [h]; simp [mentions]⟩
        · exact ⟨p, by simp, by rw [h]; simp [mentions]⟩
        · exact ⟨p, by simp, by rw [h]; simp [mentions]⟩

/-- The display side between two present steps: only the slot presented last
is registered, locked and on the CRTC. -/
theorem state_between (k0 : kms_state) (ds : List (Nat × Nat)) (p : Nat × Nat)
    (hfr : fresh_slots (ds ++ [p])) (hun : untouched k0 (ds ++ [p])) :
    (kms_run k0 (slot_calls (ds ++ [p]))).fbs = p.2 :: k0.fbs
      ∧ (kms_run k0 (slot_calls (ds ++ [p]))).locked = p.1 :: k0.locked
      ∧ (kms_run k0 (slot_calls (ds ++ [p]))).crtc = p.2 := by
  induction ds using List.reverseRecOn generalizing p with
  | nil =>
    rw [List.nil_append, slot_calls_single]
    simp [kms_run, kms_state.apply]
  | append_singleton l q ih =>
    have hl := fresh_slots_front hfr
    obtain ⟨e1, e2, e3⟩ := ih q hl (untouched_front hun)
    have hq := hl.2.2 q (by simp)
    have hq0 := hun q (by simp)
    obtain ⟨hne1, hne2⟩ := fresh_last_two_ne hfr
    rw [slot_calls_snoc l q p hq.1 hq.2, kms_run_append]
    generalize kms_run k0 (slot_calls (l ++ [q])) = k at e1 e2 e3
    have f1 : List.filter (fun f => decide (f ≠ q.2)) k0.fbs = k0.fbs :=
      List.filter_eq_self.mpr (fun a ha => by
        simp only [ne_eq, decide_not, Bool.not_eq_true', decide_eq_false_iff_not]
        intro e; rw [e] at ha; exact hq0.1 ha)
    have f2 : List.filter (fun f => decide (f ≠ q.1)) k0.locked = k0.locked :=
      List.filter_eq_self.mpr (fun a ha => by
        simp only [ne_eq, decide_not, Bool.not_eq_true', decide_eq_false_iff_not]
        intro e; rw [e] at ha; exact hq0.2.1 ha)
    simp only [kms_run, List.foldl_cons, List.foldl_nil, kms_state.apply, if_true, e1, e2,
      List.filter_cons, hne1, hne2, ne_eq, not_false_eq_true, decide_True, not_true_eq_false,
      decide_False, if_false, f1, f2, Bool.false_eq_true, and_self]

/-! ### The hand-off invariants at every point of a run -/

theorem slot_presented_iff (k : kms_state) (b f : Nat) :
    slot_state_of k b f = slot_state.Presented ↔ f ∈ k.fbs ∧ k.crtc = f := by
  unfold slot_state_of
  by_cases h1 : f ∈ k.fbs ∧ k.crtc = f
  · simp [h1]
  · rw [if_neg h1]
    constructor
    · intro h
      split at h
      · split at h <;> cases h
      · cases h
    · intro h; exact absurd h h1

theorem slot_pending_iff (k : kms_state) (b f : Nat) :
    slot_state_of k b f = slot_state.PendingRelease
      ↔ ¬ (f ∈ k.fbs ∧ k.crtc = f) ∧ (f ∈ k.fbs ∨ b ∈ k.locked)
        ∧ kms_call.set_crtc f 0 ∈ k.log := by
  unfold slot_state_of
  by_cases h1 : f ∈ k.fbs ∧ k.crtc = f
  · rw [if_pos h1]
    constructor
    · intro h; cases h
    · intro h; exact absurd h1 h.1
  · rw [if_neg h1]
    by_cases h2 : f ∈ k.fbs ∨ b ∈ k.locked
    · rw [if_pos h2]
      by_cases h3 : kms_call.set_crtc f 0 ∈ k.log
      · rw [if_pos h3]
        exact ⟨fun _ => ⟨h1, h2, h3⟩, fun _ => rfl⟩
      · rw [if_neg h3]
        constructor
        · intro h; cases h
        · intro h; exact absurd h.2.2 h3
    · rw [if_neg h2]
      constructor
      · intro h; cases h
      · intro h; exact absurd h.2.1 h2

theorem slot_free_iff (k : kms_state) (b f : Nat) :
    slot_state_of k b f = slot_state.Free ↔ f ∉ k.fbs ∧ b ∉ k.locked := by
  unfold slot_state_of
  by_cases h1 : f ∈ k.fbs ∧ k.crtc = f
  · rw [if_pos h1]
    constructor
    · intro h; cases h
    · intro h; exact absurd h1.1 h.1
  · rw [if_neg h1]
    by_cases h2 : f ∈ k.fbs ∨ b ∈ k.locked
    · rw [if_pos h2]
      constructor
      · intro h
        split at h <;> cases h
      · intro h
        rcases h2 with h2 | h2
        · exact absurd h2 h.1
        · exact absurd h2 h.2
    · rw [if_neg h2]
      push_neg at h2
      exact ⟨fun _ => h2, fun _ => rfl⟩

theorem fresh_new_ne {l : List (Nat × Nat)} {n : Nat × Nat} (h : fresh_slots (l ++ [n])) :
    ∀ s ∈ l, s.1 ≠ n.1 ∧ s.2 ≠ n.2 := by
  intro s hs
  obtain ⟨h1, h2, _⟩ := h
  rw [List.map_append] at h1 h2
  simp only [List.map_cons, List.map_nil] at h1 h2
  constructor
  · intro e
    have hd := (List.nodup_append.mp h1).2.2
    exact hd (List.mem_map_of_mem Prod.fst hs) (by simp [e])
  · intro e
    have hd := (List.nodup_append.mp h2).2.2
    exact hd (List.mem_map_of_mem Prod.snd hs) (by simp [e])

theorem mentions_two {c : kms_call} {s n : Nat × Nat} (h1 : mentions c s) (h2 : mentions c n) :
    s.1 = n.1 ∨ s.2 = n.2 := by
  cases c <;> simp only [mentions] at h1 h2
  · left; rw [← h1, ← h2]
  · right; rw [← h1, ← h2]
  · right; rw [← h1, ← h2]
  · right; rw [← h1, ← h2]
  · left; rw [← h1, ← h2]

/-- While the steps of the slots `l` run, the display side has not seen the
next slot `n`. -/
theorem new_slot_unseen (k0 : kms_state) {l : List (Nat × Nat)} {n : Nat × Nat}
    (hfr : fresh_slots (l ++ [n])) (hun : untouched k0 (l ++ [n])) (p : List kms_call)
    (hp : p <+: slot_calls l) :
    n.2 ∉ (kms_run k0 p).fbs ∧ n.1 ∉ (kms_run k0 p).locked
      ∧ ∀ c ∈ (kms_run k0 p).log, ¬ mentions c n := by
  obtain ⟨u1, u2, _, u4⟩ := hun n (by simp)
  have hcalls : ∀ c ∈ p, ¬ mentions c n := by
    intro c hc hm
    obtain ⟨s, hs, hms⟩ := slot_calls_mentions l (fresh_slots_front hfr) c (hp.subset hc)
    have hne := fresh_new_ne hfr s hs
    rcases mentions_two hms hm with e | e
    · exact hne.1 e
    · exact hne.2 e
  refine ⟨?_, ?_, ?_⟩
  · intro h
    rcases kms_run_fbs k0 p n.2 h with h | h
    · exact u1 h
    · exact hcalls _ h (by simp [mentions])
  · intro h
    rcases kms_run_locked k0 p n.1 h with h | h
    · exact u2 h
    · exact hcalls _ h (by simp [mentions])
  · intro c hc
    rw [kms_run_log, List.mem_append] at hc
    rcases hc with h | h
    · exact u4 c h
    · exact hcalls c h

theorem initial_of_three {α : Type} (q : List α) (a b c : α) (h : q <+: [a, b, c]) :
    q = [] ∨ q = [a] ∨ q = [a, b] ∨ q = [a, b, c] := by
  rw [List.prefix_cons_iff] at h
  rcases h with h | ⟨t, rfl, h⟩
  · exact Or.inl h
  rw [List.prefix_cons_iff] at h
  rcases h with h | ⟨t, rfl, h⟩
  · right; left; rw [h]
  rw [List.prefix_cons_iff] at h
  rcases h with h | ⟨t, rfl, h⟩
  · right; right; left; rw [h]
  rw [List.prefix_nil] at h
  right; right; right; rw [h]

theorem initial_of_five {α : Type} (q : List α) (a b c d e : α) (h : q <+: [a, b, c, d, e]) :
    q <+: [a, b, c] ∨ q = [a, b, c, d] ∨ q = [a, b, c, d, e] := by
  rw [List.prefix_cons_iff] at h
  rcases h with h | ⟨t, rfl, h⟩
  · left; rw [h]; exact List.nil_prefix
  rw [List.prefix_cons_iff] at h
  rcases h with h | ⟨t, rfl, h⟩
  · left; rw [h]; exact ⟨[b, c], rfl⟩
  rw [List.prefix_cons_iff] at h
  rcases h with h | ⟨t, rfl, h⟩
  · left; rw [h]; exact ⟨[c], rfl⟩
  rw [List.prefix_cons_iff] at h
  rcases h with h | ⟨t, rfl, h⟩
  · left; rw [h]
  rw [List.prefix_cons_iff] at h
  rcases h with h | ⟨t, rfl, h⟩
  · right; left; rw [h]
  rw [List.prefix_nil] at h
  right; right; rw [h]

/-- The points of the first present step (nothing tracked yet). -/
theorem handoff_first (k0 : kms_state) (n : Nat × Nat) (hun : untouched k0 [n])
    (p : List kms_call) (hp : p <+: slot_calls [n]) : handoff_ok [n] (kms_run k0 p) := by
  obtain ⟨_, _, _, u4⟩ := hun n (by simp)
  rw [slot_calls_single] at hp
  constructor
  · intro s hs t ht _ _
    rw [List.mem_singleton] at hs ht
    rw [hs, ht]
  · intro s hs h
    rw [List.mem_singleton] at hs
    rw [hs, kms_run_log, List.mem_append, List.mem_append] at h
    exfalso
    rcases h with (h | h) | (h | h)
    · exact u4 _ h (by simp [mentions])
    · have := hp.subset h
      simp at this
    · exact u4 _ h (by simp [mentions])
    · have := hp.subset h
      simp at this

/-- The points of a later present step, after the slots `ds ++ [q]`. -/
theorem handoff_next (k0 : kms_state) (ds : List (Nat × Nat)) (q n : Nat × Nat)
    (hfr : fresh_slots (ds ++ [q] ++ [n])) (hun : untouched k0 (ds ++ [q] ++ [n]))
    (hprev : handoff_ok (ds ++ [q]) (kms_run k0 (slot_calls (ds ++ [q]))))
    (r : List kms_call)
    (hr : r <+: [kms_call.lock_front_buffer n.1, kms_call.add_fb 0 n.2,
      kms_call.set_crtc n.2 0, kms_call.rm_fb q.2, kms_call.release_buffer q.1]) :
    handoff_ok (ds ++ [q] ++ [n]) (kms_run (kms_run k0 (slot_calls (ds ++ [q]))) r) := by
  have hl := fresh_slots_front hfr
  have hul := untouched_front hun
  obtain ⟨b1, b2, b3⟩ := state_between k0 ds q hl hul
  obtain ⟨n1, n2, n3⟩ := new_slot_unseen k0 hfr hun (slot_calls (ds ++ [q])) (List.prefix_refl _)
  obtain ⟨q1, q2⟩ := hprev
  obtain ⟨hne1, hne2⟩ := fresh_last_two_ne hfr
  have hqm : q ∈ ds ++ [q] ++ [n] := by simp
  have hnm : n ∈ ds ++ [q] ++ [n] := by simp
  generalize kms_run k0 (slot_calls (ds ++ [q])) = kb at b1 b2 b3 n1 n2 n3 q1 q2
  -- only the previous and the new slot are held
  have held : ∀ s ∈ ds ++ [q] ++ [n],
      (s.2 ∈ (kms_run kb r).fbs ∨ s.1 ∈ (kms_run kb r).locked) → s = q ∨ s = n := by
    intro s hs h
    obtain ⟨u1, u2, _, _⟩ := hun s hs
    rcases h with h | h
    · rcases kms_run_fbs kb r s.2 h with h | h
      · rw [b1, List.mem_cons] at h
        rcases h with h | h
        · exact Or.inl (fresh_slots_inj_snd hfr hs hqm h)
        · exact absurd h u1
      · have := hr.subset h
        simp only [List.mem_cons, List.mem_singleton, List.not_mem_nil, or_false,
          kms_call.add_fb.injEq, true_and, reduceCtorEq, false_or] at this
        exact Or.inr (fresh_slots_inj_snd hfr hs hnm this)
    · rcases kms_run_locked kb r s.1 h with h | h
      · rw [b2, List.mem_cons] at h
        rcases h with h | h
        · exact Or.inl (fresh_slots_inj_fst hfr hs hqm h)
        · exact absurd h u2
      · have := hr.subset h
        simp only [List.mem_cons, List.mem_singleton, List.not_mem_nil, or_false,
          kms_call.lock_front_buffer.injEq, reduceCtorEq, false_or] at this
        exact Or.inr (fresh_slots_inj_fst hfr hs hnm this)
  -- the stage reached within the step
  have stage : (kms_call.set_crtc n.2 0 ∈ r →
        n.2 ∈ (kms_run kb r).fbs ∧ (kms_run kb r).crtc = n.2)
      ∧ ((kms_call.rm_fb q.2 ∈ r ∨ kms_call.release_buffer q.1 ∈ r) →
        kms_call.add_fb 0 n.2 ∈ r ∧ kms_call.set_crtc n.2 0 ∈ r) := by
    rcases initial_of_five r _ _ _ _ _ hr with h | h | h
    · rcases initial_of_three r _ _ _ h with h | h | h | h <;> subst h <;>
        simp [kms_run, kms_state.apply]
    · subst h
      simp [kms_run, kms_state.apply, hne2]
    · subst h
      simp [kms_run, kms_state.apply, hne2]
  have new_not_pending :
      slot_state_of (kms_run kb r) n.1 n.2 ≠ slot_state.PendingRelease := by
    intro h
    rw [slot_pending_iff, kms_run_log, List.mem_append] at h
    obtain ⟨h1, _, h3⟩ := h
    rcases h3 with h3 | h3
    · exact n3 _ h3 (by simp [mentions])
    · exact h1 (stage.1 h3)
  have pending_is_prev : ∀ s ∈ ds ++ [q] ++ [n],
      slot_state_of (kms_run kb r) s.1 s.2 = slot_state.PendingRelease → s = q := by
    intro s hs h
    rcases held s hs ((slot_pending_iff _ _ _).mp h).2.1 with e | e
    · exact e
    · rw [e] at h
      exact absurd h new_not_pending
  constructor
  · intro s hs t ht h1 h2
    rw [pending_is_prev s hs h1, pending_is_prev t ht h2]
  · intro s hs h
    rw [kms_run_log] at h ⊢
    simp only [List.mem_append] at h ⊢
    have hsl : (kms_call.rm_fb s.2 ∈ kb.log ∨ kms_call.release_buffer s.1 ∈ kb.log) →
        s ∈ ds ++ [q] := by
      intro h
      rw [List.mem_append, List.mem_singleton] at hs
      rcases hs with hs | hs
      · exact hs
      · rw [hs] at h
        exfalso
        rcases h with h | h
        · exact n3 _ h (by simp [mentions])
        · exact n3 _ h (by simp [mentions])
    have hold : (kms_call.rm_fb s.2 ∈ kb.log ∨ kms_call.release_buffer s.1 ∈ kb.log) →
        ∃ t, supersedes (ds ++ [q] ++ [n]) s t
          ∧ (kms_call.add_fb 0 t.2 ∈ kb.log ∨ kms_call.add_fb 0 t.2 ∈ r)
          ∧ (kms_call.set_crtc t.2 0 ∈ kb.log ∨ kms_call.set_crtc t.2 0 ∈ r) := by
      intro h
      obtain ⟨t, ⟨l1, l2, e⟩, h3, h4⟩ := q2 s (hsl h) h
      exact ⟨t, ⟨l1, l2 ++ [n], by rw [e]; simp⟩, Or.inl h3, Or.inl h4⟩
    have hnew : (kms_call.rm_fb s.2 ∈ r ∨ kms_call.release_buffer s.1 ∈ r) →
        ∃ t, supersedes (ds ++ [q] ++ [n]) s t
          ∧ (kms_call.add_fb 0 t.2 ∈ kb.log ∨ kms_call.add_fb 0 t.2 ∈ r)
          ∧ (kms_call.set_crtc t.2 0 ∈ kb.log ∨ kms_call.set_crtc t.2 0 ∈ r) := by
      intro h
      have hsq : s = q := by
        rcases h with h | h
        · have := hr.subset h
          simp only [List.mem_cons, List.mem_singleton, List.not_mem_nil, or_false,
            kms_call.rm_fb.injEq, reduceCtorEq, false_or] at this
          exact fresh_slots_inj_snd hfr hs hqm this
        · have := hr.subset h
          simp only [List.mem_cons, List.mem_singleton, List.not_mem_nil, or_false,
            kms_call.release_buffer.injEq, reduceCtorEq, false_or] at this
          exact fresh_slots_inj_fst hfr hs hqm this
      rw [hsq] at h ⊢
      obtain ⟨h3, h4⟩ := stage.2 h
      exact ⟨n, ⟨ds, [], by simp⟩, Or.inr h3, Or.inr h4⟩
    rcases h with (h | h) | (h | h)
    · exact hold (Or.inl h)
    · exact hnew (Or.inl h)
    · exact hold (Or.inr h)
    · exact hnew (Or.inr h)

/-- A point reached before the step of a new slot `n` stays safe when `n` is
added to the slots: the display side has not seen `n` yet. -/
theorem handoff_mono (k0 : kms_state) (l : List (Nat × Nat)) (n : Nat × Nat)
    (hfr : fresh_slots (l ++ [n])) (hun : untouched k0 (l ++ [n])) (p : List kms_call)
    (hp : p <+: slot_calls l) (h : handoff_ok l (kms_run k0 p)) :
    handoff_ok (l ++ [n]) (kms_run k0 p) := by
  obtain ⟨q1, q2⟩ := h
  obtain ⟨n1, n2, n3⟩ := new_slot_unseen k0 hfr hun p hp
  have hnp : slot_state_of (kms_run k0 p) n.1 n.2 ≠ slot_state.PendingRelease := by
    intro h
    rw [slot_pending_iff] at h
    rcases h.2.1 with h | h
    · exact n1 h
    · exact n2 h
  constructor
  · intro s hs t ht h1 h2
    rw [List.mem_append, List.mem_singleton] at hs ht
    rcases hs with hs | hs
    · rcases ht with ht | ht
      · exact q1 s hs t ht h1 h2
      · rw [ht] at h2; exact absurd h2 hnp
    · rw [hs] at h1; exact absurd h1 hnp
  · intro s hs h
    rw [List.mem_append, List.mem_singleton] at hs
    rcases hs with hs | hs
    · obtain ⟨t, ⟨l1, l2, e⟩, h3, h4⟩ := q2 s hs h
      exact ⟨t, ⟨l1, l2 ++ [n], by rw [e]; simp⟩, h3, h4⟩
    · rw [hs] at h
      exfalso
      rcases h with h | h
      · exact n3 _ h (by simp [mentions])
      · exact n3 _ h (by simp [mentions])

/-- The hand-off invariants hold at every point of a run of successful present
steps with fresh slots. -/
theorem handoff_points (k0 : kms_state) (slots : List (Nat × Nat)) (hfr : fresh_slots slots)
    (hun : untouched k0 slots) :
    ∀ p, p <+: slot_calls slots → handoff_ok slots (kms_run k0 p) := by
  induction slots using List.reverseRecOn with
  | nil =>
    intro p _
    exact ⟨fun s hs => absurd hs (List.not_mem_nil s),
      fun s hs => absurd hs (List.not_mem_nil s)⟩
  | append_singleton l n ih =>
    have hl := fresh_slots_front hfr
    have hul := untouched_front hun
    have ihl := ih hl hul
    intro p hp
    rcases List.eq_nil_or_concat l with e | ⟨ds, q, e⟩
    · subst e
      exact handoff_first k0 n hun p hp
    · rw [List.concat_eq_append] at e
      subst e
      have hq := hl.2.2 q (by simp)
      rw [slot_calls_snoc ds q n hq.1 hq.2] at hp
      rcases initial_append_cases p _ _ hp with h | ⟨r, hr, hpre⟩
      · exact handoff_mono k0 (ds ++ [q]) n hfr hun p h (ihl p h)
      · rw [hr, kms_run_append]
        exact handoff_next k0 ds q n hfr hun (ihl _ (List.prefix_refl _)) r hpre

theorem presented_unique (slots : List (Nat × Nat)) (hfr : fresh_slots slots) (k : kms_state)
    (s t : Nat × Nat) (hs : s ∈ slots) (ht : t ∈ slots)
    (h1 : slot_state_of k s.1 s.2 = slot_state.Presented)
    (h2 : slot_state_of k t.1 t.2 = slot_state.Presented) : s = t := by
  rw [slot_presented_iff] at h1 h2
  exact fresh_slots_inj_snd hfr hs ht (by rw [← h1.2, ← h2.2])

/-! ### Theorems on the buffer hand-off -/

/-- The hand-off of present steps in which every call succeeds, with fresh ids
(calls of `graphics_present` from the zero context; the present block of the
loop of `ogl-line-perf.c` makes the same calls): at every point of the run,
that is after every prefix of the calls made, at most one of the slots is
`Presented`, at most one is `PendingRelease`, and a slot whose registration has
been removed (`drmModeRmFB`) or whose buffer has been released has a successor,
the slot presented right after it, that was registered and set on the CRTC
before.  `k0` is the display side before the first step; what it holds already
(in `ogl-line-perf.c` the buffer set before the loop) is not counted among the
slots, and steps with a failing call are not covered; in both cases the
invariants fail. -/
theorem handoff_safe (k0 : kms_state) (slots : List (Nat × Nat)) (hfr : fresh_slots slots)
    (hun : untouched k0 slots) (p : List kms_call) (hp : p <+: slot_calls slots) :
    (∀ s ∈ slots, ∀ t ∈ slots,
        slot_state_of (kms_run k0 p) s.1 s.2 = slot_state.Presented →
        slot_state_of (kms_run k0 p) t.1 t.2 = slot_state.Presented → s = t)
    ∧ (∀ s ∈ slots, ∀ t ∈ slots,
        slot_state_of (kms_run k0 p) s.1 s.2 = slot_state.PendingRelease →
        slot_state_of (kms_run k0 p) t.1 t.2 = slot_state.PendingRelease → s = t)
    ∧ (∀ s ∈ slots,
        (kms_call.rm_fb s.2 ∈ (kms_run k0 p).log
          ∨ kms_call.release_buffer s.1 ∈ (kms_run k0 p).log) →
        ∃ t, supersedes slots s t ∧ kms_call.add_fb 0 t.2 ∈ (kms_run k0 p).log
          ∧ kms_call.set_crtc t.2 0 ∈ (kms_run k0 p).log)
    ∧ (loop_frames GraphicsContext.zero (slots.map (fun s => ok_env s.1 s.2))).2
        = slot_calls slots := by
  obtain ⟨h1, h2⟩ := handoff_points k0 slots hfr hun p hp
  refine ⟨fun s hs t ht => presented_unique slots hfr _ s t hs ht, h1, h2, ?_⟩
  rw [loop_frames_ok]
  rfl

/-- Witness of `handoff_safe`: two slots, the point after the second
`drmModeSetCrtc` and before the first `drmModeRmFB`. -/
theorem handoff_safe_witness :
    (∀ s ∈ [((10 : Nat), (1 : Nat)), (20, 2)], ∀ t ∈ [((10 : Nat), (1 : Nat)), (20, 2)],
        slot_state_of (kms_run kms_state.init
          [kms_call.lock_front_buffer 10, kms_call.add_fb 0 1, kms_call.set_crtc 1 0,
           kms_call.lock_front_buffer 20, kms_call.add_fb 0 2, kms_call.set_crtc 2 0])
          s.1 s.2 = slot_state.Presented →
        slot_state_of (kms_run kms_state.init
          [kms_call.lock_front_buffer 10, kms_call.add_fb 0 1, kms_call.set_crtc 1 0,
           kms_call.lock_front_buffer 20, kms_call.add_fb 0 2, kms_call.set_crtc 2 0])
          t.1 t.2 = slot_state.Presented → s = t)
    ∧ (∀ s ∈ [((10 : Nat), (1 : Nat)), (20, 2)], ∀ t ∈ [((10 : Nat), (1 : Nat)), (20, 2)],
        slot_state_of (kms_run kms_state.init
          [kms_call.lock_front_buffer 10, kms_call.add_fb 0 1, kms_call.set_crtc 1 0,
           kms_call.lock_front_buffer 20, kms_call.add_fb 0 2, kms_call.set_crtc 2 0])
          s.1 s.2 = slot_state.PendingRelease →
        slot_state_of (kms_run kms_state.init
          [kms_call.lock_front_buffer 10, kms_call.add_fb 0 1, kms_call.set_crtc 1 0,
           kms_call.lock_front_buffer 20, kms_call.add_fb 0 2, kms_call.set_crtc 2 0])
          t.1 t.2 = slot_state.PendingRelease → s = t)
    ∧ (∀ s ∈ [((10 : Nat), (1 : Nat)), (20, 2)],
        (kms_call.rm_fb s.2 ∈ (kms_run kms_state.init
          [kms_call.lock_front_buffer 10, kms_call.add_fb 0 1, kms_call.set_crtc 1 0,
           kms_call.lock_front_buffer 20, kms_call.add_fb 0 2, kms_call.set_crtc 2 0]).log
          ∨ kms_call.release_buffer s.1 ∈ (kms_run kms_state.init
          [kms_call.lock_front_buffer 10, kms_call.add_fb 0 1, kms_call.set_crtc 1 0,
           kms_call.lock_front_buffer 20, kms_call.add_fb 0 2, kms_call.set_crtc 2 0]).log) →
        ∃ t, supersedes [((10 : Nat), (1 : Nat)), (20, 2)] s t
          ∧ kms_call.add_fb 0 t.2 ∈ (kms_run kms_state.init
          [kms_call.lock_front_buffer 10, kms_call.add_fb 0 1, kms_call.set_crtc 1 0,
           kms_call.lock_front_buffer 20, kms_call.add_fb 0 2, kms_call.set_crtc 2 0]).log
          ∧ kms_call.set_crtc t.2 0 ∈ (kms_run kms_state.init
          [kms_call.lock_front_buffer 10, kms_call.add_fb 0 1, kms_call.set_crtc 1 0,
           kms_call.lock_front_buffer 20, kms_call.add_fb 0 2, kms_call.set_crtc 2 0]).log)
    ∧ (loop_frames GraphicsContext.zero
        ([((10 : Nat), (1 : Nat)), (20, 2)].map (fun s => ok_env s.1 s.2))).2
        = slot_calls [((10 : Nat), (1 : Nat)), (20, 2)] :=
  handoff_safe kms_state.init [(10, 1), (20, 2)]
    (by unfold fresh_slots; decide)
    (by unfold untouched; simp [kms_state.init])
    [kms_call.lock_front_buffer 10, kms_call.add_fb 0 1, kms_call.set_crtc 1 0,
     kms_call.lock_front_buffer 20, kms_call.add_fb 0 2, kms_call.set_crtc 2 0]
    ⟨[kms_call.rm_fb 1, kms_call.release_buffer 10], by decide⟩

/-- Counterexample to claim C9 as stated: after the second call of
`graphics_present` has returned (slots A = (10,1), B = (20,2)), B is
`Presented` but A is not `PendingRelease`: its registration is removed and its
buffer released, it is `Free`. -/
theorem three_presents_counterexample :
    ¬ (slot_state_of (kms_run kms_state.init (slot_calls [(10, 1), (20, 2)])) 20 2
          = slot_state.Presented
        ∧ slot_state_of (kms_run kms_state.init (slot_calls [(10, 1), (20, 2)])) 10 1
          = slot_state.PendingRelease)
    ∧ slot_state_of (kms_run kms_state.init (slot_calls [(10, 1), (20, 2)])) 10 1
        = slot_state.Free
    ∧ 1 ∉ (kms_run kms_state.init (slot_calls [(10, 1), (20, 2)])).fbs
    ∧ 10 ∉ (kms_run kms_state.init (slot_calls [(10, 1), (20, 2)])).locked := by
  decide

/-- Claim C9, amended. Three successive present steps with fresh slots A, B, C:
after the first call A is `Presented`; inside the second call, once
`drmModeSetCrtc` has set B, B is `Presented` and A is `PendingRelease`; when the
second call has returned B is `Presented` and A is `Free`; after the third call
C is `Presented` and B and A are `Free`. -/
theorem three_presents (k0 : kms_state) (A B C : Nat × Nat)
    (hfr : fresh_slots [A, B, C]) (hun : untouched k0 [A, B, C]) :
    slot_state_of (kms_run k0 (slot_calls [A])) A.1 A.2 = slot_state.Presented
    ∧ (slot_state_of (kms_run k0 (slot_calls [A] ++ [kms_call.lock_front_buffer B.1,
          kms_call.add_fb 0 B.2, kms_call.set_crtc B.2 0])) B.1 B.2 = slot_state.Presented
      ∧ slot_state_of (kms_run k0 (slot_calls [A] ++ [kms_call.lock_front_buffer B.1,
          kms_call.add_fb 0 B.2, kms_call.set_crtc B.2 0])) A.1 A.2
          = slot_state.PendingRelease)
    ∧ (slot_state_of (kms_run k0 (slot_calls [A, B])) B.1 B.2 = slot_state.Presented
      ∧ slot_state_of (kms_run k0 (slot_calls [A, B])) A.1 A.2 = slot_state.Free)
    ∧ (slot_state_of (kms_run k0 (slot_calls [A, B, C])) C.1 C.2 = slot_state.Presented
      ∧ slot_state_of (kms_run k0 (slot_calls [A, B, C])) B.1 B.2 = slot_state.Free
      ∧ slot_state_of (kms_run k0 (slot_calls [A, B, C])) A.1 A.2 = slot_state.Free) := by
  have hfr2 : fresh_slots ([A] ++ [B]) := fresh_slots_front (l := [A, B]) (a := C) hfr
  have hfr1 : fresh_slots ([] ++ [A]) := fresh_slots_front (l := [A]) (a := B) hfr2
  have hun2 : untouched k0 ([A] ++ [B]) := untouched_front (l := [A, B]) (a := C) hun
  have hun1 : untouched k0 ([] ++ [A]) := untouched_front (l := [A]) (a := B) hun2
  obtain ⟨a1, a2, a3⟩ := state_between k0 [] A hfr1 hun1
  obtain ⟨b1, b2, b3⟩ := state_between k0 [A] B hfr2 hun2
  obtain ⟨c1, c2, c3⟩ := state_between k0 [A, B] C hfr hun
  obtain ⟨uA1, uA2, _, _⟩ := hun A (by simp)
  obtain ⟨uB1, uB2, _, _⟩ := hun B (by simp)
  obtain ⟨hBA1, hBA2⟩ := fresh_last_two_ne (l := []) (q := A) (p := B) hfr2
  obtain ⟨hCB1, hCB2⟩ := fresh_last_two_ne (l := [A]) (q := B) (p := C) hfr
  obtain ⟨hAC1, hAC2⟩ := fresh_new_ne (l := [A, B]) (n := C) hfr A (by simp)
  simp only [List.nil_append, List.singleton_append, List.cons_append] at a1 a2 a3 b1 b2 b3 c1 c2 c3
  refine ⟨?_, ⟨?_, ?_⟩, ⟨?_, ?_⟩, ?_, ?_, ?_⟩
  · rw [slot_presented_iff, a1, a3]
    simp
  · rw [slot_presented_iff, kms_run_append]
    simp [kms_run, kms_state.apply]
  · rw [slot_pending_iff, kms_run_append, kms_run_log, kms_run_log, slot_calls_single]
    simp only [kms_run, List.foldl_cons, List.foldl_nil, kms_state.apply, if_true, a1,
      List.mem_cons, List.mem_append, List.mem_singleton]
    refine ⟨?_, ?_, ?_⟩
    · intro h; exact hBA2 h.2
    · simp
    · simp
  · rw [slot_presented_iff, b1, b3]
    simp
  · rw [slot_free_iff, b1, b2]
    simp only [List.mem_cons, not_or]
    exact ⟨⟨fun e => hBA2 e.symm, uA1⟩, ⟨fun e => hBA1 e.symm, uA2⟩⟩
  · rw [slot_presented_iff, c1, c3]
    simp
  · rw [slot_free_iff, c1, c2]
    simp only [List.mem_cons, not_or]
    exact ⟨⟨fun e => hCB2 e.symm, uB1⟩, ⟨fun e => hCB1 e.symm, uB2⟩⟩
  · rw [slot_free_iff, c1, c2]
    simp only [List.mem_cons, not_or]
    exact ⟨⟨hAC2, uA1⟩, ⟨hAC1, uA2⟩⟩

/-- Witness of `three_presents` with A = (10,1), B = (20,2), C = (30,3). -/
theorem three_presents_witness :
    slot_state_of (kms_run kms_state.init (slot_calls [(10, 1)])) 10 1 = slot_state.Presented
    ∧ (slot_state_of (kms_run kms_state.init (slot_calls [(10, 1)] ++
          [kms_call.lock_front_buffer 20, kms_call.add_fb 0 2, kms_call.set_crtc 2 0])) 20 2
          = slot_state.Presented
      ∧ slot_state_of (kms_run kms_state.init (slot_calls [(10, 1)] ++
          [kms_call.lock_front_buffer 20, kms_call.add_fb 0 2, kms_call.set_crtc 2 0])) 10 1
          = slot_state.PendingRelease)
    ∧ (slot_state_of (kms_run kms_state.init (slot_calls [(10, 1), (20, 2)])) 20 2
          = slot_state.Presented
      ∧ slot_state_of (kms_run kms_state.init (slot_calls [(10, 1), (20, 2)])) 10 1
          = slot_state.Free)
    ∧ (slot_state_of (kms_run kms_state.init (slot_calls [(10, 1), (20, 2), (30, 3)])) 30 3
          = slot_state.Presented
      ∧ slot_state_of (kms_run kms_state.init (slot_calls [(10, 1), (20, 2), (30, 3)])) 20 2
          = slot_state.Free
      ∧ slot_state_of (kms_run kms_state.init (slot_calls [(10, 1), (20, 2), (30, 3)])) 10 1
          = slot_state.Free) :=
  three_presents kms_state.init (10, 1) (20, 2) (30, 3)
    (by unfold fresh_slots; decide) (by unfold untouched; simp [kms_state.init])

/-! ### Acquisitions and releases of a run -/

theorem released_before_last (ds : List (Nat × Nat)) (q : Nat × Nat)
    (hfr : fresh_slots (ds ++ [q])) (f b : Nat) :
    (kms_call.rm_fb f ∈ slot_calls (ds ++ [q]) → f ∈ ds.map Prod.snd)
      ∧ (kms_call.release_buffer b ∈ slot_calls (ds ++ [q]) → b ∈ ds.map Prod.fst) := by
  induction ds using List.reverseRecOn generalizing q with
  | nil =>
    rw [List.nil_append, slot_calls_single]
    simp
  | append_singleton l p ih =>
    have hl := fresh_slots_front hfr
    have hp := hl.2.2 p (by simp)
    obtain ⟨i1, i2⟩ := ih p hl
    rw [slot_calls_snoc l p q hp.1 hp.2]
    simp only [List.mem_append, List.mem_cons, List.mem_singleton, List.not_mem_nil, or_false,
      reduceCtorEq, false_or, kms_call.rm_fb.injEq, kms_call.release_buffer.injEq,
      List.map_append, List.map_cons, List.map_nil]
    constructor
    · rintro (h | h)
      · exact Or.inl (i1 h)
      · exact Or.inr h
    · rintro (h | h)
      · exact Or.inl (i2 h)
      · exact Or.inr h

theorem count_locks_append (a b : List kms_call) :
    count_locks (a ++ b) = count_locks a + count_locks b := by
  simp [count_locks, List.filter_append]

theorem count_add_fb_append (a b : List kms_call) :
    count_add_fb (a ++ b) = count_add_fb a + count_add_fb b := by
  simp [count_add_fb, List.filter_append]

theorem count_rm_fb_append (a b : List kms_call) :
    count_rm_fb (a ++ b) = count_rm_fb a + count_rm_fb b := by
  simp [count_rm_fb, List.filter_append]

theorem count_release_append (a b : List kms_call) :
    count_release (a ++ b) = count_release a + count_release b := by
  simp [count_release, List.filter_append]

/-- Counterexample to claim C5 as stated: a run of one frame (neither program has
any code after its frame loop) makes one acquisition and one registration and
no release at all. -/
theorem no_teardown_counterexample :
    count_locks (slot_calls [(10, 1)]) = 1
    ∧ count_add_fb (slot_calls [(10, 1)]) = 1
    ∧ count_rm_fb (slot_calls [(10, 1)]) = 0
    ∧ count_release (slot_calls [(10, 1)]) = 0
    ∧ ¬ (count_locks (slot_calls [(10, 1)]) = count_release (slot_calls [(10, 1)])
        ∧ count_add_fb (slot_calls [(10, 1)]) = count_rm_fb (slot_calls [(10, 1)])) := by
  decide

/-- The counts of acquisitions and releases in a run of `graphics_present`. -/
theorem frame_counts (slots : List (Nat × Nat)) (hfr : fresh_slots slots) :
    count_locks (slot_calls slots) = slots.length
    ∧ count_add_fb (slot_calls slots) = slots.length
    ∧ count_rm_fb (slot_calls slots) = slots.length - 1
    ∧ count_release (slot_calls slots) = slots.length - 1
    ∧ (∀ f, (slot_calls slots).count (kms_call.rm_fb f) ≤ 1)
    ∧ (∀ b, (slot_calls slots).count (kms_call.release_buffer b) ≤ 1)
    ∧ (∀ f, kms_call.rm_fb f ∈ slot_calls slots → kms_call.add_fb 0 f ∈ slot_calls slots)
    ∧ (∀ b, kms_call.release_buffer b ∈ slot_calls slots →
        kms_call.lock_front_buffer b ∈ slot_calls slots)
    ∧ (∀ s, slots.getLast? = some s →
        (kms_run kms_state.init (slot_calls slots)).fbs = [s.2]
        ∧ (kms_run kms_state.init (slot_calls slots)).locked = [s.1])
    := by
  induction slots using List.reverseRecOn with
  | nil =>
    simp [slot_calls_nil, count_locks, count_add_fb, count_rm_fb, count_release]
  | append_singleton l n ih =>
    have hl := fresh_slots_front hfr
    obtain ⟨i1, i2, i3, i4, i5, i6, i7, i8, _⟩ := ih hl
    have hlast : ∀ s, (l ++ [n]).getLast? = some s →
        (kms_run kms_state.init (slot_calls (l ++ [n]))).fbs = [s.2]
        ∧ (kms_run kms_state.init (slot_calls (l ++ [n]))).locked = [s.1] := by
      intro s hs
      have hs2 : n = s := by simpa using hs
      subst hs2
      have hun : untouched kms_state.init (l ++ [n]) := by
        intro s hmem
        have := (hfr.2.2 s hmem).2
        simp [kms_state.init, Ne.symm this]
      obtain ⟨b1, b2, _⟩ := state_between kms_state.init l n hfr hun
      exact ⟨b1, b2⟩
    rcases List.eq_nil_or_concat l with e | ⟨ds, q, e⟩
    · subst e
      refine ⟨?_, ?_, ?_, ?_, ?_, ?_, ?_, ?_, hlast⟩ <;>
        simp [slot_calls_single, count_locks, count_add_fb, count_rm_fb, count_release]
    · rw [List.concat_eq_append] at e
      subst e
      have hq := hl.2.2 q (by simp)
      have hnd1 : q.1 ∉ ds.map Prod.fst := by
        have := hl.1
        rw [List.map_append] at this
        intro hmem
        exact (List.nodup_append.mp this).2.2 hmem (by simp)
      have hnd2 : q.2 ∉ ds.map Prod.snd := by
        have := hl.2.1
        rw [List.map_append] at this
        intro hmem
        exact (List.nodup_append.mp this).2.2 hmem (by simp)
      refine ⟨?_, ?_, ?_, ?_, ?_, ?_, ?_, ?_, hlast⟩
      · rw [slot_calls_snoc ds q n hq.1 hq.2, count_locks_append, i1]
        simp [count_locks]
      · rw [slot_calls_snoc ds q n hq.1 hq.2, count_add_fb_append, i2]
        simp [count_add_fb]
      · rw [slot_calls_snoc ds q n hq.1 hq.2, count_rm_fb_append, i3]
        simp [count_rm_fb]
      · rw [slot_calls_snoc ds q n hq.1 hq.2, count_release_append, i4]
        simp [count_release]
      · intro f
        rw [slot_calls_snoc ds q n hq.1 hq.2, List.count_append]
        by_cases hf : f = q.2
        · have h0 : (slot_calls (ds ++ [q])).count (kms_call.rm_fb f) = 0 := by
            rw [List.count_eq_zero]
            intro hmem
            rw [hf] at hmem
            exact hnd2 ((released_before_last ds q hl q.2 0).1 hmem)
          rw [h0]
          simp [List.count_cons, hf]
        · have := i5 f
          have h1 : ([kms_call.lock_front_buffer n.1, kms_call.add_fb 0 n.2,
              kms_call.set_crtc n.2 0, kms_call.rm_fb q.2,
              kms_call.release_buffer q.1]).count (kms_call.rm_fb f) = 0 := by
            rw [List.count_eq_zero]
            simp [hf]
          omega
      · intro b
        rw [slot_calls_snoc ds q n hq.1 hq.2, List.count_append]
        by_cases hb : b = q.1
        · have h0 : (slot_calls (ds ++ [q])).count (kms_call.release_buffer b) = 0 := by
            rw [List.count_eq_zero]
            intro hmem
            rw [hb] at hmem
            exact hnd1 ((released_before_last ds q hl 0 q.1).2 hmem)
          rw [h0]
          simp [List.count_cons, hb]
        · have := i6 b
          have h1 : ([kms_call.lock_front_buffer n.1, kms_call.add_fb 0 n.2,
              kms_call.set_crtc n.2 0, kms_call.rm_fb q.2,
              kms_call.release_buffer q.1]).count (kms_call.release_buffer b) = 0 := by
            rw [List.count_eq_zero]
            simp [hb]
          omega
      · intro f hmem
        rw [slot_calls_snoc ds q n hq.1 hq.2, List.mem_append] at hmem ⊢
        rcases hmem with h | h
        · exact Or.inl (i7 f h)
        · simp only [List.mem_cons, List.mem_singleton, List.not_mem_nil, or_false,
            reduceCtorEq, false_or, kms_call.rm_fb.injEq] at h
          left
          rw [h]
          rcases List.eq_nil_or_concat ds with e | ⟨ds2, q2, e⟩
          · subst e
            rw [List.nil_append, slot_calls_single]
            simp
          · rw [List.concat_eq_append] at e
            subst e
            have hq2 := (fresh_slots_front hl).2.2 q2 (by simp)
            rw [slot_calls_snoc ds2 q2 q hq2.1 hq2.2]
            simp
      · intro b hmem
        rw [slot_calls_snoc ds q n hq.1 hq.2, List.mem_append] at hmem ⊢
        rcases hmem with h | h
        · exact Or.inl (i8 b h)
        · simp only [List.mem_cons, List.mem_singleton, List.not_mem_nil, or_false,
            reduceCtorEq, false_or, kms_call.release_buffer.injEq] at h
          left
          rw [h]
          rcases List.eq_nil_or_concat ds with e | ⟨ds2, q2, e⟩
          · subst e
            rw [List.nil_append, slot_calls_single]
            simp
          · rw [List.concat_eq_append] at e
            subst e
            have hq2 := (fresh_slots_front hl).2.2 q2 (by simp)
            rw [slot_calls_snoc ds2 q2 q hq2.1 hq2.2]
            simp

/-- Claim C5, amended. For a run of `N` frames of `graphics_present` with fresh
non-zero ids (there is no shutdown code): `N` buffers are acquired and `N`
registrations made, `N - 1` registrations are removed and `N - 1` buffers
released (none when `N = 0`), no id is removed or released twice, and what is
removed or released was acquired in this run; the last slot stays registered
and locked.  The present blocks of the loop of `ogl-line-perf.c` make the same
calls. -/
theorem acquisitions_and_releases (slots : List (Nat × Nat)) (hfr : fresh_slots slots) :
    count_locks (slot_calls slots) = slots.length
    ∧ count_add_fb (slot_calls slots) = slots.length
    ∧ count_rm_fb (slot_calls slots) = slots.length - 1
    ∧ count_release (slot_calls slots) = slots.length - 1
    ∧ (∀ f, (slot_calls slots).count (kms_call.rm_fb f) ≤ 1)
    ∧ (∀ b, (slot_calls slots).count (kms_call.release_buffer b) ≤ 1)
    ∧ (∀ f, kms_call.rm_fb f ∈ slot_calls slots → kms_call.add_fb 0 f ∈ slot_calls slots)
    ∧ (∀ b, kms_call.release_buffer b ∈ slot_calls slots →
        kms_call.lock_front_buffer b ∈ slot_calls slots)
    ∧ (∀ s, slots.getLast? = some s →
        (kms_run kms_state.init (slot_calls slots)).fbs = [s.2]
        ∧ (kms_run kms_state.init (slot_calls slots)).locked = [s.1])
    ∧ (loop_frames GraphicsContext.zero (slots.map (fun s => ok_env s.1 s.2))).2
        = slot_calls slots := by
  obtain ⟨c1, c2, c3, c4, c5, c6, c7, c8, c9⟩ := frame_counts slots hfr
  exact ⟨c1, c2, c3, c4, c5, c6, c7, c8, c9, by rw [loop_frames_ok]; rfl⟩

/-- Witness of `acquisitions_and_releases`: three frames. -/
theorem acquisitions_and_releases_witness :
    count_locks (slot_calls [(10, 1), (20, 2), (30, 3)]) = [(10, 1), (20, 2), (30, 3)].length
    ∧ count_add_fb (slot_calls [(10, 1), (20, 2), (30, 3)])
        = [(10, 1), (20, 2), (30, 3)].length
    ∧ count_rm_fb (slot_calls [(10, 1), (20, 2), (30, 3)])
        = [(10, 1), (20, 2), (30, 3)].length - 1
    ∧ count_release (slot_calls [(10, 1), (20, 2), (30, 3)])
        = [(10, 1), (20, 2), (30, 3)].length - 1
    ∧ (∀ f, (slot_calls [(10, 1), (20, 2), (30, 3)]).count (kms_call.rm_fb f) ≤ 1)
    ∧ (∀ b, (slot_calls [(10, 1), (20, 2), (30, 3)]).count (kms_call.release_buffer b) ≤ 1)
    ∧ (∀ f, kms_call.rm_fb f ∈ slot_calls [(10, 1), (20, 2), (30, 3)] →
        kms_call.add_fb 0 f ∈ slot_calls [(10, 1), (20, 2), (30, 3)])
    ∧ (∀ b, kms_call.release_buffer b ∈ slot_calls [(10, 1), (20, 2), (30, 3)] →
        kms_call.lock_front_buffer b ∈ slot_calls [(10, 1), (20, 2), (30, 3)])
    ∧ (∀ s, [((10 : Nat), (1 : Nat)), (20, 2), (30, 3)].getLast? = some s →
        (kms_run kms_state.init (slot_calls [(10, 1), (20, 2), (30, 3)])).fbs = [s.2]
        ∧ (kms_run kms_state.init (slot_calls [(10, 1), (20, 2), (30, 3)])).locked = [s.1])
    ∧ (loop_frames GraphicsContext.zero
        ([((10 : Nat), (1 : Nat)), (20, 2), (30, 3)].map (fun s => ok_env s.1 s.2))).2
        = slot_calls [(10, 1), (20, 2), (30, 3)] :=
  acquisitions_and_releases [(10, 1), (20, 2), (30, 3)] (by unfold fresh_slots; decide)

/-! ### Failing calls in the present step -/

/-- The present block of `ogl-line-perf.c` reports a failing `drmModeAddFB` or
`drmModeSetCrtc`: the process exits, and neither `drmModeRmFB` nor
`gbm_surface_release_buffer` is called. -/
theorem present_block_reports_failure (prev : GraphicsContext) (e : present_env)
    (h : e.addfb_ret ≠ 0 ∨ e.setcrtc_ret ≠ 0) :
    (present_block prev e).1 = none
      ∧ kms_call.exit_failure ∈ (present_block prev e).2
      ∧ (∀ f, kms_call.rm_fb f ∉ (present_block prev e).2)
      ∧ (∀ b, kms_call.release_buffer b ∉ (present_block prev e).2) := by
  unfold present_block
  by_cases h1 : e.addfb_ret ≠ 0
  · simp [h1]
  · have h2 : e.setcrtc_ret ≠ 0 := by
      rcases h with h | h
      · exact absurd h h1
      · exact h
    simp [h1, h2]

/-- Claim C10 at a failing input: `graphics_present` of `ogl-min-line-perf.c`
called with buffer 10 / framebuffer 1 presented, and `drmModeSetCrtc` failing
(-22) for the new framebuffer 2.  The call returns as a successful present
would, without `_exit`; it has removed framebuffer 1, which was still on the
CRTC, and released buffer 10.  The same happens when `drmModeAddFB` fails
(-12). -/
theorem graphics_present_ignores_failure :
    graphics_present { previous_bo := 10, previous_framebuffer := 1 }
        { bo := 20, addfb_ret := 0, new_fb := 2, setcrtc_ret := -22 }
      = ({ previous_bo := 20, previous_framebuffer := 2 },
         [kms_call.lock_front_buffer 20, kms_call.add_fb 0 2, kms_call.set_crtc 2 (-22),
          kms_call.rm_fb 1, kms_call.release_buffer 10])
    ∧ kms_run { fbs := [1], locked := [10], crtc := 1, log := [] }
        (graphics_present { previous_bo := 10, previous_framebuffer := 1 }
          { bo := 20, addfb_ret := 0, new_fb := 2, setcrtc_ret := -22 }).2
      = { fbs := [2], locked := [20], crtc := 0,
          log := [kms_call.lock_front_buffer 20, kms_call.add_fb 0 2,
            kms_call.set_crtc 2 (-22), kms_call.rm_fb 1, kms_call.release_buffer 10] }
    ∧ (graphics_present { previous_bo := 10, previous_framebuffer := 1 }
        { bo := 20, addfb_ret := -12, new_fb := 7, setcrtc_ret := -22 }).2
      = [kms_call.lock_front_buffer 20, kms_call.add_fb (-12) 7, kms_call.set_crtc 7 (-22),
          kms_call.rm_fb 1, kms_call.release_buffer 10]
    ∧ (present_block { previous_bo := 10, previous_framebuffer := 1 }
        { bo := 20, addfb_ret := 0, new_fb := 2, setcrtc_ret := -22 })
      = (none, [kms_call.lock_front_buffer 20, kms_call.add_fb 0 2,
          kms_call.set_crtc 2 (-22), kms_call.exit_failure]) := by
  decide

/-! ### Theorems on `put_pixel`, `random_int` and the colour -/

theorem pixel_offset_u32 (fb : framebuffer_t) (hh : fb.height < 2 ^ 32)
    (hp : fb.pitch < 2 ^ 32) (x y : Int) (hb : in_bounds fb x y) :
    pixel_offset fb x y = y * fb.pitch + 4 * x := by
  obtain ⟨_, _, hy0, hy1⟩ := hb
  unfold pixel_offset
  have hy : y < 2 ^ 32 := by
    have : (fb.height : Int) < 2 ^ 32 := by exact_mod_cast hh
    omega
  have hpi : (fb.pitch : Int) < 2 ^ 32 := by exact_mod_cast hp
  have hp0 : (0 : Int) ≤ fb.pitch := Int.natCast_nonneg _
  rw [Int.emod_eq_of_lt hy0 (by omega)]
  have hprod0 : 0 ≤ y * (fb.pitch : Int) := mul_nonneg hy0 hp0
  have hprod1 : y * (fb.pitch : Int) < 2 ^ 64 := by nlinarith
  rw [Int.emod_eq_of_lt hprod0 hprod1]

theorem cells_disjoint_u32 (fb : framebuffer_t) (hh : fb.height < 2 ^ 32)
    (hpt : fb.pitch < 2 ^ 32) (hp : 4 * fb.width ≤ fb.pitch)
    (x y a b : Int) (h1 : in_bounds fb x y) (h2 : in_bounds fb a b) (hne : (x, y) ≠ (a, b)) :
    pixel_offset fb a b + 4 ≤ pixel_offset fb x y
      ∨ pixel_offset fb x y + 4 ≤ pixel_offset fb a b := by
  rw [pixel_offset_u32 fb hh hpt x y h1, pixel_offset_u32 fb hh hpt a b h2]
  obtain ⟨hx0, hx1, hy0, hy1⟩ := h1
  obtain ⟨ha0, ha1, hb0, hb1⟩ := h2
  have hpi : 4 * (fb.width : Int) ≤ fb.pitch := by exact_mod_cast hp
  rcases lt_trichotomy y b with h | h | h
  · right
    have : (fb.pitch : Int) * 1 ≤ fb.pitch * (b - y) :=
      mul_le_mul_of_nonneg_left (by omega) (by omega)
    nlinarith
  · subst h
    have hxa : x ≠ a := fun e => hne (by rw [e])
    rcases lt_or_gt_of_ne hxa with h | h
    · right; omega
    · left; omega
  · left
    have : (fb.pitch : Int) * 1 ≤ fb.pitch * (y - b) :=
      mul_le_mul_of_nonneg_left (by omega) (by omega)
    nlinarith

theorem cell_inside (fb : framebuffer_t) (hp : 4 * fb.width ≤ fb.pitch) (x y : Int)
    (hb : in_bounds fb x y) :
    0 ≤ y * (fb.pitch : Int) + 4 * x
      ∧ y * (fb.pitch : Int) + 4 * x + 4 ≤ (fb.height : Int) * fb.pitch := by
  obtain ⟨hx0, hx1, hy0, hy1⟩ := hb
  have hpi : 4 * (fb.width : Int) ≤ fb.pitch := by exact_mod_cast hp
  have hp0 : (0 : Int) ≤ fb.pitch := Int.natCast_nonneg _
  have h1 : 0 ≤ y * (fb.pitch : Int) := mul_nonneg hy0 hp0
  have h2 : (y + 1) * (fb.pitch : Int) ≤ (fb.height : Int) * fb.pitch :=
    mul_le_mul_of_nonneg_right (by omega) hp0
  constructor
  · omega
  · nlinarith

/-- Claim C13. For a frame buffer (`uint32_t` fields) with `pitch ≥ 4*width` and
an in-bounds coordinate, `put_pixel` stores `argb` in the 4-byte cell at byte
offset `y*pitch + 4*x`; the offset depends on `pitch` and not on `width`; the
cell lies inside `[0, height*pitch)`; the cell of no other in-bounds coordinate
overlaps it, so the pixel `(x,y)` reads `argb` afterwards and every other
in-bounds pixel is unchanged. -/
theorem put_pixel_cell (fb : framebuffer_t) (hh : fb.height < 2 ^ 32)
    (hpt : fb.pitch < 2 ^ 32) (hp : 4 * fb.width ≤ fb.pitch) (x y : Int)
    (hb : in_bounds fb x y) (argb : Nat) :
    (put_pixel fb x y argb).pixels = store32 fb.pixels (y * fb.pitch + 4 * x) argb
    ∧ (∀ w : Nat, pixel_offset { fb with width := w } x y = y * fb.pitch + 4 * x)
    ∧ 0 ≤ y * (fb.pitch : Int) + 4 * x
    ∧ y * (fb.pitch : Int) + 4 * x + 4 ≤ (fb.height : Int) * fb.pitch
    ∧ pixel_at (put_pixel fb x y argb) x y = argb % 2 ^ 32
    ∧ (∀ a : Int, ¬ (y * fb.pitch + 4 * x ≤ a ∧ a < y * fb.pitch + 4 * x + 4) →
        (put_pixel fb x y argb).pixels a = fb.pixels a)
    ∧ (∀ a b : Int, in_bounds fb a b → (a, b) ≠ (x, y) →
        (b * (fb.pitch : Int) + 4 * a + 4 ≤ y * fb.pitch + 4 * x
          ∨ y * (fb.pitch : Int) + 4 * x + 4 ≤ b * fb.pitch + 4 * a)
        ∧ pixel_at (put_pixel fb x y argb) a b = pixel_at fb a b) := by
  have hoff := pixel_offset_u32 fb hh hpt x y hb
  obtain ⟨c1, c2⟩ := cell_inside fb hp x y hb
  refine ⟨?_, ?_, c1, c2, ?_, ?_, ?_⟩
  · show store32 fb.pixels (pixel_offset fb x y) argb = _
    rw [hoff]
  · intro w
    exact hoff
  · unfold pixel_at
    rw [pixel_offset_put]
    exact load32_store32_same _ _ _
  · intro a ha
    show store32 fb.pixels (pixel_offset fb x y) argb a = fb.pixels a
    rw [hoff]
    unfold store32
    rw [if_neg ha]
  · intro a b hab hne
    have hd := cells_disjoint_u32 fb hh hpt hp x y a b hb hab (fun e => hne e.symm)
    constructor
    · rw [pixel_offset_u32 fb hh hpt x y hb, pixel_offset_u32 fb hh hpt a b hab] at hd
      exact hd
    · unfold pixel_at
      rw [pixel_offset_put]
      exact load32_store32_other _ _ _ _ hd

/-- Witness of `put_pixel_cell`: pixel `(3,2)` of a 4 x 3 frame buffer of
pitch 20. -/
theorem put_pixel_cell_witness :
    (put_pixel ⟨fun _ => 0, 4, 3, 20, 60⟩ 3 2 7).pixels
        = store32 (fun _ => 0) (2 * ((20 : Nat) : Int) + 4 * 3) 7
    ∧ (∀ w : Nat, pixel_offset { (⟨fun _ => 0, 4, 3, 20, 60⟩ : framebuffer_t) with width := w }
        3 2 = 2 * ((20 : Nat) : Int) + 4 * 3)
    ∧ 0 ≤ 2 * ((20 : Nat) : Int) + 4 * 3
    ∧ 2 * ((20 : Nat) : Int) + 4 * 3 + 4 ≤ ((3 : Nat) : Int) * ((20 : Nat) : Int)
    ∧ pixel_at (put_pixel ⟨fun _ => 0, 4, 3, 20, 60⟩ 3 2 7) 3 2 = 7 % 2 ^ 32
    ∧ (∀ a : Int, ¬ (2 * ((20 : Nat) : Int) + 4 * 3 ≤ a
          ∧ a < 2 * ((20 : Nat) : Int) + 4 * 3 + 4) →
        (put_pixel ⟨fun _ => 0, 4, 3, 20, 60⟩ 3 2 7).pixels a = 0)
    ∧ (∀ a b : Int, in_bounds ⟨fun _ => 0, 4, 3, 20, 60⟩ a b → (a, b) ≠ (3, 2) →
        (b * ((20 : Nat) : Int) + 4 * a + 4 ≤ 2 * ((20 : Nat) : Int) + 4 * 3
          ∨ 2 * ((20 : Nat) : Int) + 4 * 3 + 4 ≤ b * ((20 : Nat) : Int) + 4 * a)
        ∧ pixel_at (put_pixel ⟨fun _ => 0, 4, 3, 20, 60⟩ 3 2 7) a b
          = pixel_at ⟨fun _ => 0, 4, 3, 20, 60⟩ a b) :=
  put_pixel_cell ⟨fun _ => 0, 4, 3, 20, 60⟩ (by norm_num) (by norm_num) (by norm_num) 3 2
    (by unfold in_bounds; norm_num) 7

theorem and_low24 (r : Nat) : r &&& 0x00FFFFFF = r % 16777216 := by
  have := Nat.and_pow_two_sub_one_eq_mod r 24
  simpa using this

theorem or_alpha (b : Nat) (h : b < 16777216) : 0xFF000000 ||| b = 4278190080 + b := by
  have h2 : b < 2 ^ 24 := by norm_num; exact h
  have := Nat.mul_add_lt_is_or h2 255
  norm_num at this
  rw [← this]

theorem line_colour_eq (r : Nat) : line_colour r = 4278190080 + r % 16777216 := by
  unfold line_colour
  rw [and_low24, or_alpha _ (Nat.mod_lt _ (by norm_num))]
  omega

/-- Claim C14. For every value `r` returned by `random()` the colour
`0xFF000000 | (r & 0x00FFFFFF)` is a 32-bit value whose alpha byte (bits 24 to
31) is `0xFF` and whose low 24 bits are the low 24 bits of `r`;
`ogl-line-perf.c` computes the same value. -/
theorem colour_opaque (r : Nat) :
    line_colour r < 2 ^ 32
    ∧ line_colour r / 2 ^ 24 = 0xFF
    ∧ (line_colour r >>> 24) &&& 0xFF = 0xFF
    ∧ line_colour r % 2 ^ 24 = r % 2 ^ 24
    ∧ line_colour r &&& 0x00FFFFFF = r &&& 0x00FFFFFF
    ∧ line_colour r = 0xFF000000 + r % 2 ^ 24
    ∧ line_colour_ogl r = line_colour r := by
  have e := line_colour_eq r
  have hdiv : line_colour r / 2 ^ 24 = 255 := by rw [e]; norm_num; omega
  refine ⟨?_, hdiv, ?_, ?_, ?_, ?_, ?_⟩
  · rw [e]; norm_num; omega
  · rw [Nat.shiftRight_eq_div_pow, hdiv]
    decide
  · rw [e]; norm_num; omega
  · rw [and_low24, and_low24, e]; omega
  · rw [e]; norm_num
  · unfold line_colour_ogl
    rw [and_low24, or_alpha _ (Nat.mod_lt _ (by norm_num)), e]
    omega

theorem random_int_value (r : Nat) (min max : Int) (hmin : int_ok min) (hmax : int_ok max)
    (hle : min ≤ max) (hn : max - min + 1 ≤ 2147483647) :
    random_int r min max = some (min + (r : Int) % (max - min + 1))
      ∧ min ≤ min + (r : Int) % (max - min + 1)
      ∧ min + (r : Int) % (max - min + 1) ≤ max := by
  unfold int_ok at hmin hmax
  have hpos : 0 < max - min + 1 := by omega
  have hm0 : 0 ≤ (r : Int) % (max - min + 1) := Int.emod_nonneg _ (by omega)
  have hm1 : (r : Int) % (max - min + 1) < max - min + 1 := Int.emod_lt_of_pos _ hpos
  have k1 : int_ok (max - min) := by unfold int_ok; omega
  have k2 : int_ok (max - min + 1) := by unfold int_ok; omega
  have hmod : (max - min + 1) % 4294967296 = max - min + 1 :=
    Int.emod_eq_of_lt (by omega) (by omega)
  have k3 : int_ok (min + (r : Int) % (max - min + 1)) := by unfold int_ok; omega
  refine ⟨?_, by omega, by omega⟩
  have hne : ¬ (max - min + 1 = 0) := by omega
  have hle2 : (r : Int) % (max - min + 1) ≤ 2147483647 := by omega
  unfold random_int
  simp only [k1, k2, not_true_eq_false, or_self, if_false, hmod, hne, hle2, if_true, k3]

theorem to_int_dim (w : Nat) (h1 : 1 ≤ w) (h2 : w ≤ 65535) :
    to_int (u32_sub w 1) = (w : Int) - 1 := by
  unfold to_int
  have e : u32_sub w 1 = w - 1 := by unfold u32_sub; split <;> omega
  rw [e]
  have e2 : (w - 1) % 4294967296 = w - 1 := by omega
  rw [e2, if_pos (by omega)]
  omega

/-- Counterexample to claim C12 as stated: for `min = 0`, `max = 2147483647`
the bound `max - min + 1 <= 2^31` holds, but the `int` expression
`max - min + 1` of `random_int` overflows. -/
theorem random_int_counterexample :
    (0 : Int) ≤ 2147483647 ∧ (2147483647 : Int) - 0 + 1 ≤ 2 ^ 31
    ∧ ¬ int_ok (2147483647 - 0 + 1)
    ∧ random_int 5 0 2147483647 = none := by
  decide

/-- Claim C12, amended. For `int` values `min <= max` with
`max - min + 1 <= 2^31 - 1` and every value `r` returned by `random()`,
`random_int(min,max)` returns `min + (r mod (max - min + 1))`, which lies in
`[min, max]`; hence for every frame buffer with `1 <= width, height <= 65535`
every generated line has `x0, x1` in `[0, width-1]` and `y0, y1` in
`[0, height-1]` (and the opaque colour of the fifth random value). -/
theorem random_int_range (r : Nat) (min max : Int) (hmin : int_ok min) (hmax : int_ok max)
    (hle : min ≤ max) (hn : max - min + 1 ≤ 2147483647) :
    random_int r min max = some (min + (r : Int) % (max - min + 1))
    ∧ min ≤ min + (r : Int) % (max - min + 1)
    ∧ min + (r : Int) % (max - min + 1) ≤ max
    ∧ (∀ (fb : framebuffer_t) (r0 r1 r2 r3 r4 : Nat), 1 ≤ fb.width → fb.width ≤ 65535 →
        1 ≤ fb.height → fb.height ≤ 65535 →
        ∃ l, gen_line fb r0 r1 r2 r3 r4 = some l
          ∧ in_bounds fb l.x0 l.y0 ∧ in_bounds fb l.x1 l.y1 ∧ l.c = line_colour r4) := by
  obtain ⟨h1, h2, h3⟩ := random_int_value r min max hmin hmax hle hn
  refine ⟨h1, h2, h3, ?_⟩
  intro fb r0 r1 r2 r3 r4 hw1 hw2 hh1 hh2
  have ew := to_int_dim fb.width hw1 hw2
  have eh := to_int_dim fb.height hh1 hh2
  have k0 : int_ok 0 := by unfold int_ok; omega
  have kw : int_ok ((fb.width : Int) - 1) := by unfold int_ok; omega
  have kh : int_ok ((fb.height : Int) - 1) := by unfold int_ok; omega
  obtain ⟨a1, a2, a3⟩ := random_int_value r0 0 ((fb.width : Int) - 1) k0 kw (by omega) (by omega)
  obtain ⟨b1, b2, b3⟩ := random_int_value r1 0 ((fb.height : Int) - 1) k0 kh (by omega) (by omega)
  obtain ⟨c1, c2, c3⟩ := random_int_value r2 0 ((fb.width : Int) - 1) k0 kw (by omega) (by omega)
  obtain ⟨d1, d2, d3⟩ := random_int_value r3 0 ((fb.height : Int) - 1) k0 kh (by omega) (by omega)
  refine ⟨{ x0 := 0 + (r0 : Int) % ((fb.width : Int) - 1 - 0 + 1),
            y0 := 0 + (r1 : Int) % ((fb.height : Int) - 1 - 0 + 1),
            x1 := 0 + (r2 : Int) % ((fb.width : Int) - 1 - 0 + 1),
            y1 := 0 + (r3 : Int) % ((fb.height : Int) - 1 - 0 + 1),
            c := line_colour r4 }, ?_, ?_, ?_, rfl⟩
  · unfold gen_line
    simp only [ew, eh, a1, b1, c1, d1]
  · unfold in_bounds
    simp only
    omega
  · unfold in_bounds
    simp only
    omega

/-- Witness of `random_int_range`: `random_int(0, 1919)` for `r = 123456`. -/
theorem random_int_range_witness :
    random_int 123456 0 1919 = some (0 + ((123456 : Nat) : Int) % (1919 - 0 + 1))
    ∧ (0 : Int) ≤ 0 + ((123456 : Nat) : Int) % (1919 - 0 + 1)
    ∧ 0 + ((123456 : Nat) : Int) % (1919 - 0 + 1) ≤ 1919
    ∧ (∀ (fb : framebuffer_t) (r0 r1 r2 r3 r4 : Nat), 1 ≤ fb.width → fb.width ≤ 65535 →
        1 ≤ fb.height → fb.height ≤ 65535 →
        ∃ l, gen_line fb r0 r1 r2 r3 r4 = some l
          ∧ in_bounds fb l.x0 l.y0 ∧ in_bounds fb l.x1 l.y1 ∧ l.c = line_colour r4) :=
  random_int_range 123456 0 1919 (by decide) (by decide) (by decide) (by decide)

/-! ### Iterations of the loop of `draw_line` -/

theorem line_tight_init {dx dy : Int} (_h1 : 0 ≤ dx) (h2 : dy ≤ 0) (x y : Int) :
    line_tight dx dy { x0 := x, y0 := y, err := dx + dy } := by
  unfold line_tight
  simp only
  constructor <;> intro _ <;> constructor <;> omega

theorem line_tight_step {dx dy : Int} (h1 : 0 ≤ dx) (h2 : dy ≤ 0) (sx sy : Int)
    {s : line_state} (h : line_tight dx dy s) :
    line_tight dx dy (line_step_int dx dy sx sy s) := by
  obtain ⟨hx, hy⟩ := h
  unfold line_tight line_step_int
  by_cases c1 : 2 * s.err ≥ dy <;> by_cases c2 : 2 * s.err ≤ dx <;>
    simp only [c1, c2, if_true, if_false] <;>
    constructor <;> intro hd <;> constructor <;> omega

theorem line_tight_bound {dx dy : Int} (h1 : 0 ≤ dx) (h2 : dy ≤ 0) {s : line_state}
    (h : line_tight dx dy s) : 3 * dy ≤ 2 * s.err ∧ 2 * s.err ≤ 3 * dx := by
  obtain ⟨hx, hy⟩ := h
  by_cases hd : -dy ≤ dx
  · have := hx hd; omega
  · have := hy (by omega); omega

theorem line_step_some_eq {dx dy sx sy : Int} {s t : line_state}
    (h : line_step dx dy sx sy s = some t) : t = line_step_int dx dy sx sy s := by
  unfold line_step at h
  unfold line_step_int
  by_cases k0 : int_ok (2 * s.err)
  · simp only [k0, not_true_eq_false, if_false] at h
    by_cases c1 : 2 * s.err ≥ dy
    · simp only [c1, if_true] at h ⊢
      by_cases k1 : int_ok (s.err + dy) ∧ int_ok (s.x0 + sx)
      · simp only [k1, and_self, if_true] at h
        by_cases c2 : 2 * s.err ≤ dx
        · simp only [c2, if_true] at h ⊢
          split at h
          · exact (Option.some.inj h).symm
          · cases h
        · simp only [c2, if_false] at h ⊢
          exact (Option.some.inj h).symm
      · simp only [k1, if_false] at h
        cases h
    · simp only [c1, if_false] at h ⊢
      by_cases c2 : 2 * s.err ≤ dx
      · simp only [c2, if_true] at h ⊢
        split at h
        · exact (Option.some.inj h).symm
        · cases h
      · simp only [c2, if_false] at h ⊢
        exact (Option.some.inj h).symm
  · simp only [k0, not_false_eq_true, if_true] at h
    cases h

/-- One iteration on unbounded integers, with the step counters made explicit:
`x` steps exactly when `2*err ≥ dy`, `y` exactly when `2*err ≤ dx`. -/
theorem line_step_int_counts {x0 y0 x1 y1 dx dy sx sy : Int}
    (hs : line_setup x0 y0 x1 y1 dx dy sx sy) {i j : Int} {s : line_state}
    (hinv : line_inv x0 y0 dx dy sx sy i j s) (hne : ¬ (s.x0 = x1 ∧ s.y0 = y1)) :
    line_inv x0 y0 dx dy sx sy (if 2 * s.err ≥ dy then i + 1 else i)
        (if 2 * s.err ≤ dx then j + 1 else j) (line_step_int dx dy sx sy s)
      ∧ (line_step_int dx dy sx sy s).x0 = (if 2 * s.err ≥ dy then s.x0 + sx else s.x0)
      ∧ (line_step_int dx dy sx sy s).y0 = (if 2 * s.err ≤ dx then s.y0 + sy else s.y0)
      ∧ (2 * s.err ≥ dy ∨ 2 * s.err ≤ dx) := by
  obtain ⟨i2, j2, hinv2, hi, hj, hlt⟩ := line_step_int_inv hs hinv hne
  have hx2 := hinv2.2.2.2.2.1
  have hy2 := hinv2.2.2.2.2.2.1
  have hx := hinv.2.2.2.2.1
  have hy := hinv.2.2.2.2.2.1
  have hdx := hs.dx_nonneg
  have hdy := hs.dy_nonpos
  have ex : (line_step_int dx dy sx sy s).x0 = (if 2 * s.err ≥ dy then s.x0 + sx else s.x0) := by
    unfold line_step_int
    by_cases c1 : 2 * s.err ≥ dy <;> by_cases c2 : 2 * s.err ≤ dx <;>
      simp only [c1, c2, if_true, if_false]
  have ey : (line_step_int dx dy sx sy s).y0 = (if 2 * s.err ≤ dx then s.y0 + sy else s.y0) := by
    unfold line_step_int
    by_cases c1 : 2 * s.err ≥ dy <;> by_cases c2 : 2 * s.err ≤ dx <;>
      simp only [c1, c2, if_true, if_false]
  have hi2 : i2 = (if 2 * s.err ≥ dy then i + 1 else i) := by
    rw [ex, hx] at hx2
    by_cases c1 : 2 * s.err ≥ dy
    · rw [if_pos c1] at hx2 ⊢
      rcases hs.sx_unit with e | e <;> rw [e] at hx2 <;> omega
    · rw [if_neg c1] at hx2 ⊢
      rcases hs.sx_unit with e | e <;> rw [e] at hx2 <;> omega
  have hj2 : j2 = (if 2 * s.err ≤ dx then j + 1 else j) := by
    rw [ey, hy] at hy2
    by_cases c2 : 2 * s.err ≤ dx
    · rw [if_pos c2] at hy2 ⊢
      rcases hs.sy_unit with e | e <;> rw [e] at hy2 <;> omega
    · rw [if_neg c2] at hy2 ⊢
      rcases hs.sy_unit with e | e <;> rw [e] at hy2 <;> omega
  rw [← hi2, ← hj2]
  exact ⟨hinv2, ex, ey, by omega⟩

theorem line_iter_succ_left {x1 y1 dx dy sx sy : Int} {n : Nat} {s t : line_state}
    (h : line_iter x1 y1 dx dy sx sy (n + 1) s = some t) :
    ¬ (s.x0 = x1 ∧ s.y0 = y1) ∧ line_step dx dy sx sy s = some (line_step_int dx dy sx sy s)
      ∧ line_iter x1 y1 dx dy sx sy n (line_step_int dx dy sx sy s) = some t := by
  simp only [line_iter] at h
  by_cases hend : s.x0 = x1 ∧ s.y0 = y1
  · rw [if_pos hend] at h
    cases h
  · rw [if_neg hend] at h
    cases hstep : line_step dx dy sx sy s with
    | none => rw [hstep] at h; cases h
    | some s2 =>
      rw [hstep] at h
      have e := line_step_some_eq hstep
      rw [e] at h
      exact ⟨hend, by rw [e], h⟩

/-- Two successive iterations: the earlier one did not break and the later
state is the result of the loop body. -/
theorem line_iter_succ_right {x1 y1 dx dy sx sy : Int} (n : Nat) :
    ∀ (s a b : line_state), line_iter x1 y1 dx dy sx sy n s = some a →
      line_iter x1 y1 dx dy sx sy (n + 1) s = some b →
      ¬ (a.x0 = x1 ∧ a.y0 = y1) ∧ b = line_step_int dx dy sx sy a
        ∧ line_step dx dy sx sy a = some b := by
  induction n with
  | zero =>
    intro s a b ha hb
    simp only [line_iter, Option.some.injEq] at ha
    subst ha
    obtain ⟨h1, h2, h3⟩ := line_iter_succ_left hb
    simp only [line_iter, Option.some.injEq] at h3
    rw [← h3]
    exact ⟨h1, rfl, h2⟩
  | succ n ih =>
    intro s a b ha hb
    obtain ⟨_, _, h3⟩ := line_iter_succ_left ha
    obtain ⟨_, _, k3⟩ := line_iter_succ_left hb
    exact ih _ a b h3 k3

/-- The invariants at every iteration: position and `err` in closed form, the
range of `2*err`, and the number of steps made on the dominant axis. -/
theorem line_iter_inv {x0 y0 x1 y1 dx dy sx sy : Int}
    (hs : line_setup x0 y0 x1 y1 dx dy sx sy) (n : Nat) :
    ∀ (s t : line_state) (i j : Int), line_inv x0 y0 dx dy sx sy i j s → line_tight dx dy s →
      line_iter x1 y1 dx dy sx sy n s = some t →
      ∃ i2 j2 : Int, line_inv x0 y0 dx dy sx sy i2 j2 t ∧ line_tight dx dy t
        ∧ i ≤ i2 ∧ j ≤ j2 ∧ i2 ≤ i + n ∧ j2 ≤ j + n
        ∧ (-dy ≤ dx → i2 = i + n) ∧ (dx ≤ -dy → j2 = j + n) := by
  have hdx := hs.dx_nonneg
  have hdy := hs.dy_nonpos
  induction n with
  | zero =>
    intro s t i j hinv ht h
    simp only [line_iter, Option.some.injEq] at h
    subst h
    exact ⟨i, j, hinv, ht, le_refl _, le_refl _, by simp, by simp, fun _ => by simp,
      fun _ => by simp⟩
  | succ n ih =>
    intro s t i j hinv ht h
    obtain ⟨hend, _, hrest⟩ := line_iter_succ_left h
    obtain ⟨hinv2, _, _, _⟩ := line_step_int_counts hs hinv hend
    have ht2 := line_tight_step hdx hdy sx sy ht
    obtain ⟨i3, j3, hinv3, ht3, a1, a2, a3, a4, a5, a6⟩ := ih _ t _ _ hinv2 ht2 hrest
    obtain ⟨tx, ty⟩ := ht
    refine ⟨i3, j3, hinv3, ht3, ?_, ?_, ?_, ?_, ?_, ?_⟩
    · split at a1 <;> omega
    · split at a2 <;> omega
    · push_cast
      split at a3 <;> omega
    · push_cast
      split at a4 <;> omega
    · intro hd
      have := tx hd
      have := a5 hd
      rw [if_pos (by omega)] at this
      push_cast
      omega
    · intro hd
      have := ty hd
      have := a6 hd
      rw [if_pos (by omega)] at this
      push_cast
      omega

/-- A finished run of the loop, iteration by iteration: the writes are the
positions of the iterations `0 .. length-1`, the last iteration is the one that
breaks, at `(x1, y1)`, and no earlier write is at `(x1, y1)`. -/
theorem draw_line_loop_finished {x1 y1 dx dy sx sy : Int} (argb : Nat) (fuel : Nat) :
    ∀ (fb fb2 : framebuffer_t) (s : line_state) (tr : List (Int × Int)),
      draw_line_loop x1 y1 dx dy sx sy argb fuel fb s = run_result.finished fb2 tr →
      fb2 = put_pixels fb argb tr ∧ 1 ≤ tr.length ∧ tr.length ≤ fuel
        ∧ (∀ p ∈ tr, ∃ n t, n < tr.length ∧ line_iter x1 y1 dx dy sx sy n s = some t
            ∧ p = (t.x0, t.y0))
        ∧ (∃ t, line_iter x1 y1 dx dy sx sy (tr.length - 1) s = some t
            ∧ t.x0 = x1 ∧ t.y0 = y1)
        ∧ tr.getLast? = some (x1, y1)
        ∧ (∀ p ∈ tr.dropLast, p ≠ (x1, y1)) := by
  induction fuel with
  | zero =>
    intro fb fb2 s tr h
    simp [draw_line_loop] at h
  | succ n ih =>
    intro fb fb2 s tr h
    simp only [draw_line_loop] at h
    by_cases hend : s.x0 = x1 ∧ s.y0 = y1
    · rw [if_pos hend] at h
      injection h with h1 h2
      subst h1 h2
      refine ⟨rfl, by simp, by simp, ?_, ?_, ?_, ?_⟩
      · intro p hp
        rw [List.mem_singleton] at hp
        exact ⟨0, s, by simp, rfl, hp⟩
      · exact ⟨s, rfl, hend.1, hend.2⟩
      · simp [hend.1, hend.2]
      · intro p hp
        simp at hp
    · rw [if_neg hend] at h
      cases hstep : line_step dx dy sx sy s with
      | none => simp only [hstep] at h; cases h
      | some s2 =>
        simp only [hstep] at h
        cases hrec : draw_line_loop x1 y1 dx dy sx sy argb n
            (put_pixel fb s.x0 s.y0 argb) s2 with
        | overflow => rw [hrec] at h; cases h
        | running => rw [hrec] at h; cases h
        | finished fb3 tr3 =>
          rw [hrec] at h
          injection h with h1 h2
          subst h1 h2
          obtain ⟨e1, e2, e3, e4, ⟨t, e5, e6⟩, e7, e8⟩ := ih _ _ _ _ hrec
          have hiter : ∀ m, line_iter x1 y1 dx dy sx sy (m + 1) s
              = line_iter x1 y1 dx dy sx sy m s2 := by
            intro m
            simp only [line_iter, hend, if_false, hstep]
          have hne : tr3 ≠ [] := by
            intro e; rw [e] at e2; simp at e2
          refine ⟨?_, by simp, by simp only [List.length_cons]; omega, ?_, ?_, ?_, ?_⟩
          · rw [e1]; rfl
          · intro p hp
            rw [List.mem_cons] at hp
            rcases hp with hp | hp
            · exact ⟨0, s, by simp, rfl, hp⟩
            · obtain ⟨m, u, hm, hu, hpu⟩ := e4 p hp
              exact ⟨m + 1, u, by simp only [List.length_cons]; omega, by rw [hiter]; exact hu,
                hpu⟩
          · refine ⟨t, ?_, e6⟩
            have hl : ((s.x0, s.y0) :: tr3).length - 1 = (tr3.length - 1) + 1 := by
              simp only [List.length_cons]; omega
            rw [hl, hiter]
            exact e5
          · cases tr3 with
            | nil => exact absurd rfl hne
            | cons q tr4 => rw [List.getLast?_cons_cons]; exact e7
          · intro p hp
            cases tr3 with
            | nil => exact absurd rfl hne
            | cons q tr4 =>
              rw [List.dropLast_cons₂, List.mem_cons] at hp
              rcases hp with hp | hp
              · rw [hp]
                intro e
                injection e with e1 e2
                exact hend ⟨e1, e2⟩
              · exact e8 p hp

/-- A run that ends in an overflow: some iteration is reached whose loop body
overflows. -/
theorem draw_line_loop_overflow {x1 y1 dx dy sx sy : Int} (argb : Nat) (fuel : Nat) :
    ∀ (fb : framebuffer_t) (s : line_state),
      draw_line_loop x1 y1 dx dy sx sy argb fuel fb s = run_result.overflow →
      ∃ n t, line_iter x1 y1 dx dy sx sy n s = some t ∧ ¬ (t.x0 = x1 ∧ t.y0 = y1)
        ∧ line_step dx dy sx sy t = none := by
  induction fuel with
  | zero =>
    intro fb s h
    simp [draw_line_loop] at h
  | succ n ih =>
    intro fb s h
    simp only [draw_line_loop] at h
    by_cases hend : s.x0 = x1 ∧ s.y0 = y1
    · rw [if_pos hend] at h
      cases h
    · rw [if_neg hend] at h
      cases hstep : line_step dx dy sx sy s with
      | none => exact ⟨0, s, rfl, hend, hstep⟩
      | some s2 =>
        simp only [hstep] at h
        cases hrec : draw_line_loop x1 y1 dx dy sx sy argb n
            (put_pixel fb s.x0 s.y0 argb) s2 with
        | finished fb3 tr3 => rw [hrec] at h; cases h
        | running => rw [hrec] at h; cases h
        | overflow =>
          obtain ⟨m, t, h1, h2, h3⟩ := ih _ _ hrec
          refine ⟨m + 1, t, ?_, h2, h3⟩
          simp only [line_iter, hend, if_false, hstep]
          exact h1

/-- A run that has not ended after `fuel` iterations: iteration number `fuel`
is reached. -/
theorem draw_line_loop_running {x1 y1 dx dy sx sy : Int} (argb : Nat) (fuel : Nat) :
    ∀ (fb : framebuffer_t) (s : line_state),
      draw_line_loop x1 y1 dx dy sx sy argb fuel fb s = run_result.running →
      ∃ t, line_iter x1 y1 dx dy sx sy fuel s = some t := by
  induction fuel with
  | zero =>
    intro fb s _
    exact ⟨s, rfl⟩
  | succ n ih =>
    intro fb s h
    simp only [draw_line_loop] at h
    by_cases hend : s.x0 = x1 ∧ s.y0 = y1
    · rw [if_pos hend] at h
      cases h
    · rw [if_neg hend] at h
      cases hstep : line_step dx dy sx sy s with
      | none => simp only [hstep] at h; cases h
      | some s2 =>
        simp only [hstep] at h
        cases hrec : draw_line_loop x1 y1 dx dy sx sy argb n
            (put_pixel fb s.x0 s.y0 argb) s2 with
        | finished fb3 tr3 => rw [hrec] at h; cases h
        | overflow => rw [hrec] at h; cases h
        | running =>
          obtain ⟨t, h1⟩ := ih _ _ hrec
          refine ⟨t, ?_⟩
          simp only [line_iter, hend, if_false, hstep]
          exact h1

/-! ### Runs of `draw_line` -/

theorem draw_line_iter_inv (x0 y0 x1 y1 : Int) (n : Nat) (t : line_state)
    (h : draw_line_iter x0 y0 x1 y1 n = some t) :
    ∃ i j : Int, line_inv x0 y0 (line_dx x0 x1) (line_dy y0 y1) (line_sx x0 x1)
        (line_sx y0 y1) i j t
      ∧ line_tight (line_dx x0 x1) (line_dy y0 y1) t
      ∧ i ≤ n ∧ j ≤ n
      ∧ (-(line_dy y0 y1) ≤ line_dx x0 x1 → i = n)
      ∧ (line_dx x0 x1 ≤ -(line_dy y0 y1) → j = n) := by
  have hs := line_setup_of x0 y0 x1 y1
  obtain ⟨i, j, h1, h2, _, _, h5, h6, h7, h8⟩ :=
    line_iter_inv hs n (line_init x0 y0 x1 y1) t 0 0 (line_inv_init hs)
      (line_tight_init hs.dx_nonneg hs.dy_nonpos x0 y0) h
  refine ⟨i, j, h1, h2, by omega, by omega, ?_, ?_⟩
  · intro hd; have := h7 hd; omega
  · intro hd; have := h8 hd; omega

theorem line_inv_box {x0 y0 x1 y1 : Int} {i j : Int} {t : line_state}
    (h : line_inv x0 y0 (line_dx x0 x1) (line_dy y0 y1) (line_sx x0 x1) (line_sx y0 y1) i j t) :
    min x0 x1 ≤ t.x0 ∧ t.x0 ≤ max x0 x1 ∧ min y0 y1 ≤ t.y0 ∧ t.y0 ≤ max y0 y1 := by
  obtain ⟨hi0, hi1, hj0, hj1, hx, hy, _⟩ := h
  rw [hx, hy]
  unfold line_dx at hi1
  unfold line_dy at hj1
  unfold line_sx
  refine ⟨?_, ?_, ?_, ?_⟩
  · by_cases c : x0 < x1
    · rw [if_pos c, min_eq_left c.le]; omega
    · rw [if_neg c, min_eq_right (by omega)]
      rw [if_neg (by omega)] at hi1
      omega
  · by_cases c : x0 < x1
    · rw [if_pos c, max_eq_right c.le]
      rw [if_pos (by omega)] at hi1
      omega
    · rw [if_neg c, max_eq_left (by omega)]; omega
  · by_cases c : y0 < y1
    · rw [if_pos c, min_eq_left c.le]; omega
    · rw [if_neg c, min_eq_right (by omega)]
      rw [if_neg (by omega)] at hj1
      omega
  · by_cases c : y0 < y1
    · rw [if_pos c, max_eq_right c.le]
      rw [if_pos (by omega)] at hj1
      omega
    · rw [if_neg c, max_eq_left (by omega)]; omega

/-- For coordinates in `[0, 65535]` the `int` arithmetic of the loop cannot
overflow: `|2*err| ≤ 3 * 65535`. -/
theorem line_small_of_coord16 {x0 y0 x1 y1 : Int} (h0 : coord16 x0) (h1 : coord16 y0)
    (h2 : coord16 x1) (h3 : coord16 y1) :
    line_small x0 y0 x1 y1 (line_dx x0 x1) (line_dy y0 y1) := by
  unfold coord16 at h0 h1 h2 h3
  have hdx : line_dx x0 x1 ≤ 65535 := by unfold line_dx; split <;> omega
  have hdy : -65535 ≤ line_dy y0 y1 := by unfold line_dy; split <;> omega
  refine ⟨by omega, by omega, by omega, by omega, by omega, by omega, ?_⟩
  intro i j e _ _ _ _ _ hlo hhi
  constructor <;> omega

theorem draw_line_finished_loop {fuel : Nat} {fb fb2 : framebuffer_t} {x0 y0 x1 y1 : Int}
    {argb : Nat} {tr : List (Int × Int)}
    (h : draw_line fuel fb x0 y0 x1 y1 argb = run_result.finished fb2 tr) :
    draw_line_loop x1 y1 (line_dx x0 x1) (line_dy y0 y1) (line_sx x0 x1) (line_sx y0 y1)
      argb fuel fb (line_init x0 y0 x1 y1) = run_result.finished fb2 tr := by
  unfold draw_line at h
  simp only at h
  split at h
  · exact h
  · cases h

/-- Every write of a finished run is the position of some iteration. -/
theorem draw_line_finished_iter {fuel : Nat} {fb fb2 : framebuffer_t} {x0 y0 x1 y1 : Int}
    {argb : Nat} {tr : List (Int × Int)}
    (h : draw_line fuel fb x0 y0 x1 y1 argb = run_result.finished fb2 tr) :
    ∀ p ∈ tr, ∃ n t, draw_line_iter x0 y0 x1 y1 n = some t ∧ p = (t.x0, t.y0) := by
  intro p hp
  obtain ⟨_, _, _, h4, _⟩ := draw_line_loop_finished argb fuel _ _ _ _ (draw_line_finished_loop h)
  obtain ⟨n, t, _, ht, hpt⟩ := h4 p hp
  exact ⟨n, t, ht, hpt⟩

/-- The length of a finished run is `max(dx, -dy) + 1`. -/
theorem draw_line_finished_length {fuel : Nat} {fb fb2 : framebuffer_t} {x0 y0 x1 y1 : Int}
    {argb : Nat} {tr : List (Int × Int)}
    (h : draw_line fuel fb x0 y0 x1 y1 argb = run_result.finished fb2 tr) :
    (tr.length : Int) = max (line_dx x0 x1) (-(line_dy y0 y1)) + 1 := by
  have hs := line_setup_of x0 y0 x1 y1
  obtain ⟨_, hlen, _, _, ⟨t, ht, hend⟩, _⟩ :=
    draw_line_loop_finished argb fuel _ _ _ _ (draw_line_finished_loop h)
  obtain ⟨i, j, hinv, _, _, _, hx, hy⟩ := draw_line_iter_inv x0 y0 x1 y1 _ t ht
  obtain ⟨ei, ej⟩ := (line_at_end_iff hs hinv).mp hend
  have hcast : ((tr.length - 1 : Nat) : Int) = (tr.length : Int) - 1 := by omega
  rw [hcast] at hx hy
  by_cases hd : -(line_dy y0 y1) ≤ line_dx x0 x1
  · have := hx hd
    rw [max_eq_left hd]
    omega
  · have := hy (by omega)
    rw [max_eq_right (by omega)]
    omega

/-- With the `int` arithmetic safe, `draw_line` finishes within
`max(dx, -dy) + 1` iterations. -/
theorem draw_line_finishes (fb : framebuffer_t) (x0 y0 x1 y1 : Int) (argb : Nat)
    (hm : line_small x0 y0 x1 y1 (line_dx x0 x1) (line_dy y0 y1)) (fuel : Nat)
    (hf : max (line_dx x0 x1) (-(line_dy y0 y1)) + 1 ≤ (fuel : Int)) :
    ∃ fb2 tr, draw_line fuel fb x0 y0 x1 y1 argb = run_result.finished fb2 tr := by
  have hs := line_setup_of x0 y0 x1 y1
  have hloop := draw_line_eq_loop fuel fb x0 y0 x1 y1 argb hm
  have hinit : ({ x0 := x0, y0 := y0, err := line_dx x0 x1 + line_dy y0 y1 } : line_state)
      = line_init x0 y0 x1 y1 := rfl
  rw [hinit] at hloop
  cases hres : draw_line_loop x1 y1 (line_dx x0 x1) (line_dy y0 y1) (line_sx x0 x1)
      (line_sx y0 y1) argb fuel fb (line_init x0 y0 x1 y1) with
  | finished fb2 tr => exact ⟨fb2, tr, by rw [hloop, hres]⟩
  | overflow =>
    exfalso
    obtain ⟨n, t, ht, _, hnone⟩ := draw_line_loop_overflow argb fuel _ _ hres
    obtain ⟨i, j, hinv, _⟩ := draw_line_iter_inv x0 y0 x1 y1 n t ht
    rw [line_step_eq_int hs hm hinv] at hnone
    cases hnone
  | running =>
    exfalso
    obtain ⟨t, ht⟩ := draw_line_loop_running argb fuel _ _ hres
    obtain ⟨i, j, hinv, _, _, _, hx, hy⟩ := draw_line_iter_inv x0 y0 x1 y1 fuel t ht
    obtain ⟨_, hi1, _, hj1, _⟩ := hinv
    by_cases hd : -(line_dy y0 y1) ≤ line_dx x0 x1
    · have := hx hd
      rw [max_eq_left hd] at hf
      omega
    · have := hy (by omega)
      rw [max_eq_right (by omega)] at hf
      omega

theorem max_abs_eq (x0 y0 x1 y1 : Int) :
    max (line_dx x0 x1) (-(line_dy y0 y1)) = max |x1 - x0| |y1 - y0| := by
  rw [line_dx_eq_abs, line_dy_eq_abs, neg_neg]


/-- With the `int` arithmetic safe, `draw_line` never ends in an overflow. -/
theorem draw_line_no_overflow (fb : framebuffer_t) (x0 y0 x1 y1 : Int) (argb : Nat)
    (hm : line_small x0 y0 x1 y1 (line_dx x0 x1) (line_dy y0 y1)) (fuel : Nat) :
    draw_line fuel fb x0 y0 x1 y1 argb ≠ run_result.overflow := by
  intro hres
  have hs := line_setup_of x0 y0 x1 y1
  rw [draw_line_eq_loop fuel fb x0 y0 x1 y1 argb hm] at hres
  obtain ⟨n, t, ht, _, hnone⟩ := draw_line_loop_overflow argb fuel _ _ hres
  have ht2 : draw_line_iter x0 y0 x1 y1 n = some t := ht
  obtain ⟨i, j, hinv, _⟩ := draw_line_iter_inv x0 y0 x1 y1 n t ht2
  rw [line_step_eq_int hs hm hinv] at hnone
  cases hnone

/-- With the `int` arithmetic safe, the loop of `draw_line` reaches every
iteration up to number `max(dx, -dy)`: no overflow cuts the run short. -/
theorem draw_line_iter_reached (x0 y0 x1 y1 : Int)
    (hm : line_small x0 y0 x1 y1 (line_dx x0 x1) (line_dy y0 y1)) (n : Nat)
    (hn : (n : Int) ≤ max (line_dx x0 x1) (-(line_dy y0 y1))) :
    ∃ t, draw_line_iter x0 y0 x1 y1 n = some t := by
  have hloop := draw_line_eq_loop n ⟨fun _ => 0, 0, 0, 0, 0⟩ x0 y0 x1 y1 0 hm
  cases hres : draw_line n ⟨fun _ => 0, 0, 0, 0, 0⟩ x0 y0 x1 y1 0 with
  | running =>
    rw [hloop] at hres
    exact draw_line_loop_running 0 n _ _ hres
  | finished fb2 tr =>
    exfalso
    have hlen := draw_line_finished_length hres
    obtain ⟨_, _, e3, _⟩ :=
      draw_line_loop_finished 0 n _ _ _ _ (draw_line_finished_loop hres)
    omega
  | overflow => exact absurd hres (draw_line_no_overflow _ x0 y0 x1 y1 0 hm n)

/-- With the `int` arithmetic safe: `draw_line` never overflows, every
iteration up to the last is reached, and a run allowed enough iterations
finishes with `max(|x1-x0|, |y1-y0|) + 1` writes. -/
theorem draw_line_safe_runs (x0 y0 x1 y1 : Int)
    (hm : line_small x0 y0 x1 y1 (line_dx x0 x1) (line_dy y0 y1)) :
    (∀ (fuel : Nat) (fb : framebuffer_t) (argb : Nat),
        draw_line fuel fb x0 y0 x1 y1 argb ≠ run_result.overflow)
    ∧ (∀ n : Nat, (n : Int) ≤ max |x1 - x0| |y1 - y0| →
        ∃ t, draw_line_iter x0 y0 x1 y1 n = some t)
    ∧ (∀ (fb : framebuffer_t) (argb : Nat) (fuel : Nat),
        max |x1 - x0| |y1 - y0| + 1 ≤ (fuel : Int) →
        ∃ fb2 tr, draw_line fuel fb x0 y0 x1 y1 argb = run_result.finished fb2 tr
          ∧ fb2 = put_pixels fb argb tr
          ∧ (tr.length : Int) = max |x1 - x0| |y1 - y0| + 1) := by
  refine ⟨fun fuel fb argb => draw_line_no_overflow fb x0 y0 x1 y1 argb hm fuel, ?_, ?_⟩
  · intro n hn
    rw [← max_abs_eq] at hn
    exact draw_line_iter_reached x0 y0 x1 y1 hm n hn
  · intro fb argb fuel hf
    rw [← max_abs_eq] at hf ⊢
    obtain ⟨fb2, tr, hrun⟩ := draw_line_finishes fb x0 y0 x1 y1 argb hm fuel hf
    obtain ⟨e1, _⟩ := draw_line_loop_finished argb fuel _ _ _ _ (draw_line_finished_loop hrun)
    exact ⟨fb2, tr, hrun, e1, draw_line_finished_length hrun⟩
/-! ### Termination, step count, bounds and accuracy of `draw_line` -/

/-- Claim C15. For endpoints with coordinates in `[0, 65535]` the loop of
`draw_line` terminates: allowed `max(|x1-x0|, |y1-y0|) + 1` iterations or more
it reaches its `break`, without overflow.  It stops exactly at `(x1,y1)`: the
last pixel written is `(x1,y1)`, no earlier one is, and no pixel written has `x`
beyond `x1` or `y` beyond `y1` (all lie between the endpoints). -/
theorem draw_line_terminates (fb : framebuffer_t) (x0 y0 x1 y1 : Int) (argb : Nat)
    (h0 : coord16 x0) (h1 : coord16 y0) (h2 : coord16 x1) (h3 : coord16 y1) (fuel : Nat)
    (hf : max |x1 - x0| |y1 - y0| + 1 ≤ (fuel : Int)) :
    ∃ fb2 tr, draw_line fuel fb x0 y0 x1 y1 argb = run_result.finished fb2 tr
      ∧ 1 ≤ tr.length ∧ tr.length ≤ fuel
      ∧ (tr.length : Int) ≤ |x1 - x0| + |y1 - y0| + 1
      ∧ tr.getLast? = some (x1, y1)
      ∧ (∀ p ∈ tr.dropLast, p ≠ (x1, y1))
      ∧ (∀ p ∈ tr, min x0 x1 ≤ p.1 ∧ p.1 ≤ max x0 x1 ∧ min y0 y1 ≤ p.2 ∧ p.2 ≤ max y0 y1) := by
  have hm := line_small_of_coord16 h0 h1 h2 h3
  rw [← max_abs_eq] at hf
  obtain ⟨fb2, tr, hrun⟩ := draw_line_finishes fb x0 y0 x1 y1 argb hm fuel hf
  obtain ⟨_, e2, e3, _, _, e6, e7⟩ :=
    draw_line_loop_finished argb fuel _ _ _ _ (draw_line_finished_loop hrun)
  have hlen := draw_line_finished_length hrun
  rw [max_abs_eq] at hlen
  refine ⟨fb2, tr, hrun, e2, e3, ?_, e6, e7, ?_⟩
  · rw [hlen]
    have a1 := abs_nonneg (x1 - x0)
    have a2 := abs_nonneg (y1 - y0)
    have := max_le (show |x1 - x0| ≤ |x1 - x0| + |y1 - y0| by omega)
      (show |y1 - y0| ≤ |x1 - x0| + |y1 - y0| by omega)
    omega
  · intro p hp
    obtain ⟨n, t, ht, hpt⟩ := draw_line_finished_iter hrun p hp
    obtain ⟨i, j, hinv, _⟩ := draw_line_iter_inv x0 y0 x1 y1 n t ht
    rw [hpt]
    exact line_inv_box hinv

/-- Witness of `draw_line_terminates`: the line from `(5,9)` to `(2,0)`. -/
theorem draw_line_terminates_witness :
    ∃ fb2 tr, draw_line 10 ⟨fun _ => 0, 16, 16, 64, 1024⟩ 5 9 2 0 1
        = run_result.finished fb2 tr
      ∧ 1 ≤ tr.length ∧ tr.length ≤ 10
      ∧ (tr.length : Int) ≤ |(2 : Int) - 5| + |(0 : Int) - 9| + 1
      ∧ tr.getLast? = some (2, 0)
      ∧ (∀ p ∈ tr.dropLast, p ≠ (2, 0))
      ∧ (∀ p ∈ tr, min 5 2 ≤ p.1 ∧ p.1 ≤ max 5 2 ∧ min 9 0 ≤ p.2 ∧ p.2 ≤ max 9 0) :=
  draw_line_terminates ⟨fun _ => 0, 16, 16, 64, 1024⟩ 5 9 2 0 1 (by unfold coord16; decide)
    (by unfold coord16; decide) (by unfold coord16; decide) (by unfold coord16; decide) 10
    (by decide)

/-- Claim C16. For endpoints with coordinates in `[0, 65535]`: from an
iteration that does not break to the next one, the coordinate on the dominant
axis (`x` when `|x1-x0| ≥ |y1-y0|`, `y` when `|y1-y0| ≥ |x1-x0|`) moves by
exactly one step towards the endpoint and the other coordinate by no step or
one; so `draw_line` makes exactly `max(|x1-x0|, |y1-y0|) + 1` pixel writes: it
finishes with that many when allowed as many iterations, and is still running
when allowed fewer. -/
theorem dominant_axis_steps (x0 y0 x1 y1 : Int)
    (h0 : coord16 x0) (h1 : coord16 y0) (h2 : coord16 x1) (h3 : coord16 y1) :
    (∀ (n : Nat) (a b : line_state), draw_line_iter x0 y0 x1 y1 n = some a →
        draw_line_iter x0 y0 x1 y1 (n + 1) = some b →
        (|y1 - y0| ≤ |x1 - x0| → b.x0 = a.x0 + line_sx x0 x1
          ∧ (b.y0 = a.y0 ∨ b.y0 = a.y0 + line_sx y0 y1))
        ∧ (|x1 - x0| ≤ |y1 - y0| → b.y0 = a.y0 + line_sx y0 y1
          ∧ (b.x0 = a.x0 ∨ b.x0 = a.x0 + line_sx x0 x1)))
    ∧ (∀ (fb : framebuffer_t) (argb : Nat) (fuel : Nat),
        max |x1 - x0| |y1 - y0| + 1 ≤ (fuel : Int) →
        ∃ fb2 tr, draw_line fuel fb x0 y0 x1 y1 argb = run_result.finished fb2 tr
          ∧ (tr.length : Int) = max |x1 - x0| |y1 - y0| + 1)
    ∧ (∀ (fb : framebuffer_t) (argb : Nat) (fuel : Nat),
        (fuel : Int) ≤ max |x1 - x0| |y1 - y0| →
        draw_line fuel fb x0 y0 x1 y1 argb = run_result.running) := by
  have hs := line_setup_of x0 y0 x1 y1
  have hm := line_small_of_coord16 h0 h1 h2 h3
  refine ⟨?_, ?_, ?_⟩
  · intro n a b ha hb
    obtain ⟨hend, hb2, _⟩ := line_iter_succ_right n _ a b ha hb
    obtain ⟨i, j, hinv, ⟨tx, ty⟩, _⟩ := draw_line_iter_inv x0 y0 x1 y1 n a ha
    obtain ⟨_, ex, ey, _⟩ := line_step_int_counts hs hinv hend
    rw [hb2, ex, ey]
    have hdx := hs.dx_nonneg
    have hdy := hs.dy_nonpos
    rw [← line_dx_eq_abs x0 x1]
    have hD : |y1 - y0| = -(line_dy y0 y1) := by rw [line_dy_eq_abs, neg_neg]
    rw [hD]
    constructor
    · intro hd
      have := tx hd
      rw [if_pos (by omega)]
      refine ⟨rfl, ?_⟩
      split
      · exact Or.inr rfl
      · exact Or.inl rfl
    · intro hd
      have := ty hd
      rw [if_pos (by omega)]
      refine ⟨rfl, ?_⟩
      split
      · exact Or.inr rfl
      · exact Or.inl rfl
  · intro fb argb fuel hf
    rw [← max_abs_eq] at hf ⊢
    obtain ⟨fb2, tr, hrun⟩ := draw_line_finishes fb x0 y0 x1 y1 argb hm fuel hf
    exact ⟨fb2, tr, hrun, draw_line_finished_length hrun⟩
  · intro fb argb fuel hf
    rw [← max_abs_eq] at hf
    have hloop := draw_line_eq_loop fuel fb x0 y0 x1 y1 argb hm
    cases hres : draw_line fuel fb x0 y0 x1 y1 argb with
    | running => rfl
    | finished fb2 tr =>
      exfalso
      have hlen := draw_line_finished_length hres
      obtain ⟨_, _, e3, _⟩ :=
        draw_line_loop_finished argb fuel _ _ _ _ (draw_line_finished_loop hres)
      omega
    | overflow =>
      exfalso
      rw [hloop] at hres
      obtain ⟨n, t, ht, _, hnone⟩ := draw_line_loop_overflow argb fuel _ _ hres
      have ht2 : draw_line_iter x0 y0 x1 y1 n = some t := ht
      obtain ⟨i, j, hinv, _⟩ := draw_line_iter_inv x0 y0 x1 y1 n t ht2
      rw [line_step_eq_int hs hm hinv] at hnone
      cases hnone

/-- Witness of `dominant_axis_steps`: the line from `(0,0)` to `(7,3)`. -/
theorem dominant_axis_steps_witness :
    (∀ (n : Nat) (a b : line_state), draw_line_iter 0 0 7 3 n = some a →
        draw_line_iter 0 0 7 3 (n + 1) = some b →
        (|(3 : Int) - 0| ≤ |(7 : Int) - 0| → b.x0 = a.x0 + line_sx 0 7
          ∧ (b.y0 = a.y0 ∨ b.y0 = a.y0 + line_sx 0 3))
        ∧ (|(7 : Int) - 0| ≤ |(3 : Int) - 0| → b.y0 = a.y0 + line_sx 0 3
          ∧ (b.x0 = a.x0 ∨ b.x0 = a.x0 + line_sx 0 7)))
    ∧ (∀ (fb : framebuffer_t) (argb : Nat) (fuel : Nat),
        max |(7 : Int) - 0| |(3 : Int) - 0| + 1 ≤ (fuel : Int) →
        ∃ fb2 tr, draw_line fuel fb 0 0 7 3 argb = run_result.finished fb2 tr
          ∧ (tr.length : Int) = max |(7 : Int) - 0| |(3 : Int) - 0| + 1)
    ∧ (∀ (fb : framebuffer_t) (argb : Nat) (fuel : Nat),
        (fuel : Int) ≤ max |(7 : Int) - 0| |(3 : Int) - 0| →
        draw_line fuel fb 0 0 7 3 argb = run_result.running) :=
  dominant_axis_steps 0 0 7 3 (by unfold coord16; decide) (by unfold coord16; decide)
    (by unfold coord16; decide) (by unfold coord16; decide)

/-- Counterexample to claim C17 as stated ("for all integer endpoints"): for
the `int` endpoints `(0,0)` and `(2147483647,0)` the first iteration writes
`(0,0)` with `err = 2147483647`, and its `e2 = 2*err` does not fit an `int`
(undefined behaviour), so nothing is guaranteed for the pixels passed to
`put_pixel` after it.  The same happens with both endpoints in bounds and
`pitch >= 4*width`: in a frame buffer of width 1, height `2^31` and pitch 4,
for the endpoints `(0,0)` and `(0,2147483647)`. -/
theorem writes_in_box_counterexample :
    int_ok 0 ∧ int_ok 2147483647
    ∧ draw_line_iter 0 0 2147483647 0 0 = some { x0 := 0, y0 := 0, err := 2147483647 }
    ∧ ¬ int_ok (2 * 2147483647)
    ∧ draw_line_iter 0 0 2147483647 0 1 = none
    ∧ (∀ (fb : framebuffer_t) (argb : Nat) (fuel : Nat),
        draw_line (fuel + 1) fb 0 0 2147483647 0 argb = run_result.overflow)
    ∧ in_bounds ⟨fun _ => 0, 1, 2147483648, 4, 0⟩ 0 0
    ∧ in_bounds ⟨fun _ => 0, 1, 2147483648, 4, 0⟩ 0 2147483647
    ∧ 4 * (⟨fun _ => 0, 1, 2147483648, 4, 0⟩ : framebuffer_t).width
        ≤ (⟨fun _ => 0, 1, 2147483648, 4, 0⟩ : framebuffer_t).pitch
    ∧ (∀ (argb : Nat) (fuel : Nat),
        draw_line (fuel + 1) ⟨fun _ => 0, 1, 2147483648, 4, 0⟩ 0 0 0 2147483647 argb
          = run_result.overflow) := by
  refine ⟨by decide, by decide, by decide, by decide, by decide, ?_, ?_, ?_, by decide, ?_⟩
  · intro fb argb fuel
    simp [draw_line, draw_line_loop, line_step, line_dx, line_dy, line_sx, int_ok]
  · unfold in_bounds; decide
  · unfold in_bounds; decide
  · intro argb fuel
    simp [draw_line, draw_line_loop, line_step, line_dx, line_dy, line_sx, int_ok]

/-- Claim C17, amended. Every position that the loop of `draw_line` reaches
before an `int` operation overflows lies between the endpoints,
`min(x0,x1) ≤ x ≤ max(x0,x1)` and `min(y0,y1) ≤ y ≤ max(y0,y1)`.  For endpoints
with coordinates in `[0, 65535]` no operation overflows: `draw_line` never ends
in an overflow, every iteration up to number `max(|x1-x0|, |y1-y0|)` is reached
and lies between the endpoints, and the run, allowed that many iterations plus
one, reaches its `break` having passed only such pixels to `put_pixel`.  For a
frame buffer as `init_framebuffer` returns it (`uint32_t` fields, `size`
covering `height` rows of `pitch` bytes) with `pitch ≥ 4*width` and both
endpoints in bounds, likewise no operation overflows, and every pixel passed to
`put_pixel` is in bounds with its cell at byte offset `y*pitch + 4*x`, ending at
or before `height*pitch`, although `put_pixel` checks nothing. -/
theorem writes_in_box (x0 y0 x1 y1 : Int) :
    (∀ (n : Nat) (t : line_state), draw_line_iter x0 y0 x1 y1 n = some t →
        min x0 x1 ≤ t.x0 ∧ t.x0 ≤ max x0 x1 ∧ min y0 y1 ≤ t.y0 ∧ t.y0 ≤ max y0 y1)
    ∧ (coord16 x0 → coord16 y0 → coord16 x1 → coord16 y1 →
        (∀ (fuel : Nat) (fb : framebuffer_t) (argb : Nat),
          draw_line fuel fb x0 y0 x1 y1 argb ≠ run_result.overflow)
        ∧ (∀ n : Nat, (n : Int) ≤ max |x1 - x0| |y1 - y0| →
          ∃ t, draw_line_iter x0 y0 x1 y1 n = some t
            ∧ min x0 x1 ≤ t.x0 ∧ t.x0 ≤ max x0 x1 ∧ min y0 y1 ≤ t.y0 ∧ t.y0 ≤ max y0 y1)
        ∧ (∀ (fb : framebuffer_t) (argb : Nat) (fuel : Nat),
          max |x1 - x0| |y1 - y0| + 1 ≤ (fuel : Int) →
          ∃ fb2 tr, draw_line fuel fb x0 y0 x1 y1 argb = run_result.finished fb2 tr
            ∧ fb2 = put_pixels fb argb tr
            ∧ (tr.length : Int) = max |x1 - x0| |y1 - y0| + 1
            ∧ ∀ p ∈ tr, min x0 x1 ≤ p.1 ∧ p.1 ≤ max x0 x1
                ∧ min y0 y1 ≤ p.2 ∧ p.2 ≤ max y0 y1))
    ∧ (∀ fb : framebuffer_t, fb.valid → 4 * fb.width ≤ fb.pitch →
        in_bounds fb x0 y0 → in_bounds fb x1 y1 →
        (∀ (fuel : Nat) (argb : Nat),
          draw_line fuel fb x0 y0 x1 y1 argb ≠ run_result.overflow)
        ∧ (∀ n : Nat, (n : Int) ≤ max |x1 - x0| |y1 - y0| →
          ∃ t, draw_line_iter x0 y0 x1 y1 n = some t
            ∧ in_bounds fb t.x0 t.y0
            ∧ pixel_offset fb t.x0 t.y0 = t.y0 * fb.pitch + 4 * t.x0
            ∧ 0 ≤ pixel_offset fb t.x0 t.y0
            ∧ pixel_offset fb t.x0 t.y0 + 4 ≤ (fb.height : Int) * fb.pitch)
        ∧ (∀ (argb : Nat) (fuel : Nat),
          max |x1 - x0| |y1 - y0| + 1 ≤ (fuel : Int) →
          ∃ fb2 tr, draw_line fuel fb x0 y0 x1 y1 argb = run_result.finished fb2 tr
            ∧ fb2 = put_pixels fb argb tr
            ∧ (tr.length : Int) = max |x1 - x0| |y1 - y0| + 1
            ∧ ∀ p ∈ tr, (min x0 x1 ≤ p.1 ∧ p.1 ≤ max x0 x1
                ∧ min y0 y1 ≤ p.2 ∧ p.2 ≤ max y0 y1)
              ∧ in_bounds fb p.1 p.2
              ∧ pixel_offset fb p.1 p.2 = p.2 * fb.pitch + 4 * p.1
              ∧ 0 ≤ pixel_offset fb p.1 p.2
              ∧ pixel_offset fb p.1 p.2 + 4 ≤ (fb.height : Int) * fb.pitch)) := by
  have hbox : ∀ (n : Nat) (t : line_state), draw_line_iter x0 y0 x1 y1 n = some t →
      min x0 x1 ≤ t.x0 ∧ t.x0 ≤ max x0 x1 ∧ min y0 y1 ≤ t.y0 ∧ t.y0 ≤ max y0 y1 := by
    intro n t ht
    obtain ⟨i, j, hinv, _⟩ := draw_line_iter_inv x0 y0 x1 y1 n t ht
    exact line_inv_box hinv
  have hcell : ∀ fb : framebuffer_t, fb.valid → 4 * fb.width ≤ fb.pitch →
      in_bounds fb x0 y0 → in_bounds fb x1 y1 →
      ∀ (n : Nat) (t : line_state), draw_line_iter x0 y0 x1 y1 n = some t →
        in_bounds fb t.x0 t.y0
        ∧ pixel_offset fb t.x0 t.y0 = t.y0 * fb.pitch + 4 * t.x0
        ∧ 0 ≤ pixel_offset fb t.x0 t.y0
        ∧ pixel_offset fb t.x0 t.y0 + 4 ≤ (fb.height : Int) * fb.pitch := by
    intro fb hv hp hb0 hb1 n t ht
    obtain ⟨b1, b2, b3, b4⟩ := hbox n t ht
    obtain ⟨p0, p1, p2, p3⟩ := hb0
    obtain ⟨q0, q1, q2, q3⟩ := hb1
    have hin : in_bounds fb t.x0 t.y0 :=
      ⟨le_trans (le_min p0 q0) b1, lt_of_le_of_lt b2 (max_lt p1 q1),
        le_trans (le_min p2 q2) b3, lt_of_le_of_lt b4 (max_lt p3 q3)⟩
    have hoff := pixel_offset_u32 fb hv.2.1 hv.2.2.1 t.x0 t.y0 hin
    obtain ⟨c1, c2⟩ := cell_inside fb hp t.x0 t.y0 hin
    rw [hoff]
    exact ⟨hin, rfl, c1, c2⟩
  refine ⟨hbox, ?_, ?_⟩
  · intro h0 h1 h2 h3
    obtain ⟨s1, s2, s3⟩ := draw_line_safe_runs x0 y0 x1 y1 (line_small_of_coord16 h0 h1 h2 h3)
    refine ⟨s1, ?_, ?_⟩
    · intro n hn
      obtain ⟨t, ht⟩ := s2 n hn
      exact ⟨t, ht, hbox n t ht⟩
    · intro fb argb fuel hf
      obtain ⟨fb2, tr, hrun, e1, e2⟩ := s3 fb argb fuel hf
      refine ⟨fb2, tr, hrun, e1, e2, ?_⟩
      intro p hp
      obtain ⟨n, t, ht, hpt⟩ := draw_line_finished_iter hrun p hp
      rw [hpt]
      exact hbox n t ht
  · intro fb hv hp hb0 hb1
    obtain ⟨s1, s2, s3⟩ := draw_line_safe_runs x0 y0 x1 y1 (line_small_of_valid fb hv hp hb0 hb1)
    refine ⟨fun fuel argb => s1 fuel fb argb, ?_, ?_⟩
    · intro n hn
      obtain ⟨t, ht⟩ := s2 n hn
      exact ⟨t, ht, hcell fb hv hp hb0 hb1 n t ht⟩
    · intro argb fuel hf
      obtain ⟨fb2, tr, hrun, e1, e2⟩ := s3 fb argb fuel hf
      refine ⟨fb2, tr, hrun, e1, e2, ?_⟩
      intro p hq
      obtain ⟨n, t, ht, hqt⟩ := draw_line_finished_iter hrun p hq
      rw [hqt]
      exact ⟨hbox n t ht, hcell fb hv hp hb0 hb1 n t ht⟩

/-- Witness of `writes_in_box`: the line from `(3,0)` to `(0,2)`, whose
coordinates are in `[0, 65535]`, in a 4 x 3 frame buffer of pitch 16. -/
theorem writes_in_box_witness :
    ((∀ (fuel : Nat) (fb : framebuffer_t) (argb : Nat),
        draw_line fuel fb 3 0 0 2 argb ≠ run_result.overflow)
      ∧ (∀ n : Nat, (n : Int) ≤ max |(0 : Int) - 3| |(2 : Int) - 0| →
        ∃ t, draw_line_iter 3 0 0 2 n = some t
          ∧ min 3 0 ≤ t.x0 ∧ t.x0 ≤ max 3 0 ∧ min 0 2 ≤ t.y0 ∧ t.y0 ≤ max 0 2))
    ∧ (∀ (argb : Nat) (fuel : Nat),
        max |(0 : Int) - 3| |(2 : Int) - 0| + 1 ≤ (fuel : Int) →
        ∃ fb2 tr, draw_line fuel ⟨fun _ => 0, 4, 3, 16, 48⟩ 3 0 0 2 argb
            = run_result.finished fb2 tr
          ∧ fb2 = put_pixels ⟨fun _ => 0, 4, 3, 16, 48⟩ argb tr
          ∧ (tr.length : Int) = max |(0 : Int) - 3| |(2 : Int) - 0| + 1
          ∧ ∀ p ∈ tr, (min 3 0 ≤ p.1 ∧ p.1 ≤ max 3 0 ∧ min 0 2 ≤ p.2 ∧ p.2 ≤ max 0 2)
            ∧ in_bounds ⟨fun _ => 0, 4, 3, 16, 48⟩ p.1 p.2
            ∧ pixel_offset ⟨fun _ => 0, 4, 3, 16, 48⟩ p.1 p.2
              = p.2 * ((16 : Nat) : Int) + 4 * p.1
            ∧ 0 ≤ pixel_offset ⟨fun _ => 0, 4, 3, 16, 48⟩ p.1 p.2
            ∧ pixel_offset ⟨fun _ => 0, 4, 3, 16, 48⟩ p.1 p.2 + 4
              ≤ ((3 : Nat) : Int) * ((16 : Nat) : Int)) :=
  have h1 := (writes_in_box 3 0 0 2).2.1 (by unfold coord16; decide)
    (by unfold coord16; decide) (by unfold coord16; decide) (by unfold coord16; decide)
  have h2 := (writes_in_box 3 0 0 2).2.2 ⟨fun _ => 0, 4, 3, 16, 48⟩
    (by unfold framebuffer_t.valid; norm_num) (by norm_num)
    (by unfold in_bounds; norm_num) (by unfold in_bounds; norm_num)
  ⟨⟨h1.1, h1.2.1⟩, h2.2.2⟩

theorem abs_unit_mul {sx sy v : Int} (hx : sx = 1 ∨ sx = -1) (hy : sy = 1 ∨ sy = -1) :
    |sx * sy * v| = |v| := by
  rcases hx with e | e <;> rcases hy with f | f <;> rw [e, f] <;> simp

/-- The distance of an iteration's position from the ideal line, in units of
the line's extent. -/
theorem line_inv_deviation {x0 y0 x1 y1 : Int} {i j : Int} {t : line_state}
    (hinv : line_inv x0 y0 (line_dx x0 x1) (line_dy y0 y1) (line_sx x0 x1) (line_sx y0 y1)
      i j t)
    (ht : line_tight (line_dx x0 x1) (line_dy y0 y1) t) :
    2 * |(y1 - y0) * (t.x0 - x0) - (x1 - x0) * (t.y0 - y0)| ≤ max |x1 - x0| |y1 - y0| := by
  have hs := line_setup_of x0 y0 x1 y1
  obtain ⟨_, _, _, _, hx, hy, he, _, _⟩ := hinv
  obtain ⟨tx, ty⟩ := ht
  have hdx := hs.dx_nonneg
  have hdy := hs.dy_nonpos
  have e1 := hs.x1_eq
  have e2 := hs.y1_eq
  have hE : (y1 - y0) * (t.x0 - x0) - (x1 - x0) * (t.y0 - y0)
      = line_sx x0 x1 * line_sx y0 y1 * (line_dx x0 x1 + line_dy y0 y1 - t.err) := by
    rw [hx, hy, he]
    have a1 : x1 - x0 = line_dx x0 x1 * line_sx x0 x1 := by linarith
    have a2 : y1 - y0 = -(line_dy y0 y1) * line_sx y0 y1 := by linarith
    rw [a1, a2]
    ring
  rw [hE, abs_unit_mul hs.sx_unit hs.sy_unit, ← max_abs_eq]
  by_cases hd : -(line_dy y0 y1) ≤ line_dx x0 x1
  · have := tx hd
    rw [max_eq_left hd]
    have : |line_dx x0 x1 + line_dy y0 y1 - t.err| * 2 ≤ line_dx x0 x1 := by
      rcases abs_cases (line_dx x0 x1 + line_dy y0 y1 - t.err) with ⟨e, _⟩ | ⟨e, _⟩ <;>
        rw [e] <;> omega
    omega
  · have := ty (by omega)
    rw [max_eq_right (by omega)]
    have : |line_dx x0 x1 + line_dy y0 y1 - t.err| * 2 ≤ -(line_dy y0 y1) := by
      rcases abs_cases (line_dx x0 x1 + line_dy y0 y1 - t.err) with ⟨e, _⟩ | ⟨e, _⟩ <;>
        rw [e] <;> omega
    omega

/-- Claim C18. Every pixel written by `draw_line` lies within half a pixel of
the ideal line, measured along the minor axis: with `Dx = x1 - x0` and
`Dy = y1 - y0`, every position `(x,y)` reached satisfies
`2*|Dy*(x - x0) - Dx*(y - y0)| ≤ max(|Dx|, |Dy|)`; for coordinates in
`[0, 65535]` the run finishes and every pixel it writes satisfies this. -/
theorem half_pixel_accuracy (x0 y0 x1 y1 : Int)
    (h0 : coord16 x0) (h1 : coord16 y0) (h2 : coord16 x1) (h3 : coord16 y1) :
    (∀ (n : Nat) (t : line_state), draw_line_iter x0 y0 x1 y1 n = some t →
        2 * |(y1 - y0) * (t.x0 - x0) - (x1 - x0) * (t.y0 - y0)| ≤ max |x1 - x0| |y1 - y0|)
    ∧ (∀ (fb : framebuffer_t) (argb : Nat) (fuel : Nat),
        max |x1 - x0| |y1 - y0| + 1 ≤ (fuel : Int) →
        ∃ fb2 tr, draw_line fuel fb x0 y0 x1 y1 argb = run_result.finished fb2 tr
          ∧ ∀ p ∈ tr, 2 * |(y1 - y0) * (p.1 - x0) - (x1 - x0) * (p.2 - y0)|
              ≤ max |x1 - x0| |y1 - y0|) := by
  have hm := line_small_of_coord16 h0 h1 h2 h3
  have hdev : ∀ (n : Nat) (t : line_state), draw_line_iter x0 y0 x1 y1 n = some t →
      2 * |(y1 - y0) * (t.x0 - x0) - (x1 - x0) * (t.y0 - y0)| ≤ max |x1 - x0| |y1 - y0| := by
    intro n t ht
    obtain ⟨i, j, hinv, htight, _⟩ := draw_line_iter_inv x0 y0 x1 y1 n t ht
    exact line_inv_deviation hinv htight
  refine ⟨hdev, ?_⟩
  intro fb argb fuel hf
  rw [← max_abs_eq] at hf
  obtain ⟨fb2, tr, hrun⟩ := draw_line_finishes fb x0 y0 x1 y1 argb hm fuel hf
  refine ⟨fb2, tr, hrun, ?_⟩
  intro p hp
  obtain ⟨n, t, ht, hpt⟩ := draw_line_finished_iter hrun p hp
  rw [hpt]
  exact hdev n t ht

/-- Witness of `half_pixel_accuracy`: the line from `(1,2)` to `(9,5)`. -/
theorem half_pixel_accuracy_witness :
    (∀ (n : Nat) (t : line_state), draw_line_iter 1 2 9 5 n = some t →
        2 * |((5 : Int) - 2) * (t.x0 - 1) - ((9 : Int) - 1) * (t.y0 - 2)|
          ≤ max |(9 : Int) - 1| |(5 : Int) - 2|)
    ∧ (∀ (fb : framebuffer_t) (argb : Nat) (fuel : Nat),
        max |(9 : Int) - 1| |(5 : Int) - 2| + 1 ≤ (fuel : Int) →
        ∃ fb2 tr, draw_line fuel fb 1 2 9 5 argb = run_result.finished fb2 tr
          ∧ ∀ p ∈ tr, 2 * |((5 : Int) - 2) * (p.1 - 1) - ((9 : Int) - 1) * (p.2 - 2)|
              ≤ max |(9 : Int) - 1| |(5 : Int) - 2|) :=
  half_pixel_accuracy 1 2 9 5 (by unfold coord16; decide) (by unfold coord16; decide)
    (by unfold coord16; decide) (by unfold coord16; decide)

/-- Claim C19. With `dx = |x1 - x0| ≥ 0` and `dy = -|y1 - y0| ≤ 0` as
`draw_line` computes them, at every iteration reached, where `e2 = 2*err` is
evaluated, `3*dy ≤ 2*err ≤ 3*dx`.  Hence for endpoints with coordinates in
`[0, 65535]`: `dx`, `dy` and `dx + dy` fit an `int`; at every iteration `err`,
`e2`, `err + dy`, `err + dx`, `err + dy + dx` fit an `int`, `x0` and `y0` stay
in `[0, 65535]` and the loop body does not overflow; `draw_line` never ends in
an overflow, however many iterations it is allowed. -/
theorem err_in_range (x0 y0 x1 y1 : Int) :
    line_dx x0 x1 = |x1 - x0| ∧ line_dy y0 y1 = -|y1 - y0|
    ∧ 0 ≤ line_dx x0 x1 ∧ line_dy y0 y1 ≤ 0
    ∧ (∀ (n : Nat) (t : line_state), draw_line_iter x0 y0 x1 y1 n = some t →
        3 * line_dy y0 y1 ≤ 2 * t.err ∧ 2 * t.err ≤ 3 * line_dx x0 x1)
    ∧ (coord16 x0 → coord16 y0 → coord16 x1 → coord16 y1 →
        int_ok (line_dx x0 x1) ∧ int_ok (line_dy y0 y1)
        ∧ int_ok (line_dx x0 x1 + line_dy y0 y1)
        ∧ (∀ (n : Nat) (t : line_state), draw_line_iter x0 y0 x1 y1 n = some t →
            int_ok t.err ∧ int_ok (2 * t.err) ∧ int_ok (t.err + line_dy y0 y1)
            ∧ int_ok (t.err + line_dx x0 x1)
            ∧ int_ok (t.err + line_dy y0 y1 + line_dx x0 x1)
            ∧ coord16 t.x0 ∧ coord16 t.y0
            ∧ line_step (line_dx x0 x1) (line_dy y0 y1) (line_sx x0 x1) (line_sx y0 y1) t
              = some (line_step_int (line_dx x0 x1) (line_dy y0 y1) (line_sx x0 x1)
                  (line_sx y0 y1) t))
        ∧ (∀ (fuel : Nat) (fb : framebuffer_t) (argb : Nat),
            draw_line fuel fb x0 y0 x1 y1 argb ≠ run_result.overflow)) := by
  have hs := line_setup_of x0 y0 x1 y1
  have hdx := hs.dx_nonneg
  have hdy := hs.dy_nonpos
  refine ⟨line_dx_eq_abs x0 x1, line_dy_eq_abs y0 y1, hdx, hdy, ?_, ?_⟩
  · intro n t ht
    obtain ⟨i, j, _, htight, _⟩ := draw_line_iter_inv x0 y0 x1 y1 n t ht
    exact line_tight_bound hdx hdy htight
  · intro h0 h1 h2 h3
    have hm := line_small_of_coord16 h0 h1 h2 h3
    have c0 := h0
    have c1 := h1
    have c2 := h2
    have c3 := h3
    unfold coord16 at c0 c1 c2 c3
    have hdx2 : line_dx x0 x1 ≤ 65535 := by unfold line_dx; split <;> omega
    have hdy2 : -65535 ≤ line_dy y0 y1 := by unfold line_dy; split <;> omega
    refine ⟨by unfold int_ok; omega, by unfold int_ok; omega, by unfold int_ok; omega, ?_, ?_⟩
    · intro n t ht
      obtain ⟨i, j, hinv, htight, _⟩ := draw_line_iter_inv x0 y0 x1 y1 n t ht
      obtain ⟨b1, b2⟩ := line_tight_bound hdx hdy htight
      obtain ⟨bx1, bx2, by1, by2⟩ := line_inv_box hinv
      have m1 : 0 ≤ min x0 x1 := le_min c0.1 c2.1
      have m2 : max x0 x1 ≤ 65535 := max_le c0.2 c2.2
      have m3 : 0 ≤ min y0 y1 := le_min c1.1 c3.1
      have m4 : max y0 y1 ≤ 65535 := max_le c1.2 c3.2
      refine ⟨by unfold int_ok; omega, by unfold int_ok; omega, by unfold int_ok; omega,
        by unfold int_ok; omega, by unfold int_ok; omega, ⟨by omega, by omega⟩,
        ⟨by omega, by omega⟩, line_step_eq_int hs hm hinv⟩
    · intro fuel fb argb hres
      rw [draw_line_eq_loop fuel fb x0 y0 x1 y1 argb hm] at hres
      obtain ⟨n, t, ht, _, hnone⟩ := draw_line_loop_overflow argb fuel _ _ hres
      have ht2 : draw_line_iter x0 y0 x1 y1 n = some t := ht
      obtain ⟨i, j, hinv, _⟩ := draw_line_iter_inv x0 y0 x1 y1 n t ht2
      rw [line_step_eq_int hs hm hinv] at hnone
      cases hnone

/-- Witness of `err_in_range`: the line from `(65535, 0)` to `(0, 65535)`. -/
theorem err_in_range_witness :
    int_ok (line_dx 65535 0) ∧ int_ok (line_dy 0 65535)
    ∧ int_ok (line_dx 65535 0 + line_dy 0 65535)
    ∧ (∀ (n : Nat) (t : line_state), draw_line_iter 65535 0 0 65535 n = some t →
        int_ok t.err ∧ int_ok (2 * t.err) ∧ int_ok (t.err + line_dy 0 65535)
        ∧ int_ok (t.err + line_dx 65535 0)
        ∧ int_ok (t.err + line_dy 0 65535 + line_dx 65535 0)
        ∧ coord16 t.x0 ∧ coord16 t.y0
        ∧ line_step (line_dx 65535 0) (line_dy 0 65535) (line_sx 65535 0) (line_sx 0 65535) t
          = some (line_step_int (line_dx 65535 0) (line_dy 0 65535) (line_sx 65535 0)
              (line_sx 0 65535) t))
    ∧ (∀ (fuel : Nat) (fb : framebuffer_t) (argb : Nat),
        draw_line fuel fb 65535 0 0 65535 argb ≠ run_result.overflow) :=
  (err_in_range 65535 0 0 65535).2.2.2.2.2 (by unfold coord16; decide)
    (by unfold coord16; decide) (by unfold coord16; decide) (by unfold coord16; decide)

/-! ### Buffers held between present steps -/

theorem graphics_present_first (e : present_env) :
    graphics_present GraphicsContext.zero e
      = ({ previous_bo := e.bo, previous_framebuffer := e.new_fb },
         [kms_call.lock_front_buffer e.bo, kms_call.add_fb e.addfb_ret e.new_fb,
          kms_call.set_crtc e.new_fb e.setcrtc_ret]) := by
  simp [graphics_present, GraphicsContext.zero]

theorem graphics_present_later (gfx : GraphicsContext) (e : present_env)
    (hb : gfx.previous_bo ≠ 0) (hf : gfx.previous_framebuffer ≠ 0) :
    graphics_present gfx e
      = ({ previous_bo := e.bo, previous_framebuffer := e.new_fb },
         [kms_call.lock_front_buffer e.bo, kms_call.add_fb e.addfb_ret e.new_fb,
          kms_call.set_crtc e.new_fb e.setcrtc_ret, kms_call.rm_fb gfx.previous_framebuffer,
          kms_call.release_buffer gfx.previous_bo]) := by
  simp [graphics_present, hb, hf]

theorem filter_ne_eq_self (a : Nat) (l : List Nat) (h : a ∉ l) :
    List.filter (fun f => decide (f ≠ a)) l = l :=
  List.filter_eq_self.mpr (fun b hb => by
    simp only [ne_eq, decide_not, Bool.not_eq_true', decide_eq_false_iff_not]
    intro e; rw [e] at hb; exact h hb)

/-- One present step in which `drmModeAddFB` succeeds with ids that are new:
the display side holds the new slot in place of the tracked one, and at every
point of the step at most two slots more than the untracked ones. -/
theorem present_step (gfx : GraphicsContext) (k : kms_state) (e : present_env)
    (fbs0 locked0 : List Nat) (ht : tracked gfx k fbs0 locked0) (ha : e.addfb_ret = 0)
    (h1 : e.bo ≠ gfx.previous_bo) (h2 : e.new_fb ≠ gfx.previous_framebuffer)
    (h5 : e.bo ≠ 0) (h6 : e.new_fb ≠ 0) (h7 : e.new_fb ∉ fbs0) (h8 : e.bo ∉ locked0) :
    tracked (graphics_present gfx e).1 (kms_run k (graphics_present gfx e).2) fbs0 locked0
    ∧ (e.setcrtc_ret = 0 → (kms_run k (graphics_present gfx e).2).crtc = e.new_fb)
    ∧ (∀ p : List kms_call, p <+: (graphics_present gfx e).2 →
        (kms_run k p).fbs.length ≤ fbs0.length + 2
        ∧ (kms_run k p).locked.length ≤ locked0.length + 2)
    ∧ (k.crtc = gfx.previous_framebuffer ∨ k.crtc = 0 → e.setcrtc_ret ≠ 0 →
        (kms_run k (graphics_present gfx e).2).crtc = 0) := by
  rcases ht with ⟨hz, tf, tl⟩ | ⟨hf, hb, n1, n2, tf, tl⟩
  · subst hz
    rw [graphics_present_first]
    refine ⟨Or.inr ⟨h6, h5, h7, h8, ?_, ?_⟩, ?_, ?_, ?_⟩
    rotate_right
    · intro hc hs
      have hc0 : k.crtc = 0 := by
        rcases hc with c | c
        · exact c
        · exact c
      simp [kms_run, kms_state.apply, ha, hs, hc0]
    · by_cases hs : e.setcrtc_ret = 0 <;> simp [kms_run, kms_state.apply, ha, tf, hs]
    · by_cases hs : e.setcrtc_ret = 0 <;> simp [kms_run, kms_state.apply, ha, tl, hs]
    · intro hs
      simp [kms_run, kms_state.apply, ha, hs]
    · intro p hp
      by_cases hs : e.setcrtc_ret = 0 <;>
        rcases initial_of_three p _ _ _ hp with h | h | h | h <;> rw [h] <;>
        simp [kms_run, kms_state.apply, ha, tf, tl, hs]
  · rw [graphics_present_later gfx e hb hf]
    have f1 : ∀ a ∈ fbs0, ¬ a = gfx.previous_framebuffer := fun a ha e => n1 (e ▸ ha)
    have f2 : ∀ a ∈ locked0, ¬ a = gfx.previous_bo := fun a ha e => n2 (e ▸ ha)
    refine ⟨Or.inr ⟨h6, h5, h7, h8, ?_, ?_⟩, ?_, ?_, ?_⟩
    rotate_right
    · intro hc hs
      rcases hc with c | c
      · simp [kms_run, kms_state.apply, ha, hs, c]
      · simp [kms_run, kms_state.apply, ha, hs, c]
    · by_cases hs : e.setcrtc_ret = 0 <;>
        simp [kms_run, kms_state.apply, ha, tf, h2, hs, List.filter_cons] <;> exact f1
    · by_cases hs : e.setcrtc_ret = 0 <;>
        simp [kms_run, kms_state.apply, ha, tl, h1, hs, List.filter_cons] <;> exact f2
    · intro hs
      simp [kms_run, kms_state.apply, ha, hs, h2]
    · intro p hp
      by_cases hs : e.setcrtc_ret = 0 <;>
        rcases initial_of_five p _ _ _ _ _ hp with h | h | h
      · rcases initial_of_three p _ _ _ h with h | h | h | h <;> rw [h] <;>
          simp [kms_run, kms_state.apply, ha, tf, tl, hs]
      · rw [h]
        have l1 := List.length_filter_le (fun f => !decide (f = gfx.previous_framebuffer)) fbs0
        have l2 := List.length_filter_le (fun b => !decide (b = gfx.previous_bo)) locked0
        simp [kms_run, kms_state.apply, ha, tf, tl, h1, h2, hs, List.filter_cons]
        omega
      · rw [h]
        have l1 := List.length_filter_le (fun f => !decide (f = gfx.previous_framebuffer)) fbs0
        have l2 := List.length_filter_le (fun b => !decide (b = gfx.previous_bo)) locked0
        simp [kms_run, kms_state.apply, ha, tf, tl, h1, h2, hs, List.filter_cons]
        omega
      · rcases initial_of_three p _ _ _ h with h | h | h | h <;> rw [h] <;>
          simp [kms_run, kms_state.apply, ha, tf, tl, hs]
      · rw [h]
        have l1 := List.length_filter_le (fun f => !decide (f = gfx.previous_framebuffer)) fbs0
        have l2 := List.length_filter_le (fun b => !decide (b = gfx.previous_bo)) locked0
        simp [kms_run, kms_state.apply, ha, tf, tl, h1, h2, hs, List.filter_cons]
        omega
      · rw [h]
        have l1 := List.length_filter_le (fun f => !decide (f = gfx.previous_framebuffer)) fbs0
        have l2 := List.length_filter_le (fun b => !decide (b = gfx.previous_bo)) locked0
        simp [kms_run, kms_state.apply, ha, tf, tl, h1, h2, hs, List.filter_cons]
        omega

theorem graphics_present_fst (gfx : GraphicsContext) (e : present_env) :
    (graphics_present gfx e).1 = { previous_bo := e.bo, previous_framebuffer := e.new_fb } :=
  rfl

theorem context_after_env (gfx : GraphicsContext) (ds : List present_env) (d : present_env) :
    (present_frames gfx (ds ++ [d])).1
      = { previous_bo := d.bo, previous_framebuffer := d.new_fb } := by
  rw [present_frames_append]
  simp [present_frames, graphics_present]

theorem frames_calls_snoc (gfx : GraphicsContext) (ds : List present_env) (d : present_env) :
    (present_frames gfx (ds ++ [d])).2
      = (present_frames gfx ds).2 ++ (graphics_present (present_frames gfx ds).1 d).2 := by
  rw [present_frames_append]
  simp [present_frames]

theorem fresh_envs_front {l : List present_env} {a : present_env}
    (h : fresh_envs (l ++ [a])) : fresh_envs l := by
  obtain ⟨h1, h2, h3⟩ := h
  rw [List.map_append] at h1 h2
  exact ⟨(List.nodup_append.mp h1).1, (List.nodup_append.mp h2).1,
    fun s hs => h3 s (List.mem_append_left _ hs)⟩

theorem fresh_envs_tail {a : present_env} {l : List present_env}
    (h : fresh_envs (a :: l)) :
    fresh_envs l ∧ ∀ e ∈ l, e.new_fb ≠ a.new_fb ∧ e.bo ≠ a.bo := by
  obtain ⟨h1, h2, h3⟩ := h
  rw [List.map_cons, List.nodup_cons] at h1 h2
  refine ⟨⟨h1.2, h2.2, fun s hs => h3 s (List.mem_cons_of_mem _ hs)⟩, ?_⟩
  intro e he
  constructor
  · intro c
    exact h2.1 (List.mem_map.mpr ⟨e, he, c⟩)
  · intro c
    exact h1.1 (List.mem_map.mpr ⟨e, he, c⟩)

theorem fresh_envs_last_ne {l : List present_env} {d e : present_env}
    (h : fresh_envs (l ++ [d] ++ [e])) : e.bo ≠ d.bo ∧ e.new_fb ≠ d.new_fb := by
  obtain ⟨h1, h2, _⟩ := h
  rw [List.map_append, List.map_append] at h1 h2
  simp only [List.map_cons, List.map_nil] at h1 h2
  constructor
  · intro c
    have hd := (List.nodup_append.mp h1).2.2
    exact hd (show d.bo ∈ List.map (fun e => e.bo) l ++ [d.bo] by simp) (by simp [c])
  · intro c
    have hd := (List.nodup_append.mp h2).2.2
    exact hd (show d.new_fb ∈ List.map (fun e => e.new_fb) l ++ [d.new_fb] by simp)
      (by simp [c])

/-- The present steps of `ogl-min-line-perf.c` on a display side `k0` whose
registrations and locked buffers are not returned again: after the steps the
display side holds what the context tracks on top of what `k0` held, and at
every point at most two slots more than `k0`. -/
theorem frames_tracked (k0 : kms_state) (es : List present_env) (hfr : fresh_envs es)
    (hun : ∀ e ∈ es, e.new_fb ∉ k0.fbs ∧ e.bo ∉ k0.locked) :
    tracked (present_frames GraphicsContext.zero es).1
      (kms_run k0 (present_frames GraphicsContext.zero es).2) k0.fbs k0.locked
    ∧ (∀ p : List kms_call, p <+: (present_frames GraphicsContext.zero es).2 →
        (kms_run k0 p).fbs.length ≤ k0.fbs.length + 2
        ∧ (kms_run k0 p).locked.length ≤ k0.locked.length + 2)
    ∧ (∀ (ds : List present_env) (d : present_env), es = ds ++ [d] → d.setcrtc_ret = 0 →
        (kms_run k0 (present_frames GraphicsContext.zero es).2).crtc = d.new_fb)
    ∧ (k0.crtc = 0 → ∀ (ds : List present_env) (d : present_env), es = ds ++ [d] →
        d.setcrtc_ret ≠ 0 →
        (kms_run k0 (present_frames GraphicsContext.zero es).2).crtc = 0) := by
  induction es using List.reverseRecOn with
  | nil =>
    refine ⟨Or.inl ⟨rfl, rfl, rfl⟩, ?_, ?_, ?_⟩
    · intro p hp
      have e : p = [] := by simpa [present_frames] using hp
      rw [e]
      simp [kms_run]
    · intro ds d e
      simp at e
    · intro _ ds d e
      simp at e
  | append_singleton l e ih =>
    have hl := fresh_envs_front hfr
    obtain ⟨it, ip, ic, iz⟩ := ih hl (fun x hx => hun x (List.mem_append_left _ hx))
    obtain ⟨ha, h5, h6⟩ := hfr.2.2 e (by simp)
    obtain ⟨h7, h8⟩ := hun e (by simp)
    have hne : e.bo ≠ (present_frames GraphicsContext.zero l).1.previous_bo
        ∧ e.new_fb ≠ (present_frames GraphicsContext.zero l).1.previous_framebuffer := by
      rcases List.eq_nil_or_concat l with e0 | ⟨ds, d, e0⟩
      · subst e0
        exact ⟨h5, h6⟩
      · rw [List.concat_eq_append] at e0
        subst e0
        rw [context_after_env]
        exact fresh_envs_last_ne hfr
    obtain ⟨s1, s2, s3, s4⟩ := present_step _ _ e _ _ it ha hne.1 hne.2 h5 h6 h7 h8
    rw [graphics_present_fst] at s1
    have hcr : k0.crtc = 0 →
        (kms_run k0 (present_frames GraphicsContext.zero l).2).crtc
          = (present_frames GraphicsContext.zero l).1.previous_framebuffer
        ∨ (kms_run k0 (present_frames GraphicsContext.zero l).2).crtc = 0 := by
      intro hk
      rcases List.eq_nil_or_concat l with e0 | ⟨ds, d, e0⟩
      · subst e0
        exact Or.inr hk
      · rw [List.concat_eq_append] at e0
        subst e0
        rw [context_after_env]
        by_cases hd : d.setcrtc_ret = 0
        · exact Or.inl (ic ds d rfl hd)
        · exact Or.inr (iz hk ds d rfl hd)
    rw [frames_calls_snoc, context_after_env, kms_run_append]
    refine ⟨s1, ?_, ?_, ?_⟩
    rotate_right
    · intro hk ds d hd hs
      obtain ⟨_, e2⟩ := List.append_inj' hd rfl
      have e3 : e = d := by simpa using e2
      rw [← e3] at hs
      exact s4 (hcr hk) hs
    · intro p hp
      rcases initial_append_cases p _ _ hp with h | ⟨q, hq, hq2⟩
      · exact ip p h
      · rw [hq, kms_run_append]
        exact s3 q hq2
    · intro ds d hd hs
      obtain ⟨_, e2⟩ := List.append_inj' hd rfl
      have e3 : e = d := by simpa using e2
      rw [← e3] at hs ⊢
      exact s2 hs
/-! ### One buffer held between the present steps of `ogl-min-line-perf.c` -/

theorem present_block_success (prev : GraphicsContext) (e : present_env)
    (ha : e.addfb_ret = 0) (hs : e.setcrtc_ret = 0) :
    present_block prev e
      = (some (graphics_present prev e).1, (graphics_present prev e).2) := by
  simp [present_block, graphics_present, ha, hs]

theorem present_block_failure (prev : GraphicsContext) (e : present_env)
    (h : ¬ (e.addfb_ret = 0 ∧ e.setcrtc_ret = 0)) :
    ∃ calls, present_block prev e = (none, calls)
      ∧ ∀ c ∈ calls, (∀ f, c ≠ kms_call.rm_fb f) ∧ (∀ b, c ≠ kms_call.release_buffer b) := by
  unfold present_block
  by_cases ha : e.addfb_ret = 0
  · have hs : e.setcrtc_ret ≠ 0 := fun c => h ⟨ha, c⟩
    refine ⟨[kms_call.lock_front_buffer e.bo, kms_call.add_fb e.addfb_ret e.new_fb,
      kms_call.set_crtc e.new_fb e.setcrtc_ret, kms_call.exit_failure], ?_, ?_⟩
    · simp [ha, hs]
    · intro c hc
      simp only [List.mem_cons, List.mem_singleton, List.not_mem_nil, or_false] at hc
      rcases hc with h | h | h | h <;> rw [h] <;> simp
  · refine ⟨[kms_call.lock_front_buffer e.bo, kms_call.add_fb e.addfb_ret e.new_fb,
      kms_call.exit_failure], ?_, ?_⟩
    · simp [ha]
    · intro c hc
      simp only [List.mem_cons, List.mem_singleton, List.not_mem_nil, or_false] at hc
      rcases hc with h | h | h <;> rw [h] <;> simp

/-- The calls `drmModeRmFB` and `gbm_surface_release_buffer` of one present
step are for the tracked pair, when it is not zero. -/
theorem graphics_present_removes (gfx : GraphicsContext) (e : present_env) :
    ∀ c ∈ (graphics_present gfx e).2,
      (∀ f, c = kms_call.rm_fb f → f = gfx.previous_framebuffer ∧ f ≠ 0)
      ∧ (∀ b, c = kms_call.release_buffer b → b = gfx.previous_bo ∧ b ≠ 0) := by
  intro c hc
  unfold graphics_present at hc
  simp only [List.append_assoc, List.cons_append, List.nil_append, List.mem_cons,
    List.mem_append] at hc
  rcases hc with h | h | h | h | h
  · rw [h]; simp
  · rw [h]; simp
  · rw [h]; simp
  · by_cases z : gfx.previous_framebuffer = 0
    · simp [z] at h
    · simp only [ne_eq, z, not_false_eq_true, if_true, List.mem_singleton] at h
      rw [h]
      simp [z]
  · by_cases z : gfx.previous_bo = 0
    · simp [z] at h
    · simp only [ne_eq, z, not_false_eq_true, if_true, List.mem_singleton] at h
      rw [h]
      simp [z]

/-- Every `drmModeRmFB` and `gbm_surface_release_buffer` call of the loop is
for the pair the loop started with, when it is not zero, or for a buffer
acquired by an iteration of the loop. -/
theorem loop_frames_removes (prev : GraphicsContext) (es : List present_env) :
    ∀ c ∈ (loop_frames prev es).2,
      (∀ f, c = kms_call.rm_fb f →
        (f = prev.previous_framebuffer ∧ f ≠ 0) ∨ ∃ x ∈ es, f = x.new_fb)
      ∧ (∀ b, c = kms_call.release_buffer b →
        (b = prev.previous_bo ∧ b ≠ 0) ∨ ∃ x ∈ es, b = x.bo) := by
  induction es generalizing prev with
  | nil =>
    intro c hc
    simp [loop_frames] at hc
  | cons e es ih =>
    intro c hc
    by_cases hok : e.addfb_ret = 0 ∧ e.setcrtc_ret = 0
    · rw [loop_frames, present_block_success prev e hok.1 hok.2] at hc
      simp only [List.mem_append] at hc
      rcases hc with h | h
      · obtain ⟨g1, g2⟩ := graphics_present_removes prev e c h
        exact ⟨fun f hf => Or.inl (g1 f hf), fun b hb => Or.inl (g2 b hb)⟩
      · obtain ⟨g1, g2⟩ := ih _ c h
        rw [graphics_present_fst] at g1 g2
        constructor
        · intro f hf
          rcases g1 f hf with ⟨a, _⟩ | ⟨x, hx, a⟩
          · exact Or.inr ⟨e, by simp, a⟩
          · exact Or.inr ⟨x, List.mem_cons_of_mem _ hx, a⟩
        · intro b hb
          rcases g2 b hb with ⟨a, _⟩ | ⟨x, hx, a⟩
          · exact Or.inr ⟨e, by simp, a⟩
          · exact Or.inr ⟨x, List.mem_cons_of_mem _ hx, a⟩
    · obtain ⟨calls, hpb, hcalls⟩ := present_block_failure prev e hok
      rw [loop_frames, hpb] at hc
      obtain ⟨g1, g2⟩ := hcalls c hc
      exact ⟨fun f hf => absurd hf (g1 f), fun b hb => absurd hb (g2 b)⟩

/-- A loop that completed its iterations made the calls of the present steps
of `graphics_present`, all successful. -/
theorem loop_frames_some (prev : GraphicsContext) (es : List present_env)
    (g : GraphicsContext) (h : (loop_frames prev es).1 = some g) :
    (∀ e ∈ es, e.addfb_ret = 0 ∧ e.setcrtc_ret = 0)
    ∧ loop_frames prev es
      = (some (present_frames prev es).1, (present_frames prev es).2) := by
  induction es generalizing prev with
  | nil =>
    refine ⟨by simp, rfl⟩
  | cons e es ih =>
    by_cases hok : e.addfb_ret = 0 ∧ e.setcrtc_ret = 0
    · rw [loop_frames, present_block_success prev e hok.1 hok.2] at h ⊢
      obtain ⟨i1, i2⟩ := ih _ h
      refine ⟨?_, ?_⟩
      · intro x hx
        rcases List.mem_cons.mp hx with a | a
        · rw [a]; exact hok
        · exact i1 x a
      · simp only [i2, present_frames]
    · exfalso
      obtain ⟨calls, hpb, _⟩ := present_block_failure prev e hok
      rw [loop_frames, hpb] at h
      cases h

/-- A loop that completed its iterations goes on in a longer run from where
it stopped. -/
theorem loop_frames_append (prev : GraphicsContext) (es fs : List present_env)
    (g : GraphicsContext) (h : (loop_frames prev es).1 = some g) :
    (loop_frames prev (es ++ fs)).2 = (loop_frames prev es).2 ++ (loop_frames g fs).2 := by
  induction es generalizing prev with
  | nil =>
    simp only [loop_frames] at h
    injection h with h
    rw [h]
    simp [loop_frames]
  | cons e es ih =>
    by_cases hok : e.addfb_ret = 0 ∧ e.setcrtc_ret = 0
    · rw [loop_frames, present_block_success prev e hok.1 hok.2] at h
      rw [List.cons_append, loop_frames, loop_frames, present_block_success prev e hok.1 hok.2]
      simp only
      rw [ih _ h, List.append_assoc]
    · exfalso
      obtain ⟨calls, hpb, _⟩ := present_block_failure prev e hok
      rw [loop_frames, hpb] at h
      cases h
/-! ### The buffer of the present before the loop of `ogl-line-perf.c` -/

theorem main_present_started (e0 : present_env) (es : List present_env)
    (ha : e0.addfb_ret = 0) (hs : e0.setcrtc_ret = 0) :
    initial_present e0 = (some GraphicsContext.zero,
        [kms_call.lock_front_buffer e0.bo, kms_call.add_fb 0 e0.new_fb,
          kms_call.set_crtc e0.new_fb 0])
    ∧ main_present e0 es = ((loop_frames GraphicsContext.zero es).1,
        [kms_call.lock_front_buffer e0.bo, kms_call.add_fb 0 e0.new_fb,
          kms_call.set_crtc e0.new_fb 0] ++ (loop_frames GraphicsContext.zero es).2) := by
  have h : initial_present e0 = (some GraphicsContext.zero,
      [kms_call.lock_front_buffer e0.bo, kms_call.add_fb 0 e0.new_fb,
        kms_call.set_crtc e0.new_fb 0]) := by
    simp [initial_present, ha, hs, GraphicsContext.zero]
  refine ⟨h, ?_⟩
  rw [main_present, h]

theorem main_present_failed (e0 : present_env) (es : List present_env)
    (ha : e0.addfb_ret = 0) (hs : e0.setcrtc_ret ≠ 0) :
    main_present e0 es = (none,
        [kms_call.lock_front_buffer e0.bo, kms_call.add_fb 0 e0.new_fb,
          kms_call.set_crtc e0.new_fb e0.setcrtc_ret, kms_call.exit_failure]) := by
  have h : initial_present e0 = (none,
      [kms_call.lock_front_buffer e0.bo, kms_call.add_fb 0 e0.new_fb,
        kms_call.set_crtc e0.new_fb e0.setcrtc_ret, kms_call.exit_failure]) := by
    simp [initial_present, ha, hs]
  rw [main_present, h]

/-- Claim C21. In `ogl-line-perf.c`, with fresh non-zero ids: the loop starts
with `prev_bo = NULL`, `prev_fb = 0` although the present before the loop has
locked `bo` and registered `fb`; no call of the run, whatever the number of
iterations, is `drmModeRmFB` for that `fb` or `gbm_surface_release_buffer` for
that `bo`; and after every `n >= 1` completed iterations exactly two
registrations are live, the one of the last iteration and the initial one (the
same for the locked buffers), the last one being on the CRTC.  The calls of
`n` completed iterations are an initial part of the calls of every longer
run. -/
theorem initial_buffer_never_released (e0 : present_env) (es : List present_env)
    (hfr : fresh_envs (e0 :: es)) :
    (∀ g : GraphicsContext, (initial_present e0).1 = some g →
        g = GraphicsContext.zero
        ∧ (kms_run kms_state.init (initial_present e0).2).fbs = [e0.new_fb]
        ∧ (kms_run kms_state.init (initial_present e0).2).locked = [e0.bo])
    ∧ kms_call.rm_fb e0.new_fb ∉ (main_present e0 es).2
    ∧ kms_call.release_buffer e0.bo ∉ (main_present e0 es).2
    ∧ (∀ (ds : List present_env) (d : present_env) (g : GraphicsContext), es = ds ++ [d] →
        (main_present e0 es).1 = some g →
        g = { previous_bo := d.bo, previous_framebuffer := d.new_fb }
        ∧ (kms_run kms_state.init (main_present e0 es).2).fbs = [d.new_fb, e0.new_fb]
        ∧ (kms_run kms_state.init (main_present e0 es).2).locked = [d.bo, e0.bo]
        ∧ (kms_run kms_state.init (main_present e0 es).2).crtc = d.new_fb
        ∧ d.new_fb ≠ e0.new_fb ∧ d.bo ≠ e0.bo
        ∧ (kms_run kms_state.init (main_present e0 es).2).fbs.length = 2
        ∧ ∀ fs : List present_env,
            (main_present e0 es).2 <+: (main_present e0 (es ++ fs)).2) := by
  obtain ⟨ha0, hb0, hf0⟩ := hfr.2.2 e0 (by simp)
  obtain ⟨hes, hne⟩ := fresh_envs_tail hfr
  by_cases hs0 : e0.setcrtc_ret = 0
  · obtain ⟨hi, hm⟩ := main_present_started e0 es ha0 hs0
    have hk0 : (kms_run kms_state.init [kms_call.lock_front_buffer e0.bo,
          kms_call.add_fb 0 e0.new_fb, kms_call.set_crtc e0.new_fb 0]).fbs = [e0.new_fb]
        ∧ (kms_run kms_state.init [kms_call.lock_front_buffer e0.bo,
          kms_call.add_fb 0 e0.new_fb, kms_call.set_crtc e0.new_fb 0]).locked = [e0.bo] := by
      simp [kms_run, kms_state.apply, kms_state.init]
    refine ⟨?_, ?_, ?_, ?_⟩
    · intro g hg
      rw [hi] at hg ⊢
      injection hg with hg
      exact ⟨hg.symm, hk0.1, hk0.2⟩
    · intro hc
      rw [hm, List.mem_append] at hc
      rcases hc with h | h
      · simp at h
      · rcases (loop_frames_removes _ es _ h).1 _ rfl with ⟨a, b⟩ | ⟨x, hx, a⟩
        · exact b a
        · exact (hne x hx).1 a.symm
    · intro hc
      rw [hm, List.mem_append] at hc
      rcases hc with h | h
      · simp at h
      · rcases (loop_frames_removes _ es _ h).2 _ rfl with ⟨a, b⟩ | ⟨x, hx, a⟩
        · exact b a
        · exact (hne x hx).2 a.symm
    · intro ds d g hd hg
      rw [hm] at hg
      have hg2 : (loop_frames GraphicsContext.zero es).1 = some g := hg
      obtain ⟨_, hl⟩ := loop_frames_some _ es g hg2
      have hcalls : (main_present e0 es).2 = [kms_call.lock_front_buffer e0.bo,
          kms_call.add_fb 0 e0.new_fb, kms_call.set_crtc e0.new_fb 0]
          ++ (present_frames GraphicsContext.zero es).2 := by
        rw [hm, hl]
      have hgv : g = (present_frames GraphicsContext.zero es).1 := by
        rw [hl] at hg2
        injection hg2 with hg3
        exact hg3.symm
      have hdm : d ∈ es := by rw [hd]; simp
      have hun : ∀ x ∈ es, x.new_fb ∉ (kms_run kms_state.init [kms_call.lock_front_buffer e0.bo,
            kms_call.add_fb 0 e0.new_fb, kms_call.set_crtc e0.new_fb 0]).fbs
          ∧ x.bo ∉ (kms_run kms_state.init [kms_call.lock_front_buffer e0.bo,
            kms_call.add_fb 0 e0.new_fb, kms_call.set_crtc e0.new_fb 0]).locked := by
        intro x hx
        rw [hk0.1, hk0.2]
        simp only [List.mem_singleton]
        exact hne x hx
      obtain ⟨t1, _, t3, _⟩ := frames_tracked _ es hes hun
      rw [hk0.1, hk0.2] at t1
      have hsd : d.setcrtc_ret = 0 := ((loop_frames_some _ es g hg2).1 d hdm).2
      have hc3 := t3 ds d hd hsd
      have hctx : (present_frames GraphicsContext.zero es).1
          = { previous_bo := d.bo, previous_framebuffer := d.new_fb } := by
        rw [hd]; exact context_after_env _ ds d
      rw [hctx] at t1 hgv
      rw [hcalls, kms_run_append]
      rcases t1 with ⟨hz, _, _⟩ | ⟨_, _, _, _, tf, tl⟩
      · exfalso
        have hd0 : d.bo = 0 := congrArg GraphicsContext.previous_bo hz
        exact (hes.2.2 d hdm).2.1 hd0
      · refine ⟨hgv, tf, tl, hc3, (hne d hdm).1, (hne d hdm).2, by rw [tf]; rfl, ?_⟩
        intro fs
        rw [← hcalls, hm, (main_present_started e0 (es ++ fs) ha0 hs0).2,
          loop_frames_append _ es fs g hg2, ← List.append_assoc]
        exact List.prefix_append _ _
  · have hm := main_present_failed e0 es ha0 hs0
    have hi : (initial_present e0).1 = none := by
      simp [initial_present, ha0, hs0]
    refine ⟨?_, ?_, ?_, ?_⟩
    · intro g hg
      rw [hi] at hg
      cases hg
    · rw [hm]
      simp
    · rw [hm]
      simp
    · intro ds d g _ hg
      rw [hm] at hg
      cases hg

/-- Witness of `initial_buffer_never_released`: the initial present (buffer
10, id 20) and two iterations of the loop. -/
theorem initial_buffer_never_released_witness :
    kms_call.rm_fb 20 ∉ (main_present ⟨10, 0, 20, 0⟩ [⟨11, 0, 21, 0⟩, ⟨12, 0, 22, 0⟩]).2
    ∧ kms_call.release_buffer 10
        ∉ (main_present ⟨10, 0, 20, 0⟩ [⟨11, 0, 21, 0⟩, ⟨12, 0, 22, 0⟩]).2
    ∧ (kms_run kms_state.init
        (main_present ⟨10, 0, 20, 0⟩ [⟨11, 0, 21, 0⟩, ⟨12, 0, 22, 0⟩]).2).fbs = [22, 20]
    ∧ (kms_run kms_state.init
        (main_present ⟨10, 0, 20, 0⟩ [⟨11, 0, 21, 0⟩, ⟨12, 0, 22, 0⟩]).2).locked = [12, 10] :=
  have h := initial_buffer_never_released ⟨10, 0, 20, 0⟩ [⟨11, 0, 21, 0⟩, ⟨12, 0, 22, 0⟩]
    (by unfold fresh_envs; decide)
  have h2 := h.2.2.2 [⟨11, 0, 21, 0⟩] ⟨12, 0, 22, 0⟩ ⟨12, 22⟩ rfl rfl
  ⟨h.2.1, h.2.2.1, h2.2.1, h2.2.2.1⟩
/-! ### Runs that break the hand-off protocol -/

/-- Claim C4. The hand-off invariants do not hold for every sequence of
present steps, even with fresh non-zero ids.
In `ogl-line-perf.c` (every call succeeding): the present before the loop sets
buffer 10 with id 20, which the loop does not track; once the second iteration
has set id 22 on the CRTC, the slots `(10,20)` and `(11,21)` are both
`PendingRelease`, and `(10,20)` is still `PendingRelease` when that iteration
has removed and released `(11,21)`.
In `ogl-min-line-perf.c`: when the `drmModeSetCrtc` of the second call of
`graphics_present` returns an error, the call still removes the registration 1
and releases the buffer 10 of the first slot, which is then `Free`, while the
slot `(20,2)` that superseded it was never set on the CRTC (it is `Rendering`
and nothing is `Presented`). -/
theorem handoff_violated :
    (fresh_envs [⟨10, 0, 20, 0⟩, ⟨11, 0, 21, 0⟩, ⟨12, 0, 22, 0⟩]
      ∧ main_present ⟨10, 0, 20, 0⟩ [⟨11, 0, 21, 0⟩, ⟨12, 0, 22, 0⟩]
        = (some { previous_bo := 12, previous_framebuffer := 22 },
           [kms_call.lock_front_buffer 10, kms_call.add_fb 0 20, kms_call.set_crtc 20 0,
            kms_call.lock_front_buffer 11, kms_call.add_fb 0 21, kms_call.set_crtc 21 0,
            kms_call.lock_front_buffer 12, kms_call.add_fb 0 22, kms_call.set_crtc 22 0,
            kms_call.rm_fb 21, kms_call.release_buffer 11])
      ∧ [kms_call.lock_front_buffer 10, kms_call.add_fb 0 20, kms_call.set_crtc 20 0,
          kms_call.lock_front_buffer 11, kms_call.add_fb 0 21, kms_call.set_crtc 21 0,
          kms_call.lock_front_buffer 12, kms_call.add_fb 0 22, kms_call.set_crtc 22 0]
        <+: (main_present ⟨10, 0, 20, 0⟩ [⟨11, 0, 21, 0⟩, ⟨12, 0, 22, 0⟩]).2
      ∧ slot_state_of (kms_run kms_state.init
          [kms_call.lock_front_buffer 10, kms_call.add_fb 0 20, kms_call.set_crtc 20 0,
           kms_call.lock_front_buffer 11, kms_call.add_fb 0 21, kms_call.set_crtc 21 0,
           kms_call.lock_front_buffer 12, kms_call.add_fb 0 22, kms_call.set_crtc 22 0])
          10 20 = slot_state.PendingRelease
      ∧ slot_state_of (kms_run kms_state.init
          [kms_call.lock_front_buffer 10, kms_call.add_fb 0 20, kms_call.set_crtc 20 0,
           kms_call.lock_front_buffer 11, kms_call.add_fb 0 21, kms_call.set_crtc 21 0,
           kms_call.lock_front_buffer 12, kms_call.add_fb 0 22, kms_call.set_crtc 22 0])
          11 21 = slot_state.PendingRelease
      ∧ slot_state_of (kms_run kms_state.init
          [kms_call.lock_front_buffer 10, kms_call.add_fb 0 20, kms_call.set_crtc 20 0,
           kms_call.lock_front_buffer 11, kms_call.add_fb 0 21, kms_call.set_crtc 21 0,
           kms_call.lock_front_buffer 12, kms_call.add_fb 0 22, kms_call.set_crtc 22 0])
          12 22 = slot_state.Presented
      ∧ slot_state_of (kms_run kms_state.init
          (main_present ⟨10, 0, 20, 0⟩ [⟨11, 0, 21, 0⟩, ⟨12, 0, 22, 0⟩]).2)
          10 20 = slot_state.PendingRelease
      ∧ slot_state_of (kms_run kms_state.init
          (main_present ⟨10, 0, 20, 0⟩ [⟨11, 0, 21, 0⟩, ⟨12, 0, 22, 0⟩]).2)
          11 21 = slot_state.Free)
    ∧ (fresh_envs [⟨10, 0, 1, 0⟩, ⟨20, 0, 2, -22⟩]
      ∧ (present_frames GraphicsContext.zero [⟨10, 0, 1, 0⟩, ⟨20, 0, 2, -22⟩]).2
        = [kms_call.lock_front_buffer 10, kms_call.add_fb 0 1, kms_call.set_crtc 1 0,
           kms_call.lock_front_buffer 20, kms_call.add_fb 0 2, kms_call.set_crtc 2 (-22),
           kms_call.rm_fb 1, kms_call.release_buffer 10]
      ∧ kms_call.set_crtc 2 0
          ∉ (present_frames GraphicsContext.zero [⟨10, 0, 1, 0⟩, ⟨20, 0, 2, -22⟩]).2
      ∧ slot_state_of (kms_run kms_state.init
          (present_frames GraphicsContext.zero [⟨10, 0, 1, 0⟩, ⟨20, 0, 2, -22⟩]).2)
          10 1 = slot_state.Free
      ∧ slot_state_of (kms_run kms_state.init
          (present_frames GraphicsContext.zero [⟨10, 0, 1, 0⟩, ⟨20, 0, 2, -22⟩]).2)
          20 2 = slot_state.Rendering
      ∧ (kms_run kms_state.init
          (present_frames GraphicsContext.zero [⟨10, 0, 1, 0⟩, ⟨20, 0, 2, -22⟩]).2).crtc = 0) := by
  refine ⟨⟨by unfold fresh_envs; decide, by decide, by decide, by decide, by decide, by decide,
    by decide, by decide⟩, by unfold fresh_envs; decide, by decide, by decide, by decide,
    by decide, by decide⟩
end KmsMin
